import Mathlib

/-!
# FlexAlloc: a boundary-tag heap allocator

A shallow embedding of `FlexAlloc.c`.  The process state relevant to the
allocator is the pair of globals `heap_start` and `alloc_size`, the static
flag `allocated_once` of `init_heap`, and the memory region obtained from
`mmap`.  Memory is word addressed by byte address: `mem a` is the `int`
stored at the 4-aligned address `a`.  An access outside the mapped region,
or at an address that is not 4-aligned, is a `Fault.segv`; a loop that does
not terminate is a `Fault.hang`.

`int` values are mathematical integers kept in the 32-bit range by `wrap32`:
conversions to `int` and signed overflow wrap around in two's complement.
Pointers and `size_t` values are integers kept in the 64-bit range by
`wrap64`; the null pointer is `0`.

Each C function becomes a function from the state to `Except Fault` of its
return value and the new state.  The operating system's answers during
`init_heap` are a parameter of that function.
-/

namespace FlexAlloc

/-! ## Machine arithmetic -/

/-- Two's-complement reduction of an integer to the range of a 32-bit `int`. -/
def wrap32 (x : Int) : Int := (x + 2147483648) % 4294967296 - 2147483648

/-- Reduction of an integer to the range of a 64-bit pointer or `size_t`. -/
def wrap64 (x : Int) : Int := x % 18446744073709551616

/-- The unsigned 32-bit pattern of an `int`. -/
def toU32 (x : Int) : Nat := (x % 4294967296).toNat

/-- The `int` with a given unsigned 32-bit pattern. -/
def ofU32 (n : Nat) : Int := wrap32 (n : Int)

/-- The C operator `&` on `int`. -/
def band (x y : Int) : Int := ofU32 (toU32 x &&& toU32 y)

/-- The C operator `|` on `int`. -/
def bor (x y : Int) : Int := ofU32 (toU32 x ||| toU32 y)

/-- The C operator `~` on `int`. -/
def bnot (x : Int) : Int := ofU32 (4294967295 - toU32 x)

/-- The C operator `%` on `int` (truncating towards zero). -/
def cmod (x y : Int) : Int := Int.tmod x y

/-! ## Process state -/

/-- Abnormal outcomes of a call. -/
inductive Fault where
  | segv
  | hang
  deriving DecidableEq, Repr

/-- The state of the allocator: globals, the static flag, and memory. -/
structure Heap where
  heap_start : Int
  alloc_size : Int
  allocated_once : Int
  map_base : Int
  map_len : Int
  mem : Int → Int

/-- An address at which a `blockHeader` may be read or written. -/
def Heap.valid (h : Heap) (a : Int) : Prop :=
  h.map_base ≤ a ∧ a + 4 ≤ h.map_base + h.map_len ∧ a % 4 = 0

instance (h : Heap) (a : Int) : Decidable (h.valid a) := by
  unfold Heap.valid; infer_instance

/-- Memory with the word at `a` replaced by `v`. -/
def upd (m : Int → Int) (a v : Int) : Int → Int := fun x => if x = a then v else m x

/-- Read `p->size_status`. -/
def load (h : Heap) (p : Int) : Except Fault Int :=
  if h.valid p then .ok (h.mem p) else .error .segv

/-- Write `p->size_status = v`. -/
def store (h : Heap) (p v : Int) : Except Fault Heap :=
  if h.valid p then .ok { h with mem := upd h.mem p v } else .error .segv

/-! ## Block metadata codec -/

def getSizeClearMask : Int := bnot 3

def isPrevAlloc (h : Heap) (hdr : Int) : Except Fault Int := do
  let v ← load h hdr
  pure (band v 2)

def isAlloc (h : Heap) (hdr : Int) : Except Fault Int := do
  let v ← load h hdr
  pure (band v 1)

def getBlkSize (h : Heap) (hdr : Int) : Except Fault Int := do
  let v ← load h hdr
  pure (band v getSizeClearMask)

def getNextBlk (h : Heap) (hdr : Int) : Except Fault Int := do
  let s ← getBlkSize h hdr
  pure (wrap64 (hdr + s))

def isEnd (h : Heap) (hdr : Int) : Except Fault Int := do
  let v ← load h hdr
  pure (if v = 1 then 1 else 0)

def getFoot (h : Heap) (hdr : Int) : Except Fault Int := do
  let n ← getNextBlk h hdr
  pure (wrap64 (n - 4))

/-! ## Allocation -/

/-- The statement `if (!isEnd(p)) p->size_status |= 2;`, where `p` is the
value of `getNextBlk` of the block just allocated (the source evaluates that
call twice, with no write in between). -/
def markNextPrevAlloc (h : Heap) (p : Int) : Except Fault Heap := do
  let e ← isEnd h p
  if e = 0 then
    let w ← load h p
    store h p (bor w 2)
  else
    pure h

/-- The body of the exact-match branch of the search loop of `balloc`:
mark the block allocated, set the successor's p-bit, return the payload. -/
def balloc_exact (h : Heap) (currBlk : Int) : Except Fault (Int × Heap) := do
  let v ← load h currBlk
  let h1 ← store h currBlk (bor v 1)
  let n ← getNextBlk h1 currBlk
  let h2 ← markNextPrevAlloc h1 n
  pure (wrap64 (currBlk + 4), h2)

/-- The search loop of `balloc`.  The result is `Sum.inr (ptr, heap)` when the
loop returns from the function on an exact match, and `Sum.inl bestBlk` when
the loop ends at the end mark. -/
def balloc_scan : Nat → Heap → Int → Int → Int → Except Fault (Int ⊕ (Int × Heap))
  | 0, _, _, _, _ => .error .hang
  | fuel + 1, h, size, bestBlk, currBlk => do
    let e ← isEnd h currBlk
    if e ≠ 0 then
      pure (.inl bestBlk)
    else
      let a ← isAlloc h currBlk
      if a = 0 then
        let s ← getBlkSize h currBlk
        if s = size then
          let r ← balloc_exact h currBlk
          pure (.inr r)
        else
          let c1 ←
            if bestBlk = 0 then pure true
            else do
              let sc ← getBlkSize h currBlk
              let sb ← getBlkSize h bestBlk
              pure (decide (sc < sb))
          let c2 ←
            if c1 then do
              let sc ← getBlkSize h currBlk
              pure (decide (size < sc))
            else pure false
          let n ← getNextBlk h currBlk
          balloc_scan fuel h size (if c2 then currBlk else bestBlk) n
      else
        let n ← getNextBlk h currBlk
        balloc_scan fuel h size bestBlk n

/-- The part of `balloc` after the search loop found a best-fit block. -/
def balloc_split (h : Heap) (size bestBlk : Int) : Except Fault (Int × Heap) := do
  let sb ← getBlkSize h bestBlk
  let leftSize := wrap32 (sb - size)
  let nextBlk := wrap64 (bestBlk + 4 * (wrap64 size / 4))
  let h1 ← store h nextBlk (band (bor leftSize 2) (bnot 1))
  let f ← getFoot h1 nextBlk
  let sn ← getBlkSize h1 nextBlk
  let h2 ← store h1 f sn
  let v ← load h2 bestBlk
  let h3 ← store h2 bestBlk (bor size (band v 3))
  let v3 ← load h3 bestBlk
  let h4 ← store h3 bestBlk (bor v3 1)
  let n ← getNextBlk h4 bestBlk
  let h5 ← markNextPrevAlloc h4 n
  let h6 ←
    if bestBlk = h5.heap_start then do
      let v5 ← load h5 bestBlk
      store h5 bestBlk (bor v5 2)
    else pure h5
  pure (wrap64 (bestBlk + 4), h6)

/-- Bound on the iterations of a block walk: the mapped region holds
`map_len / 4` words, so a walk that takes more steps has come back to an
address it visited before and, memory being unchanged while it walks, does not
end. -/
def Heap.fuel (h : Heap) : Nat := (h.map_len / 4).toNat + 1

/-- The block size `balloc` computes from the requested size: header added,
then rounded up to a multiple of 8, in `int` arithmetic. -/
def need (size : Int) : Int :=
  let s := wrap32 (size + 4)
  if cmod s 8 ≠ 0 then wrap32 (s + (8 - cmod s 8)) else s

/-- The function `balloc`; the null pointer is `0`. -/
def balloc (h : Heap) (size : Int) : Except Fault (Int × Heap) :=
  if size ≤ 0 then .ok (0, h)
  else do
    let size := need size
    let v ← load h h.heap_start
    let h0 ← store h h.heap_start (bor v 2)
    let r ← balloc_scan h0.fuel h0 size 0 h0.heap_start
    match r with
    | .inr res => pure res
    | .inl bestBlk =>
      if bestBlk = 0 then pure (0, h0)
      else balloc_split h0 size bestBlk

/-! ## Deallocation -/

/-- First part of the body of `bfree`: clear the allocated bit, clear the
successor's p-bit unless it is the end mark, and write the footer. -/
def bfree_release (h : Heap) (blk nextBlk : Int) : Except Fault Heap := do
  let v ← load h blk
  let h1 ← store h blk (band v (bnot 1))
  let e ← isEnd h1 nextBlk
  let h2 ←
    if e = 0 then do
      let w ← load h1 nextBlk
      store h1 nextBlk (band w (bnot 2))
    else pure h1
  let f ← getFoot h2 blk
  let s ← getBlkSize h2 blk
  store h2 f s

/-- Second part of the body of `bfree`: coalesce with the next block if it is
free. -/
def bfree_join_next (h : Heap) (blk nextBlk : Int) : Except Fault Heap := do
  let e ← isEnd h nextBlk
  if e = 0 then
    let a ← isAlloc h nextBlk
    if a = 0 then
      let vb ← load h blk
      let vn ← load h nextBlk
      let h1 ← store h blk (wrap32 (vb + vn))
      let f ← getFoot h1 blk
      let s ← getBlkSize h1 blk
      store h1 f s
    else pure h
  else pure h

/-- Third part of the body of `bfree`: coalesce with the previous block if it
is free. -/
def bfree_join_prev (h : Heap) (blk : Int) : Except Fault Heap := do
  let p ← isPrevAlloc h blk
  if p = 0 then
    let fv ← load h (wrap64 (blk - 4))
    let prevBlk := wrap64 (blk - fv)
    let vb ← load h blk
    let vp ← load h prevBlk
    let h1 ← store h prevBlk (wrap32 (vb + vp))
    let f ← getFoot h1 prevBlk
    let s ← getBlkSize h1 prevBlk
    store h1 f s
  else pure h

/-- The function `bfree`. -/
def bfree (h : Heap) (ptr : Int) : Except Fault (Int × Heap) :=
  if ptr = 0 then .ok (-1, h)
  else if ptr % 8 ≠ 0 then .ok (-1, h)
  else
    let blk := wrap64 (ptr - 4)
    if blk < h.heap_start ∨ blk ≥ wrap64 (h.heap_start + h.alloc_size) then .ok (-1, h)
    else do
      let a ← isAlloc h blk
      if a = 0 then pure (-1, h)
      else
        let nextBlk ← getNextBlk h blk
        let h1 ← bfree_release h blk nextBlk
        let h2 ← bfree_join_next h1 blk nextBlk
        let h3 ← bfree_join_prev h2 blk
        pure (0, h3)

/-! ## Initialization -/

/-- What the operating system answers during `init_heap`: the page size, whether
`open("/dev/zero")` succeeds, and the address `mmap` returns (`none` for
`MAP_FAILED`). -/
structure OS where
  pagesize : Int
  open_ok : Bool
  mmap_ptr : Option Int

/-- The value `init_heap` gives `alloc_size` before the call of `mmap`:
`sizeOfRegion` padded to a multiple of the page size. -/
def region_size (pagesize sizeOfRegion : Int) : Int :=
  let padsize := cmod sizeOfRegion pagesize
  let padsize := cmod (wrap32 (pagesize - padsize)) pagesize
  wrap32 (sizeOfRegion + padsize)

/-- The function `init_heap`.  A successful `mmap` of `/dev/zero` yields a
zero-filled region of the requested length. -/
def init_heap (h : Heap) (os : OS) (sizeOfRegion : Int) : Except Fault (Int × Heap) :=
  if h.allocated_once ≠ 0 then .ok (-1, h)
  else if sizeOfRegion ≤ 0 then .ok (-1, h)
  else
    let h1 := { h with alloc_size := region_size os.pagesize sizeOfRegion }
    if os.open_ok = false then .ok (-1, h1)
    else
      match os.mmap_ptr with
      | none => .ok (-1, { h1 with allocated_once := 0 })
      | some mmap_ptr => do
        let h2 : Heap :=
          { h1 with allocated_once := 1, map_base := mmap_ptr, map_len := wrap64 h1.alloc_size,
                    mem := fun _ => 0 }
        let h3 : Heap := { h2 with alloc_size := wrap32 (h2.alloc_size - 8) }
        let h4 : Heap := { h3 with heap_start := wrap64 (mmap_ptr + 4) }
        let end_mark := wrap64 (h4.heap_start + h4.alloc_size)
        let h5 ← store h4 end_mark 1
        let h6 ← store h5 h5.heap_start h5.alloc_size
        let v ← load h6 h6.heap_start
        let h7 ← store h6 h6.heap_start (wrap32 (v + 2))
        let footer := wrap64 (h7.heap_start + h7.alloc_size - 4)
        let h8 ← store h7 footer h7.alloc_size
        pure (0, h8)

/-! ## Heap traversal -/

/-- One line of the report of `disp_heap`. -/
structure Block where
  addr : Int
  size : Int
  alloc : Bool
  palloc : Bool
  deriving DecidableEq, Repr

/-- The traversal loop of `disp_heap`, collecting the blocks it reports. -/
def walk_from : Nat → Heap → Int → Except Fault (List Block)
  | 0, _, _ => .error .hang
  | fuel + 1, h, current => do
    let v ← load h current
    if v = 1 then pure []
    else
      let t_size := v
      let is_used := decide (band t_size 1 ≠ 0)
      let t_size := if is_used then wrap32 (t_size - 1) else t_size
      let p_used := decide (band t_size 2 ≠ 0)
      let t_size := if p_used then wrap32 (t_size - 2) else t_size
      let rest ← walk_from fuel h (wrap64 (current + t_size))
      pure ({ addr := current, size := t_size, alloc := is_used, palloc := p_used } :: rest)

/-- The blocks `disp_heap` reports, in address order. -/
def walk (h : Heap) : Except Fault (List Block) := walk_from h.fuel h h.heap_start


/-! ## Block lists and well-formed heaps -/

/-- A block as the data model describes it: total size and allocated flag. -/
structure Blk where
  size : Int
  alloc : Bool
  deriving DecidableEq, Repr

/-- The header word of a block of size `s` with a-bit `al` and p-bit `p`. -/
def hdr (s : Int) (al p : Bool) : Int :=
  s + (if al then 1 else 0) + (if p then 2 else 0)

/-- Sum of the block sizes. -/
def total : List Blk → Int
  | [] => 0
  | b :: bs => b.size + total bs

/-- The allocated flag of the last block, or `p` for an empty list. -/
def lastAlloc (p : Bool) : List Blk → Bool
  | [] => p
  | b :: bs => lastAlloc b.alloc bs

/-- Memory holds the blocks `bs` back to back from address `a`, the block
before `a` having allocated flag `p`: sizes are multiples of 8 and at least 8,
each header holds size, a-bit and the p-bit of its predecessor, and each free
block ends with a footer holding its size. -/
def Seg (m : Int → Int) : List Blk → Int → Bool → Prop
  | [], _, _ => True
  | b :: bs, a, p =>
    8 ≤ b.size ∧ b.size % 8 = 0 ∧ m a = hdr b.size b.alloc p ∧
      (b.alloc = false → m (a + b.size - 4) = b.size) ∧ Seg m bs (a + b.size) b.alloc

/-- The heap `h` with its memory contents replaced by `m`. -/
def setMem (h : Heap) (m : Int → Int) : Heap := { h with mem := m }

/-- The region set up by `init_heap` is mapped: `heap_start` is 4 bytes into a
mapping of `alloc_size + 8` bytes that starts at a non-null 8-aligned address
and lies in the lower half of the address space; the length of the mapping
fits an `int` (it was held in `alloc_size`), and `alloc_size` is not
negative. -/
structure Region (h : Heap) : Prop where
  base_pos : 0 < h.map_base
  base_al : h.map_base % 8 = 0
  start : h.heap_start = h.map_base + 4
  len : h.map_len = h.alloc_size + 8
  top : h.map_base + h.map_len ≤ 9223372036854775808
  len_int : h.map_len < 2147483648
  size_nn : 0 ≤ h.alloc_size

/-- The heap is well formed with block list `bs`: the region is mapped, the
blocks tile `[heap_start, heap_start + alloc_size)` with consistent headers
and footers, the first p-bit is set, and the end mark follows the last
block. -/
structure Layout (h : Heap) (bs : List Blk) extends Region h : Prop where
  nonempty : bs ≠ []
  seg : Seg h.mem bs h.heap_start true
  tot : total bs = h.alloc_size
  endm : h.mem (h.heap_start + h.alloc_size) = 1

/-- A well-formed heap. -/
def WellFormed (h : Heap) : Prop := ∃ bs, Layout h bs

/-- No two adjacent blocks are both free. -/
def NoAdjFree : List Blk → Prop
  | [] => True
  | [_] => True
  | b :: c :: bs => (b.alloc = true ∨ c.alloc = true) ∧ NoAdjFree (c :: bs)

/-- No word at a payload-pointer-aligned position strictly inside a block has
bit 0 set. -/
def Quiet (m : Int → Int) : List Blk → Int → Prop
  | [], _ => True
  | b :: bs, a =>
    (∀ k : Int, 0 < k → k < b.size → k % 8 = 0 → m (a + k) % 2 = 0) ∧ Quiet m bs (a + b.size)

/-- The invariant of the allocator. -/
structure Inv (h : Heap) (bs : List Blk) : Prop where
  layout : Layout h bs
  noadj : NoAdjFree bs
  quiet : Quiet h.mem bs h.heap_start

/-- The report lines of the blocks `bs` laid out from address `a`. -/
def blocksAt : List Blk → Int → Bool → List Block
  | [], _, _ => []
  | b :: bs, a, p => ⟨a, b.size, b.alloc, p⟩ :: blocksAt bs (a + b.size) b.alloc

/-- The search loop of `balloc` on a block list: `Sum.inr x` when the loop
returns on an exact match at address `x`, `Sum.inl best` when it runs to the
end mark.  `bsz` is the size of the block at `best`. -/
def scanL (size : Int) : List Blk → Int → Int → Int → Int ⊕ Int
  | [], best, _, _ => .inl best
  | b :: bs, best, bsz, a =>
    if b.alloc = false then
      if b.size = size then .inr a
      else if (best = 0 ∨ b.size < bsz) ∧ size < b.size then scanL size bs a b.size (a + b.size)
      else scanL size bs best bsz (a + b.size)
    else scanL size bs best bsz (a + b.size)

/-- The least multiple of 8 that is at least `x`. -/
def roundup8 (x : Int) : Int := (x + 7) / 8 * 8

/-- What the operating system may answer to `init_heap (sizeOfRegion)`: a page
size that is a multiple of 8 and at least 16, and, if `mmap` succeeds, a
page-aligned non-null address of a region of the requested length that lies in
the lower half of the address space. -/
def OSContract (os : OS) (sizeOfRegion : Int) : Prop :=
  16 ≤ os.pagesize ∧ os.pagesize % 8 = 0 ∧ os.pagesize < 2147483648 ∧
    ∀ p, os.mmap_ptr = some p →
      0 < p ∧ p % os.pagesize = 0 ∧
        p + wrap64 (region_size os.pagesize sizeOfRegion) ≤ 9223372036854775808

/-- The heap `h` is the result of a successful call of `init_heap`. -/
def Initial (h : Heap) : Prop :=
  ∃ (pre : Heap) (os : OS) (n : Int), n ≤ 2147483647 ∧ OSContract os n ∧
    init_heap pre os n = .ok (0, h)

/-- States reached from `h0` by calls of `balloc` with any `int` argument and
of `bfree` with any pointer argument, each call returning. -/
inductive Reach (h0 : Heap) : Heap → Prop where
  | init : Reach h0 h0
  | alloc_step {h h2 : Heap} (size r : Int) :
      Reach h0 h → -2147483648 ≤ size → size ≤ 2147483647 →
      balloc h size = .ok (r, h2) → Reach h0 h2
  | free_step {h h2 : Heap} (ptr r : Int) :
      Reach h0 h → 0 ≤ ptr → ptr < 18446744073709551616 →
      bfree h ptr = .ok (r, h2) → Reach h0 h2


/-! ## Memory after each operation -/

/-- Memory with the p-bit of the first block of `post`, at address `a`, set to
`q`; unchanged when `post` is empty (the end mark follows). -/
def putPrev (q : Bool) (m : Int → Int) (post : List Blk) (a : Int) : Int → Int :=
  match post with
  | [] => m
  | c :: _ => upd m a (hdr c.size c.alloc q)

/-- Memory after the free block of size `s` at `x` with p-bit `p` was allocated
whole. -/
def exactMem (m : Int → Int) (x : Int) (p : Bool) (s : Int) (post : List Blk) : Int → Int :=
  putPrev true (upd m x (hdr s true p)) post (x + s)

/-- Memory after the first `n` bytes of the free block of size `s` at `x` with
p-bit `p` were allocated and the rest became a free block. -/
def splitMem (m : Int → Int) (x : Int) (p : Bool) (s n : Int) : Int → Int :=
  upd (upd (upd m (x + n) (hdr (s - n) false true)) (x + s - 4) (s - n)) x (hdr n true p)

/-- Memory after the allocated block of size `s` at `x` with p-bit `p` was
marked free. -/
def releaseMem (m : Int → Int) (x : Int) (p : Bool) (s : Int) (post : List Blk) : Int → Int :=
  upd (putPrev false (upd m x (hdr s false p)) post (x + s)) (x + s - 4) s

/-- Memory after the free blocks of sizes `s1` at `x` (p-bit `p`) and `s2`
right after it were merged. -/
def mergeMem (m : Int → Int) (x : Int) (p : Bool) (s1 s2 : Int) : Int → Int :=
  upd (upd m x (hdr (s1 + s2) false p)) (x + s1 + s2 - 4) (s1 + s2)

/-- The allocated flag of the first block, the end mark counting as
allocated. -/
def headAlloc : List Blk → Bool
  | [] => true
  | c :: _ => c.alloc

/-- One state change of the allocator: from the well-formed heap `h` with
blocks `bs` to the well-formed heap `h2` with blocks `bs2`, the globals
unchanged, no bit 0 appearing inside a block, and memory changed only within
`[lo, hi]`. -/
structure Step (h : Heap) (bs : List Blk) (h2 : Heap) (bs2 : List Blk) (lo hi : Int) :
    Prop where
  same : h2 = setMem h h2.mem
  layout : Layout h2 bs2
  quiet : Quiet h.mem bs h.heap_start → Quiet h2.mem bs2 h2.heap_start
  frame : ∀ y, y < lo ∨ hi < y → h2.mem y = h.mem y

/-- The pointers `bfree` is documented to reject: null, not a multiple of 8,
header address outside `[heap_start, heap_start + alloc_size)`, or allocated
bit of the header clear. -/
def Rejected (h : Heap) (ptr : Int) : Prop :=
  ptr = 0 ∨ ptr % 8 ≠ 0 ∨ ptr - 4 < h.heap_start ∨ h.heap_start + h.alloc_size ≤ ptr - 4 ∨
    band (h.mem (ptr - 4)) 1 = 0

instance (h : Heap) (ptr : Int) : Decidable (Rejected h ptr) := by
  unfold Rejected; infer_instance

/-! ## Example states -/

/-- The state of a process before `init_heap`. -/
def preInit : Heap := ⟨0, 0, 0, 0, 0, fun _ => 0⟩

/-- An operating system with 4096-byte pages that maps the region at
`0x7f0000000000`. -/
def demoOS : OS := ⟨4096, true, some 139637976727552⟩

/-- The heap after `init_heap (4096)`: one free block of 4088 bytes. -/
def heapInit : Heap :=
  { heap_start := 139637976727556, alloc_size := 4088, allocated_once := 1,
    map_base := 139637976727552, map_len := 4096,
    mem := upd (upd (upd (upd (fun _ => 0) 139637976731644 1) 139637976727556 4088)
      139637976727556 4090) 139637976731640 4088 }

/-- A heap of 128 bytes with blocks of 64 (free), 16 (allocated), 40 (free) and
8 (allocated) bytes. -/
def heapFit : Heap :=
  { heap_start := 139637976727556, alloc_size := 128, allocated_once := 1,
    map_base := 139637976727552, map_len := 136,
    mem := fun a =>
      if a = 139637976727556 then 66
      else if a = 139637976727616 then 64
      else if a = 139637976727620 then 17
      else if a = 139637976727636 then 42
      else if a = 139637976727672 then 40
      else if a = 139637976727676 then 9
      else if a = 139637976727684 then 1
      else 0 }

/-- The block list of `heapFit`. -/
def blksFit : List Blk := [⟨64, false⟩, ⟨16, true⟩, ⟨40, false⟩, ⟨8, true⟩]

/-- A heap of 128 bytes with blocks of 32 (free), 24 (allocated), 48 (free) and
24 (allocated) bytes. -/
def heapABC : Heap :=
  { heap_start := 139637976727556, alloc_size := 128, allocated_once := 1,
    map_base := 139637976727552, map_len := 136,
    mem := fun a =>
      if a = 139637976727556 then 34
      else if a = 139637976727584 then 32
      else if a = 139637976727588 then 25
      else if a = 139637976727612 then 50
      else if a = 139637976727656 then 48
      else if a = 139637976727660 then 25
      else if a = 139637976727684 then 1
      else 0 }

/-- The block list of `heapABC`. -/
def blksABC : List Blk := [⟨32, false⟩, ⟨24, true⟩, ⟨48, false⟩, ⟨24, true⟩]

/-- The heap after `init_heap (4096)` and `balloc (16)`, the caller having
stored `INT_MAX` in the second word of the payload. -/
def heapPayload : Heap :=
  { heap_start := 139637976727556, alloc_size := 4088, allocated_once := 1,
    map_base := 139637976727552, map_len := 4096,
    mem := fun a =>
      if a = 139637976727556 then 27
      else if a = 139637976727564 then 2147483647
      else if a = 139637976727580 then 4066
      else if a = 139637976731640 then 4064
      else if a = 139637976731644 then 1
      else 0 }

/-- The heap after `init_heap (4096)`, `balloc (16)`, `balloc (100)` and `bfree`
of the first pointer. -/
def heapUsed : Heap :=
  match balloc heapInit 16 with
  | .error _ => heapInit
  | .ok (p, h1) =>
    match balloc h1 100 with
    | .error _ => heapInit
    | .ok (_, h2) =>
      match bfree h2 p with
      | .error _ => heapInit
      | .ok (_, h3) => h3

/-! ## Properties of the reported block list -/

/-- The reported blocks lie back to back from `start` to `stop`, each of a
size that is a multiple of 8 and at least 8. -/
def Tiles : List Block → Int → Int → Prop
  | [], start, stop => start = stop
  | B :: rest, start, stop =>
    B.addr = start ∧ 8 ≤ B.size ∧ B.size % 8 = 0 ∧ Tiles rest (start + B.size) stop


/-! ## Further notions for the properties of the interface -/

/-- The least multiple of `P` that is at least `n`, for a positive `P`. -/
def roundupTo (P n : Int) : Int := (n + P - 1) / P * P

/-- The pointer `q` is the payload pointer of an allocated block of the list
`bs` laid out from `a`. -/
def LiveAt (bs : List Blk) (a q : Int) : Prop :=
  ∃ pre b post, bs = pre ++ b :: post ∧ b.alloc = true ∧ q = a + total pre + 4

/-- A heap of 40 bytes with blocks of 8 (allocated), 24 (free) and 8
(allocated) bytes; the header of the free block is 26. -/
def heapHdr : Heap :=
  { heap_start := 139637976727556, alloc_size := 40, allocated_once := 1,
    map_base := 139637976727552, map_len := 48,
    mem := fun a =>
      if a = 139637976727556 then 11
      else if a = 139637976727564 then 26
      else if a = 139637976727584 then 24
      else if a = 139637976727588 then 9
      else if a = 139637976727596 then 1
      else 0 }

/-- The state after `init_heap (4096)` in a process in which the 8 GiB below
the region are mapped as well. -/
def heapWide : Heap :=
  { heap_start := 139637976727556, alloc_size := 4088, allocated_once := 1,
    map_base := 139629386792960, map_len := 8589938688,
    mem := upd (upd (upd (upd (fun _ => 0) 139637976731644 1) 139637976727556 4088)
      139637976727556 4090) 139637976731640 4088 }

/-- The pointer `ptr` is the payload address, header address plus 4, of a
block that the traversal reports as allocated. -/
def Live (h : Heap) (ptr : Int) : Prop :=
  ∃ blocks, walk h = .ok blocks ∧ ∃ B ∈ blocks, B.alloc = true ∧ ptr = B.addr + 4

/-! ## Bit operations on 32-bit integers -/

theorem and_split (q r mq mr : Nat) (hr : r < 4) (hmr : mr < 4) :
    (4 * q + r) &&& (4 * mq + mr) = 4 * (q &&& mq) + (r &&& mr) := by
  have h3 : r &&& mr < 2 ^ 2 := Nat.and_lt_two_pow r (by simpa using hmr)
  apply Nat.eq_of_testBit_eq
  intro i
  have e1 := Nat.testBit_mul_pow_two_add q (i := 2) (b := r) (by simpa using hr) i
  have e2 := Nat.testBit_mul_pow_two_add mq (i := 2) (b := mr) (by simpa using hmr) i
  have e3 := Nat.testBit_mul_pow_two_add (q &&& mq) (i := 2) (b := r &&& mr) h3 i
  simp only [Nat.reducePow] at e1 e2 e3
  rw [Nat.testBit_and, e1, e2, e3]
  split <;> simp [Nat.testBit_and]

theorem or_split (q r mq mr : Nat) (hr : r < 4) (hmr : mr < 4) :
    (4 * q + r) ||| (4 * mq + mr) = 4 * (q ||| mq) + (r ||| mr) := by
  have h3 : r ||| mr < 2 ^ 2 := Nat.or_lt_two_pow (by simpa using hr) (by simpa using hmr)
  apply Nat.eq_of_testBit_eq
  intro i
  have e1 := Nat.testBit_mul_pow_two_add q (i := 2) (b := r) (by simpa using hr) i
  have e2 := Nat.testBit_mul_pow_two_add mq (i := 2) (b := mr) (by simpa using hmr) i
  have e3 := Nat.testBit_mul_pow_two_add (q ||| mq) (i := 2) (b := r ||| mr) h3 i
  simp only [Nat.reducePow] at e1 e2 e3
  rw [Nat.testBit_or, e1, e2, e3]
  split <;> simp [Nat.testBit_or]

/-- Low two bits of a conjunction with a constant whose upper bits are all clear. -/
theorem and_low (u mr : Nat) (hmr : mr < 4) : u &&& mr = (u % 4) &&& mr := by
  have h := and_split (u / 4) (u % 4) 0 mr (Nat.mod_lt _ (by decide)) hmr
  have e : 4 * (u / 4) + u % 4 = u := Nat.div_add_mod u 4
  simpa [e] using h

/-- Conjunction with a constant whose upper thirty bits are all set. -/
theorem and_high (u mr : Nat) (hu : u < 4294967296) (hmr : mr < 4) :
    u &&& (4294967292 + mr) = 4 * (u / 4) + ((u % 4) &&& mr) := by
  have h := and_split (u / 4) (u % 4) 1073741823 mr (Nat.mod_lt _ (by decide)) hmr
  have e : 4 * (u / 4) + u % 4 = u := Nat.div_add_mod u 4
  have e2 : u / 4 &&& 1073741823 = u / 4 := by
    have := Nat.and_pow_two_sub_one_eq_mod (u / 4) 30
    simp only [Nat.reducePow, Nat.add_one_sub_one] at this
    have h4 : u / 4 < 1073741824 := by omega
    rw [Nat.mod_eq_of_lt h4] at this
    simpa using this
  rw [e, e2] at h
  simpa using h

theorem or_low (u mr : Nat) (hmr : mr < 4) : u ||| mr = 4 * (u / 4) + ((u % 4) ||| mr) := by
  have h := or_split (u / 4) (u % 4) 0 mr (Nat.mod_lt _ (by decide)) hmr
  have e : 4 * (u / 4) + u % 4 = u := Nat.div_add_mod u 4
  simpa [e] using h

theorem toU32_lt (x : Int) : toU32 x < 4294967296 := by
  unfold toU32; omega

theorem toU32_cast (x : Int) : ((toU32 x : Nat) : Int) = x % 4294967296 := by
  unfold toU32; omega

theorem low_cases (r : Nat) (hr : r < 4) : r = 0 ∨ r = 1 ∨ r = 2 ∨ r = 3 := by omega

theorem and_tab :
    (0 &&& 1 : Nat) = 0 ∧ (1 &&& 1 : Nat) = 1 ∧ (2 &&& 1 : Nat) = 0 ∧ (3 &&& 1 : Nat) = 1 ∧
    (0 &&& 2 : Nat) = 0 ∧ (1 &&& 2 : Nat) = 0 ∧ (2 &&& 2 : Nat) = 2 ∧ (3 &&& 2 : Nat) = 2 ∧
    (0 &&& 3 : Nat) = 0 ∧ (1 &&& 3 : Nat) = 1 ∧ (2 &&& 3 : Nat) = 2 ∧ (3 &&& 3 : Nat) = 3 := by
  decide

theorem or_tab :
    (0 ||| 1 : Nat) = 1 ∧ (1 ||| 1 : Nat) = 1 ∧ (2 ||| 1 : Nat) = 3 ∧ (3 ||| 1 : Nat) = 3 ∧
    (0 ||| 2 : Nat) = 2 ∧ (1 ||| 2 : Nat) = 3 ∧ (2 ||| 2 : Nat) = 2 ∧ (3 ||| 2 : Nat) = 3 := by
  decide

theorem band_one (x : Int) : band x 1 = x % 2 := by
  have hc := toU32_cast x
  have e : toU32 1 = 1 := by decide
  unfold band ofU32 wrap32
  rw [e, and_low _ 1 (by decide)]
  rcases low_cases (toU32 x % 4) (Nat.mod_lt _ (by decide)) with h | h | h | h <;>
    rw [h] <;> simp [and_tab, or_tab] <;> omega

theorem band_two (x : Int) : band x 2 = x % 4 - x % 2 := by
  have hc := toU32_cast x
  have e : toU32 2 = 2 := by decide
  unfold band ofU32 wrap32
  rw [e, and_low _ 2 (by decide)]
  rcases low_cases (toU32 x % 4) (Nat.mod_lt _ (by decide)) with h | h | h | h <;>
    rw [h] <;> simp [and_tab, or_tab] <;> omega

theorem band_three (x : Int) : band x 3 = x % 4 := by
  have hc := toU32_cast x
  have e : toU32 3 = 3 := by decide
  unfold band ofU32 wrap32
  rw [e, and_low _ 3 (by decide)]
  rcases low_cases (toU32 x % 4) (Nat.mod_lt _ (by decide)) with h | h | h | h <;>
    rw [h] <;> simp [and_tab, or_tab] <;> omega

theorem bnot_one : bnot 1 = -2 := by decide
theorem bnot_two : bnot 2 = -3 := by decide
theorem bnot_three : bnot 3 = -4 := by decide

theorem band_not3 (x : Int) (h1 : -2147483648 ≤ x) (h2 : x < 2147483648) :
    band x (-4) = x - x % 4 := by
  have hc := toU32_cast x
  have hl := toU32_lt x
  have e : toU32 (-4) = 4294967292 + 0 := by decide
  unfold band ofU32 wrap32
  rw [e, and_high _ 0 hl (by decide)]
  simp
  omega

theorem band_not1 (x : Int) (h1 : -2147483648 ≤ x) (h2 : x < 2147483648) :
    band x (-2) = x - x % 2 := by
  have hc := toU32_cast x
  have hl := toU32_lt x
  have e : toU32 (-2) = 4294967292 + 2 := by decide
  unfold band ofU32 wrap32
  rw [e, and_high _ 2 hl (by decide)]
  rcases low_cases (toU32 x % 4) (Nat.mod_lt _ (by decide)) with h | h | h | h <;>
    rw [h] <;> simp [and_tab, or_tab] <;> omega

theorem band_not2 (x : Int) (h1 : -2147483648 ≤ x) (h2 : x < 2147483648) :
    band x (-3) = x - (x % 4 - x % 2) := by
  have hc := toU32_cast x
  have hl := toU32_lt x
  have e : toU32 (-3) = 4294967292 + 1 := by decide
  unfold band ofU32 wrap32
  rw [e, and_high _ 1 hl (by decide)]
  rcases low_cases (toU32 x % 4) (Nat.mod_lt _ (by decide)) with h | h | h | h <;>
    rw [h] <;> simp [and_tab, or_tab] <;> omega

theorem bor_one (x : Int) (h1 : -2147483648 ≤ x) (h2 : x < 2147483648) :
    bor x 1 = x + 1 - x % 2 := by
  have hc := toU32_cast x
  have hl := toU32_lt x
  have e : toU32 1 = 1 := by decide
  unfold bor ofU32 wrap32
  rw [e, or_low _ 1 (by decide)]
  rcases low_cases (toU32 x % 4) (Nat.mod_lt _ (by decide)) with h | h | h | h <;>
    rw [h] <;> simp [and_tab, or_tab] <;> omega

theorem bor_two (x : Int) (h1 : -2147483648 ≤ x) (h2 : x < 2147483648) :
    bor x 2 = x + 2 - (x % 4 - x % 2) := by
  have hc := toU32_cast x
  have hl := toU32_lt x
  have e : toU32 2 = 2 := by decide
  unfold bor ofU32 wrap32
  rw [e, or_low _ 2 (by decide)]
  rcases low_cases (toU32 x % 4) (Nat.mod_lt _ (by decide)) with h | h | h | h <;>
    rw [h] <;> simp [and_tab, or_tab] <;> omega

theorem bor_low (x b : Int) (h1 : -2147483648 ≤ x) (h2 : x < 2147483648) (hx : x % 4 = 0)
    (hb0 : 0 ≤ b) (hb : b < 4) : bor x b = x + b := by
  have hc := toU32_cast x
  have hl := toU32_lt x
  have hcb := toU32_cast b
  have hbl : toU32 b < 4 := by omega
  unfold bor ofU32 wrap32
  rw [or_low _ _ hbl]
  have h0 : toU32 x % 4 = 0 := by omega
  rw [h0]
  simp
  omega

/-! ## Header words -/

theorem hdr_alloc_bit (s : Int) (al p : Bool) (h4 : s % 4 = 0) :
    band (hdr s al p) 1 = if al then 1 else 0 := by
  rw [band_one]; cases al <;> cases p <;> simp [hdr] <;> omega

theorem hdr_prev_bit (s : Int) (al p : Bool) (h4 : s % 4 = 0) :
    band (hdr s al p) 2 = if p then 2 else 0 := by
  rw [band_two]; cases al <;> cases p <;> simp [hdr] <;> omega

theorem hdr_low_bits (s : Int) (al p : Bool) (h4 : s % 4 = 0) :
    band (hdr s al p) 3 = hdr 0 al p := by
  rw [band_three]; cases al <;> cases p <;> simp [hdr] <;> omega

theorem hdr_size (s : Int) (al p : Bool) (h4 : s % 4 = 0) (h0 : 0 ≤ s) (h1 : s < 2147483644) :
    band (hdr s al p) getSizeClearMask = s := by
  unfold getSizeClearMask
  rw [bnot_three, band_not3] <;> cases al <;> cases p <;> simp [hdr] <;> omega

theorem hdr_set_alloc (s : Int) (al p : Bool) (h4 : s % 4 = 0) (h0 : 0 ≤ s)
    (h1 : s < 2147483644) : bor (hdr s al p) 1 = hdr s true p := by
  rw [bor_one] <;> cases al <;> cases p <;> simp [hdr] <;> omega

theorem hdr_set_prev (s : Int) (al p : Bool) (h4 : s % 4 = 0) (h0 : 0 ≤ s)
    (h1 : s < 2147483644) : bor (hdr s al p) 2 = hdr s al true := by
  rw [bor_two] <;> cases al <;> cases p <;> simp [hdr] <;> omega

theorem hdr_clear_alloc (s : Int) (al p : Bool) (h4 : s % 4 = 0) (h0 : 0 ≤ s)
    (h1 : s < 2147483644) : band (hdr s al p) (bnot 1) = hdr s false p := by
  rw [bnot_one, band_not1] <;> cases al <;> cases p <;> simp [hdr] <;> omega

theorem hdr_clear_prev (s : Int) (al p : Bool) (h4 : s % 4 = 0) (h0 : 0 ≤ s)
    (h1 : s < 2147483644) : band (hdr s al p) (bnot 2) = hdr s al false := by
  rw [bnot_two, band_not2] <;> cases al <;> cases p <;> simp [hdr] <;> omega

theorem hdr_resize (n s : Int) (al p : Bool) (h4 : s % 4 = 0) (n4 : n % 4 = 0) (n0 : 0 ≤ n)
    (n1 : n < 2147483644) : bor n (band (hdr s al p) 3) = hdr n al p := by
  rw [hdr_low_bits s al p h4, bor_low n _ (by omega) (by omega) n4] <;>
    cases al <;> cases p <;> simp [hdr] <;> omega

theorem hdr_ne_one (s : Int) (al p : Bool) (h8 : 8 ≤ s) : hdr s al p ≠ 1 := by
  cases al <;> cases p <;> simp [hdr] <;> omega

theorem hdr_odd (s : Int) (al p : Bool) (h4 : s % 4 = 0) :
    hdr s al p % 2 = if al then 1 else 0 := by
  cases al <;> cases p <;> simp [hdr] <;> omega

theorem wrap32_id (x : Int) (h0 : -2147483648 ≤ x) (h1 : x < 2147483648) : wrap32 x = x := by
  unfold wrap32; omega

theorem wrap64_id (x : Int) (h0 : 0 ≤ x) (h1 : x < 18446744073709551616) : wrap64 x = x := by
  unfold wrap64; omega

theorem cmod_nonneg (x y : Int) (hx : 0 ≤ x) (hy : 0 ≤ y) : cmod x y = x % y := by
  unfold cmod; exact Int.tmod_eq_emod hx hy

/-- For sizes that do not overflow, the size `balloc` computes is the requested
size plus the header, rounded up to a multiple of 8. -/
theorem need_eq (size : Int) (h1 : 1 ≤ size) (h2 : size ≤ 2147483636) :
    need size = roundup8 (size + 4) := by
  unfold need roundup8
  simp only []
  rw [wrap32_id (size + 4) (by omega) (by omega), cmod_nonneg _ _ (by omega) (by omega)]
  split
  · rw [wrap32_id _ (by omega) (by omega)]; omega
  · omega

theorem roundup8_spec (x : Int) : x ≤ roundup8 x ∧ roundup8 x < x + 8 ∧ roundup8 x % 8 = 0 := by
  unfold roundup8; omega

/-! ## Memory access -/

@[simp] theorem upd_same (m : Int → Int) (a v : Int) : upd m a v a = v := by simp [upd]

theorem upd_ne {m : Int → Int} {a v x : Int} (hx : x ≠ a) : upd m a v x = m x := by
  simp [upd, hx]

theorem upd_self (m : Int → Int) (a : Int) : upd m a (m a) = m := by
  funext x; unfold upd; split
  · subst x; rfl
  · rfl

@[simp] theorem setMem_mem (h : Heap) (m : Int → Int) : (setMem h m).mem = m := rfl
@[simp] theorem setMem_heap_start (h : Heap) (m : Int → Int) :
    (setMem h m).heap_start = h.heap_start := rfl
@[simp] theorem setMem_alloc_size (h : Heap) (m : Int → Int) :
    (setMem h m).alloc_size = h.alloc_size := rfl
@[simp] theorem setMem_map_base (h : Heap) (m : Int → Int) :
    (setMem h m).map_base = h.map_base := rfl
@[simp] theorem setMem_map_len (h : Heap) (m : Int → Int) :
    (setMem h m).map_len = h.map_len := rfl
@[simp] theorem setMem_once (h : Heap) (m : Int → Int) :
    (setMem h m).allocated_once = h.allocated_once := rfl
@[simp] theorem setMem_setMem (h : Heap) (m m2 : Int → Int) :
    setMem (setMem h m) m2 = setMem h m2 := rfl
@[simp] theorem setMem_self (h : Heap) : setMem h h.mem = h := rfl
@[simp] theorem setMem_fuel (h : Heap) (m : Int → Int) : (setMem h m).fuel = h.fuel := rfl

@[simp] theorem valid_setMem (h : Heap) (m : Int → Int) (a : Int) :
    (setMem h m).valid a ↔ h.valid a := Iff.rfl

theorem load_ok {h : Heap} {a : Int} (hv : h.valid a) : load h a = .ok (h.mem a) := by
  simp [load, hv]

theorem store_ok {h : Heap} {a : Int} (v : Int) (hv : h.valid a) :
    store h a v = .ok (setMem h (upd h.mem a v)) := by
  simp [store, hv, setMem]

theorem Region.setMem {h : Heap} (R : Region h) (m : Int → Int) : Region (setMem h m) :=
  ⟨R.base_pos, R.base_al, R.start, R.len, R.top, R.len_int, R.size_nn⟩

/-- Every 4-aligned address from the alignment padding up to the end mark is
mapped. -/
theorem Region.valid {h : Heap} (R : Region h) {a : Int} (h1 : h.heap_start - 4 ≤ a)
    (h2 : a ≤ h.heap_start + h.alloc_size) (h3 : a % 4 = 0) : h.valid a := by
  obtain ⟨_, _, hs, hl, _, _, _⟩ := R
  unfold Heap.valid; omega

theorem Region.size_int {h : Heap} (R : Region h) : h.alloc_size + 8 < 2147483648 := by
  obtain ⟨_, _, hs, hl, _, hi, _⟩ := R
  omega

theorem Region.start_mod {h : Heap} (R : Region h) : h.heap_start % 8 = 4 := by
  obtain ⟨_, hb, hs, _, _, _, _⟩ := R
  omega

/-! ## Reading block headers -/

section codec
variable {h : Heap} {a s : Int} {al p : Bool}

theorem isEnd_end (hv : h.valid a) (hm : h.mem a = 1) : isEnd h a = .ok 1 := by
  simp [isEnd, load_ok hv, hm, bind, Except.bind, pure, Except.pure]

theorem isEnd_hdr (hv : h.valid a) (hm : h.mem a = hdr s al p) (h8 : 8 ≤ s) :
    isEnd h a = .ok 0 := by
  simp [isEnd, load_ok hv, hm, bind, Except.bind, pure, Except.pure, hdr_ne_one s al p h8]

theorem isAlloc_hdr (hv : h.valid a) (hm : h.mem a = hdr s al p) (h4 : s % 4 = 0) :
    isAlloc h a = .ok (if al then 1 else 0) := by
  simp [isAlloc, load_ok hv, hm, bind, Except.bind, pure, Except.pure, hdr_alloc_bit s al p h4]

theorem isPrevAlloc_hdr (hv : h.valid a) (hm : h.mem a = hdr s al p) (h4 : s % 4 = 0) :
    isPrevAlloc h a = .ok (if p then 2 else 0) := by
  simp [isPrevAlloc, load_ok hv, hm, bind, Except.bind, pure, Except.pure,
    hdr_prev_bit s al p h4]

theorem getBlkSize_hdr (hv : h.valid a) (hm : h.mem a = hdr s al p) (h4 : s % 4 = 0)
    (h0 : 0 ≤ s) (h1 : s < 2147483644) : getBlkSize h a = .ok s := by
  simp [getBlkSize, load_ok hv, hm, bind, Except.bind, pure, Except.pure,
    hdr_size s al p h4 h0 h1]

theorem getNextBlk_hdr (hv : h.valid a) (hm : h.mem a = hdr s al p) (h4 : s % 4 = 0)
    (h0 : 0 ≤ s) (h1 : s < 2147483644) (ha : 0 ≤ a) (hb : a + s < 18446744073709551616) :
    getNextBlk h a = .ok (a + s) := by
  simp [getNextBlk, getBlkSize_hdr hv hm h4 h0 h1, bind, Except.bind, pure, Except.pure,
    wrap64_id (a + s) (by omega) hb]

theorem getFoot_hdr (hv : h.valid a) (hm : h.mem a = hdr s al p) (h4 : s % 4 = 0)
    (h0 : 4 ≤ s) (h1 : s < 2147483644) (ha : 0 ≤ a) (hb : a + s < 18446744073709551616) :
    getFoot h a = .ok (a + s - 4) := by
  simp [getFoot, getNextBlk_hdr hv hm h4 (by omega) h1 ha hb, bind, Except.bind, pure,
    Except.pure, wrap64_id (a + s - 4) (by omega) (by omega)]

end codec

/-! ## Block segments -/

theorem total_append (xs ys : List Blk) : total (xs ++ ys) = total xs + total ys := by
  induction xs with
  | nil => simp [total]
  | cons b bs ih => simp [total, ih]; omega

theorem lastAlloc_append (xs ys : List Blk) (p : Bool) :
    lastAlloc p (xs ++ ys) = lastAlloc (lastAlloc p xs) ys := by
  induction xs generalizing p with
  | nil => rfl
  | cons b bs ih => simp [lastAlloc, ih]

theorem Seg.len_le {m : Int → Int} {bs : List Blk} {a : Int} {p : Bool} (S : Seg m bs a p) :
    8 * (bs.length : Int) ≤ total bs := by
  induction bs generalizing a p with
  | nil => simp [total]
  | cons b bs ih =>
    obtain ⟨h8, _, _, _, S2⟩ := S
    have := ih S2
    simp [total]; omega

theorem Seg.total_nonneg {m : Int → Int} {bs : List Blk} {a : Int} {p : Bool}
    (S : Seg m bs a p) : 0 ≤ total bs := by
  have := S.len_le; omega

theorem Seg.total_mod {m : Int → Int} {bs : List Blk} {a : Int} {p : Bool}
    (S : Seg m bs a p) : total bs % 8 = 0 := by
  induction bs generalizing a p with
  | nil => simp [total]
  | cons b bs ih =>
    obtain ⟨_, h8, _, _, S2⟩ := S
    have := ih S2
    simp [total]; omega

theorem Seg_append {m : Int → Int} {xs ys : List Blk} {a : Int} {p : Bool} :
    Seg m (xs ++ ys) a p ↔ Seg m xs a p ∧ Seg m ys (a + total xs) (lastAlloc p xs) := by
  induction xs generalizing a p with
  | nil => simp [Seg, total, lastAlloc]
  | cons b bs ih =>
    have e : a + total (b :: bs) = a + b.size + total bs := by simp [total]; omega
    rw [e]
    show (_ ∧ _ ∧ _ ∧ _ ∧ Seg m (bs ++ ys) (a + b.size) b.alloc) ↔
      (_ ∧ _ ∧ _ ∧ _ ∧ Seg m bs (a + b.size) b.alloc) ∧
        Seg m ys (a + b.size + total bs) (lastAlloc b.alloc bs)
    rw [ih]
    tauto

/-- A segment depends only on the memory words inside it. -/
theorem Seg.frame {m m2 : Int → Int} {bs : List Blk} {a : Int} {p : Bool} (S : Seg m bs a p)
    (hf : ∀ x, a ≤ x → x < a + total bs → m2 x = m x) : Seg m2 bs a p := by
  induction bs generalizing a p with
  | nil => trivial
  | cons b bs ih =>
    obtain ⟨h8, hm8, hh, hft, S2⟩ := S
    have t0 := S2.total_nonneg
    simp only [total] at hf
    refine ⟨h8, hm8, ?_, ?_, ?_⟩
    · rw [hf a (by omega) (by omega)]; exact hh
    · intro hal; rw [hf _ (by omega) (by omega)]; exact hft hal
    · exact ih S2 (fun x h1 h2 => hf x (by omega) (by omega))

theorem Quiet_append {m : Int → Int} {xs ys : List Blk} {a : Int} :
    Quiet m (xs ++ ys) a ↔ Quiet m xs a ∧ Quiet m ys (a + total xs) := by
  induction xs generalizing a with
  | nil => simp [Quiet, total]
  | cons b bs ih =>
    have e : a + total (b :: bs) = a + b.size + total bs := by simp [total]; omega
    rw [e]
    show (_ ∧ Quiet m (bs ++ ys) (a + b.size)) ↔
      (_ ∧ Quiet m bs (a + b.size)) ∧ Quiet m ys (a + b.size + total bs)
    rw [ih]
    tauto

theorem Quiet.frame_quiet {m m2 : Int → Int} {bs : List Blk} {a : Int} (Q : Quiet m bs a)
    (S : ∀ b ∈ bs, 0 ≤ b.size)
    (hf : ∀ x, a < x → x < a + total bs → m2 x = m x) : Quiet m2 bs a := by
  induction bs generalizing a with
  | nil => trivial
  | cons b bs ih =>
    obtain ⟨q1, Q2⟩ := Q
    have hb := S b (List.mem_cons_self _ _)
    have S2 : ∀ c ∈ bs, 0 ≤ c.size := fun c hc => S c (List.mem_cons_of_mem _ hc)
    have t0 : 0 ≤ total bs := by
      clear ih Q2 hf q1 S
      induction bs with
      | nil => simp [total]
      | cons c cs ih2 =>
        have := S2 c (List.mem_cons_self _ _)
        have := ih2 (fun d hd => S2 d (List.mem_cons_of_mem _ hd))
        simp [total]; omega
    simp only [total] at hf
    refine ⟨?_, ?_⟩
    · intro k k0 k1 k8
      rw [hf _ (by omega) (by omega)]; exact q1 k k0 k1 k8
    · exact ih Q2 S2 (fun x h1 h2 => hf x (by omega) (by omega))

theorem Seg.size_nonneg {m : Int → Int} {bs : List Blk} {a : Int} {p : Bool}
    (S : Seg m bs a p) : ∀ b ∈ bs, 0 ≤ b.size := by
  induction bs generalizing a p with
  | nil => intro b hb; cases hb
  | cons c cs ih =>
    obtain ⟨h8, _, _, _, S2⟩ := S
    intro b hb
    rcases List.mem_cons.mp hb with rfl | hb
    · omega
    · exact ih S2 b hb

/-! ## The search loop -/

theorem Region.addr_bounds {h : Heap} (R : Region h) {a : Int} (h1 : h.heap_start ≤ a)
    (h2 : a ≤ h.heap_start + h.alloc_size) : 0 < a ∧ a + 4 ≤ 9223372036854775808 := by
  obtain ⟨_, _, hs, hl, _, _, _⟩ := R
  omega

theorem Region.top_bound {h : Heap} (R : Region h) :
    0 < h.heap_start ∧ h.heap_start + h.alloc_size + 4 ≤ 9223372036854775808 := by
  obtain ⟨_, _, hs, hl, _, _, _⟩ := R
  omega

theorem scan_run {h : Heap} (R : Region h) (size : Int) :
    ∀ (rest : List Blk) (fuel : Nat) (a : Int) (p : Bool) (best bsz : Int),
      Seg h.mem rest a p → h.heap_start ≤ a → a % 4 = 0 →
      a + total rest = h.heap_start + h.alloc_size →
      h.mem (h.heap_start + h.alloc_size) = 1 →
      rest.length < fuel →
      (best ≠ 0 → getBlkSize h best = .ok bsz) →
      balloc_scan fuel h size best a =
        match scanL size rest best bsz a with
        | .inl b => .ok (.inl b)
        | .inr x => balloc_exact h x >>= fun r => pure (.inr r) := by
  intro rest
  induction rest with
  | nil =>
    intro fuel a p best bsz _ ha a4 he hend hfuel _
    cases fuel with
    | zero => simp at hfuel
    | succ f =>
      simp only [total, Int.add_zero] at he
      have hv : h.valid a := R.valid (by omega) (by omega) a4
      rw [← he] at hend
      simp [balloc_scan, scanL, isEnd_end hv hend, bind, Except.bind, pure, Except.pure]
  | cons b rest ih =>
    intro fuel a p best bsz S ha a4 he hend hfuel hbest
    cases fuel with
    | zero => simp at hfuel
    | succ f =>
      obtain ⟨h8, hm8, hh, _, S2⟩ := S
      have t0 := S2.total_nonneg
      simp only [total] at he
      have hsz := R.size_int
      have hv : h.valid a := R.valid (by omega) (by omega) a4
      have hab := R.addr_bounds ha (by omega : a ≤ h.heap_start + h.alloc_size)
      have hab2 := R.addr_bounds (by omega : h.heap_start ≤ a + b.size)
        (by omega : a + b.size ≤ h.heap_start + h.alloc_size)
      have hE := isEnd_hdr hv hh h8
      have hA := isAlloc_hdr hv hh (by omega : b.size % 4 = 0)
      have hS := getBlkSize_hdr hv hh (by omega : b.size % 4 = 0) (by omega) (by omega)
      have hN := getNextBlk_hdr hv hh (by omega : b.size % 4 = 0) (by omega) (by omega)
        (by omega) (by omega)
      have hlen : rest.length < f := by simpa using hfuel
      have IH := fun best2 bsz2 hb2 =>
        ih f (a + b.size) b.alloc best2 bsz2 S2 (by omega) (by omega) (by omega) hend hlen hb2
      rw [balloc_scan, scanL]
      simp only [hE, hA, hS, hN, bind, Except.bind, pure, Except.pure]
      cases hal : b.alloc with
      | true =>
        simp only [if_true, if_false, ne_eq, not_true_eq_false, one_ne_zero, Bool.true_eq_false]
        exact IH best bsz hbest
      | false =>
        simp only [if_true, if_false, ne_eq, not_true_eq_false]
        by_cases hex : b.size = size
        · simp [hex]
        · simp only [hex, if_false]
          by_cases hb0 : best = 0
          · simp only [hb0, if_true, true_or, true_and]
            by_cases hlt : size < b.size
            · simp only [hlt, decide_True, if_true]
              exact IH a b.size (fun _ => hS)
            · simp only [hlt, decide_False, if_false]
              have := IH 0 bsz (fun hne => absurd rfl hne)
              simpa [hal] using this
          · simp only [hb0, if_false, false_or, hbest hb0]
            by_cases hlt1 : b.size < bsz
            · by_cases hlt : size < b.size
              · simp only [hlt1, hlt, decide_True, if_true, and_self]
                exact IH a b.size (fun _ => hS)
              · simp only [hlt1, hlt, decide_True, decide_False, if_true, if_false, and_false]
                exact IH best bsz hbest
            · simp only [hlt1, decide_False, if_false, false_and]
              exact IH best bsz hbest

/-! ## The search on block lists -/

/-- The first free block of exactly the requested size ends the search. -/
theorem scanL_exact (size : Int) (pre : List Blk) (b : Blk) (post : List Blk)
    (hb : b.alloc = false) (hs : b.size = size)
    (hpre : ∀ c ∈ pre, c.alloc = false → c.size ≠ size) (best bsz a : Int) :
    scanL size (pre ++ b :: post) best bsz a = .inr (a + total pre) := by
  induction pre generalizing best bsz a with
  | nil => simp [scanL, hb, hs, total]
  | cons c cs ih =>
    have hc := hpre c (List.mem_cons_self _ _)
    have hcs : ∀ d ∈ cs, d.alloc = false → d.size ≠ size :=
      fun d hd => hpre d (List.mem_cons_of_mem _ hd)
    have e : a + total (c :: cs) = a + c.size + total cs := by simp [total]; omega
    rw [e, List.cons_append, scanL]
    cases hal : c.alloc with
    | true => simp [ih hcs]
    | false =>
      have := hc hal
      simp only [this, if_true, if_false]
      split <;> exact ih hcs _ _ _

/-- Without an exact match the search keeps the current candidate, or ends with
the first block of minimum size among the free blocks larger than the
request. -/
theorem scanL_best (size : Int) (bs : List Blk) (best bsz a : Int) (ha : 0 < a)
    (hsz : ∀ c ∈ bs, 0 ≤ c.size)
    (hne : ∀ c ∈ bs, c.alloc = false → c.size ≠ size) :
    (scanL size bs best bsz a = .inl best ∧
        ∀ c ∈ bs, c.alloc = false → size < c.size → best ≠ 0 ∧ bsz ≤ c.size) ∨
      ∃ pre b post, bs = pre ++ b :: post ∧ b.alloc = false ∧ size < b.size ∧
        (best ≠ 0 → b.size < bsz) ∧ scanL size bs best bsz a = .inl (a + total pre) ∧
        (∀ c ∈ pre, c.alloc = false → size < c.size → b.size < c.size) ∧
        (∀ c ∈ post, c.alloc = false → size < c.size → b.size ≤ c.size) := by
  induction bs generalizing best bsz a with
  | nil => left; simp [scanL]
  | cons c cs ih =>
    have hc0 := hsz c (List.mem_cons_self _ _)
    have hsz2 : ∀ d ∈ cs, 0 ≤ d.size := fun d hd => hsz d (List.mem_cons_of_mem _ hd)
    have hne2 : ∀ d ∈ cs, d.alloc = false → d.size ≠ size :=
      fun d hd => hne d (List.mem_cons_of_mem _ hd)
    have eT : ∀ pre : List Blk, a + total (c :: pre) = a + c.size + total pre := by
      intro pre; simp [total]; omega
    cases hal : c.alloc with
    | true =>
      have hrun : scanL size (c :: cs) best bsz a = scanL size cs best bsz (a + c.size) := by
        simp [scanL, hal]
      rcases ih best bsz (a + c.size) (by omega) hsz2 hne2 with
        ⟨hr, hall⟩ | ⟨pre, b, post, hbs, hb, hlt, hbb, hr, hp1, hp2⟩
      · left
        refine ⟨by rw [hrun, hr], ?_⟩
        intro d hd hdf hdl
        rcases List.mem_cons.mp hd with rfl | hd
        · rw [hal] at hdf; cases hdf
        · exact hall d hd hdf hdl
      · right
        refine ⟨c :: pre, b, post, by rw [hbs]; rfl, hb, hlt, hbb, ?_, ?_, hp2⟩
        · rw [hrun, hr, eT]
        · intro d hd hdf hdl
          rcases List.mem_cons.mp hd with rfl | hd
          · rw [hal] at hdf; cases hdf
          · exact hp1 d hd hdf hdl
    | false =>
      have hcne := hne c (List.mem_cons_self _ _) hal
      by_cases hbet : (best = 0 ∨ c.size < bsz) ∧ size < c.size
      · have hrun : scanL size (c :: cs) best bsz a = scanL size cs a c.size (a + c.size) := by
          simp [scanL, hal, hcne, hbet]
        rcases ih a c.size (a + c.size) (by omega) hsz2 hne2 with
          ⟨hr, hall⟩ | ⟨pre, b, post, hbs, hb, hlt, hbb, hr, hp1, hp2⟩
        · right
          refine ⟨[], c, cs, rfl, hal, hbet.2, ?_, ?_, ?_, ?_⟩
          · intro hb0; rcases hbet.1 with h0 | h0
            · exact absurd h0 hb0
            · exact h0
          · rw [hrun, hr]; simp [total]
          · intro d hd; cases hd
          · intro d hd hdf hdl; exact (hall d hd hdf hdl).2
        · have hbc := hbb (by omega)
          right
          refine ⟨c :: pre, b, post, by rw [hbs]; rfl, hb, hlt, ?_, ?_, ?_, hp2⟩
          · intro hb0; rcases hbet.1 with h0 | h0
            · exact absurd h0 hb0
            · omega
          · rw [hrun, hr, eT]
          · intro d hd hdf hdl
            rcases List.mem_cons.mp hd with rfl | hd
            · exact hbc
            · exact hp1 d hd hdf hdl
      · have hrun : scanL size (c :: cs) best bsz a = scanL size cs best bsz (a + c.size) := by
          simp [scanL, hal, hcne, hbet]
        have hcand : size < c.size → best ≠ 0 ∧ bsz ≤ c.size := by
          intro hl
          constructor
          · intro h0; exact hbet ⟨Or.inl h0, hl⟩
          · by_contra h0; exact hbet ⟨Or.inr (by omega), hl⟩
        rcases ih best bsz (a + c.size) (by omega) hsz2 hne2 with
          ⟨hr, hall⟩ | ⟨pre, b, post, hbs, hb, hlt, hbb, hr, hp1, hp2⟩
        · left
          refine ⟨by rw [hrun, hr], ?_⟩
          intro d hd hdf hdl
          rcases List.mem_cons.mp hd with rfl | hd
          · exact hcand hdl
          · exact hall d hd hdf hdl
        · right
          refine ⟨c :: pre, b, post, by rw [hbs]; rfl, hb, hlt, hbb, ?_, ?_, hp2⟩
          · rw [hrun, hr, eT]
          · intro d hd hdf hdl
            rcases List.mem_cons.mp hd with rfl | hd
            · have := hcand hdl; have := hbb this.1; omega
            · exact hp1 d hd hdf hdl

/-! ## Effect of an allocation -/

/-- The facts a layout gives about one of its blocks. -/
theorem Layout.at {h : Heap} {pre post : List Blk} {b : Blk}
    (L : Layout h (pre ++ b :: post)) :
    Seg h.mem pre h.heap_start true ∧ 8 ≤ b.size ∧ b.size % 8 = 0 ∧
      h.mem (h.heap_start + total pre) = hdr b.size b.alloc (lastAlloc true pre) ∧
      (b.alloc = false → h.mem (h.heap_start + total pre + b.size - 4) = b.size) ∧
      Seg h.mem post (h.heap_start + total pre + b.size) b.alloc ∧
      0 ≤ total pre ∧ 0 ≤ total post ∧ total pre + b.size + total post = h.alloc_size ∧
      total pre % 8 = 0 ∧ total post % 8 = 0 := by
  have S := L.seg
  rw [Seg_append] at S
  obtain ⟨Sp, h8, hm8, hh, hft, Sq⟩ := S
  have ht := L.tot
  rw [total_append] at ht
  simp only [total] at ht
  exact ⟨Sp, h8, hm8, hh, hft, Sq, Sp.total_nonneg, Sq.total_nonneg, by omega,
    Sp.total_mod, Sq.total_mod⟩

/-- Assemble a layout from a prefix, a middle part and a suffix. -/
theorem Layout.build {h : Heap} (R : Region h) {pre mid : List Blk}
    (hne : mid ≠ [])
    (S1 : Seg h.mem pre h.heap_start true)
    (S2 : Seg h.mem mid (h.heap_start + total pre) (lastAlloc true pre))
    (ht : total pre + total mid = h.alloc_size)
    (he : h.mem (h.heap_start + h.alloc_size) = 1) : Layout h (pre ++ mid) :=
  { toRegion := R
    nonempty := by simp [hne]
    seg := Seg_append.mpr ⟨S1, S2⟩
    tot := by rw [total_append]; exact ht
    endm := he }

theorem putPrev_ne {q : Bool} {m : Int → Int} {post : List Blk} {a y : Int} (hy : y ≠ a) :
    putPrev q m post a y = m y := by
  cases post with
  | nil => rfl
  | cons c cs => exact upd_ne hy

/-- Rewriting the p-bit of the first block of a segment. -/
theorem Seg.putPrev {m : Int → Int} {post : List Blk} {a : Int} {p : Bool}
    (S : Seg m post a p) (q : Bool) : Seg (putPrev q m post a) post a q := by
  cases post with
  | nil => trivial
  | cons c cs =>
    obtain ⟨h8, hm8, _, hft, S2⟩ := S
    have t0 := S2.total_nonneg
    refine ⟨h8, hm8, by simp [FlexAlloc.putPrev], ?_, ?_⟩
    · intro hal; rw [putPrev_ne (by omega)]; exact hft hal
    · exact S2.frame (fun x h1 h2 => putPrev_ne (by omega))

/-- The statement `if (!isEnd(p)) p->size_status |= 2;` at the block that
follows. -/
theorem markNext_run {h : Heap} (R : Region h) {post : List Blk} {a : Int} {p : Bool}
    (S : Seg h.mem post a p) (ha : h.heap_start ≤ a) (a4 : a % 4 = 0)
    (he : a + total post = h.heap_start + h.alloc_size)
    (hend : h.mem (h.heap_start + h.alloc_size) = 1) :
    markNextPrevAlloc h a = .ok (setMem h (putPrev true h.mem post a)) := by
  have t0 := S.total_nonneg
  have hv : h.valid a := R.valid (by omega) (by omega) a4
  have hsz := R.size_int
  cases post with
  | nil =>
    simp only [total, Int.add_zero] at he
    rw [← he] at hend
    simp [markNextPrevAlloc, isEnd_end hv hend, bind, Except.bind, pure, Except.pure,
      FlexAlloc.putPrev]
  | cons c cs =>
    obtain ⟨h8, hm8, hh, _, S2⟩ := S
    have t1 := S2.total_nonneg
    simp only [total] at he
    simp [markNextPrevAlloc, isEnd_hdr hv hh h8, bind, Except.bind, pure, Except.pure,
      load_ok hv, store_ok _ hv, hh, FlexAlloc.putPrev,
      hdr_set_prev c.size c.alloc p (by omega) (by omega) (by omega)]

/-- The exact-match branch on a free block of a well-formed heap. -/
theorem balloc_exact_run {h : Heap} {pre post : List Blk} {b : Blk}
    (L : Layout h (pre ++ b :: post)) (hb : b.alloc = false) :
    balloc_exact h (h.heap_start + total pre) =
      .ok (h.heap_start + total pre + 4,
        setMem h (exactMem h.mem (h.heap_start + total pre) (lastAlloc true pre) b.size post)) := by
  obtain ⟨Sp, h8, hm8, hh, hft, Sq, tp0, tq0, htot, tp8, tq8⟩ := L.at
  have R := L.toRegion
  have hsz := R.size_int
  have hs4 := R.start_mod
  have hT := R.top_bound
  have hv : h.valid (h.heap_start + total pre) := R.valid (by omega) (by omega) (by omega)
  rw [hb] at hh
  have hh1 : (setMem h (upd h.mem (h.heap_start + total pre)
      (hdr b.size true (lastAlloc true pre)))).mem (h.heap_start + total pre) =
      hdr b.size true (lastAlloc true pre) := by simp
  have hN := getNextBlk_hdr (h := setMem h (upd h.mem (h.heap_start + total pre)
      (hdr b.size true (lastAlloc true pre)))) (by simpa using hv) hh1
      (by omega : b.size % 4 = 0) (by omega) (by omega) (by omega) (by omega)
  have Sq2 : Seg (setMem h (upd h.mem (h.heap_start + total pre)
      (hdr b.size true (lastAlloc true pre)))).mem post
      (h.heap_start + total pre + b.size) b.alloc :=
    Sq.frame (fun x h1 h2 => upd_ne (by omega))
  have hM := markNext_run (R.setMem _) Sq2 (by simp; omega) (by omega)
    (by simp; omega) (by simp; rw [upd_ne (by omega)]; exact L.endm)
  unfold balloc_exact
  simp only [load_ok hv, store_ok _ hv, hh, bind, Except.bind, pure, Except.pure,
    hdr_set_alloc b.size false _ (by omega : b.size % 4 = 0) (by omega) (by omega), hN, hM,
    wrap64_id (h.heap_start + total pre + 4) (by omega) (by omega)]
  simp [exactMem]

theorem exactMem_at {m : Int → Int} {x s : Int} {p : Bool} {post : List Blk} (h8 : 8 ≤ s) :
    exactMem m x p s post x = hdr s true p := by
  unfold exactMem; rw [putPrev_ne (by omega)]; simp

theorem exactMem_ne {m : Int → Int} {x s y : Int} {p : Bool} {post : List Blk}
    (h1 : y ≠ x) (h2 : y ≠ x + s) : exactMem m x p s post y = m y := by
  unfold exactMem; rw [putPrev_ne h2, upd_ne h1]

/-- Allocating a free block whole keeps the heap well formed; only the
allocated flag of that block changes. -/
theorem exact_layout {h : Heap} {pre post : List Blk} {b : Blk}
    (L : Layout h (pre ++ b :: post)) (hb : b.alloc = false) :
    Layout (setMem h (exactMem h.mem (h.heap_start + total pre) (lastAlloc true pre) b.size post))
      (pre ++ ⟨b.size, true⟩ :: post) := by
  obtain ⟨Sp, h8, hm8, hh, hft, Sq, tp0, tq0, htot, tp8, tq8⟩ := L.at
  refine Layout.build (L.toRegion.setMem _) (by simp) ?_ ?_ ?_ ?_
  · exact Sp.frame (fun y h1 h2 => exactMem_ne (by omega) (by omega))
  · refine ⟨h8, hm8, exactMem_at h8, (fun hf => by cases hf), ?_⟩
    have S1 : Seg (upd h.mem (h.heap_start + total pre) (hdr b.size true (lastAlloc true pre)))
        post (h.heap_start + total pre + b.size) b.alloc :=
      Sq.frame (fun y h1 h2 => upd_ne (by omega))
    exact S1.putPrev true
  · simp [total]; omega
  · simp only [setMem_mem, setMem_heap_start, setMem_alloc_size]
    cases post with
    | nil => simp [exactMem, putPrev]; rw [upd_ne (by omega)]; exact L.endm
    | cons c cs =>
      obtain ⟨c8, _, _, _, S3⟩ := Sq
      have := S3.total_nonneg
      simp only [total] at htot
      rw [exactMem_ne (by omega) (by omega)]; exact L.endm

theorem split_hdr (l : Int) (l4 : l % 4 = 0) (l0 : 0 ≤ l) (l1 : l < 2147483644) :
    band (bor l 2) (bnot 1) = hdr l false true := by
  have e : l = hdr l false false := by simp [hdr]
  rw [e, hdr_set_prev l false false l4 l0 l1, hdr_clear_alloc l false true l4 l0 l1]
  simp [hdr]

theorem Seg.eq_nil_of_total {m : Int → Int} {bs : List Blk} {a : Int} {p : Bool}
    (S : Seg m bs a p) (ht : total bs = 0) : bs = [] := by
  cases bs with
  | nil => rfl
  | cons c cs =>
    obtain ⟨c8, _, _, _, S2⟩ := S
    have := S2.total_nonneg
    simp only [total] at ht
    omega

set_option maxHeartbeats 1000000 in
/-- The split of a best-fit block of a well-formed heap. -/
theorem balloc_split_run {h : Heap} {pre post : List Blk} {b : Blk}
    (L : Layout h (pre ++ b :: post)) (hb : b.alloc = false) (n : Int) (n8 : 8 ≤ n)
    (nm : n % 8 = 0) (nb : n < b.size) :
    balloc_split h n (h.heap_start + total pre) =
      .ok (h.heap_start + total pre + 4,
        setMem h (splitMem h.mem (h.heap_start + total pre) (lastAlloc true pre) b.size n)) := by
  obtain ⟨Sp, h8, hm8, hh, hft, Sq, tp0, tq0, htot, tp8, tq8⟩ := L.at
  have R := L.toRegion
  have hsz := R.size_int
  have hs4 := R.start_mod
  have hT := R.top_bound
  rw [hb] at hh
  generalize hx : h.heap_start + total pre = x at *
  generalize hp : lastAlloc true pre = p at *
  have hv : h.valid x := R.valid (by omega) (by omega) (by omega)
  have hvn : h.valid (x + n) := R.valid (by omega) (by omega) (by omega)
  have hvf : h.valid (x + n + (b.size - n) - 4) := R.valid (by omega) (by omega) (by omega)
  have e0 := getBlkSize_hdr hv hh (by omega : b.size % 4 = 0) (by omega) (by omega)
  have e1 : wrap32 (b.size - n) = b.size - n := wrap32_id _ (by omega) (by omega)
  have e2 : wrap64 (x + 4 * (wrap64 n / 4)) = x + n := by unfold wrap64; omega
  have e3 := split_hdr (b.size - n) (by omega) (by omega) (by omega)
  -- after the header of the remainder is written
  let m1 := upd h.mem (x + n) (hdr (b.size - n) false true)
  have hm1 : (setMem h m1).mem (x + n) = hdr (b.size - n) false true := by simp [m1]
  have e4 := getFoot_hdr (h := setMem h m1) (by simpa using hvn) hm1
    (by omega : (b.size - n) % 4 = 0) (by omega) (by omega) (by omega) (by omega)
  have e5 := getBlkSize_hdr (h := setMem h m1) (by simpa using hvn) hm1
    (by omega : (b.size - n) % 4 = 0) (by omega) (by omega)
  -- after its footer is written
  let m2 := upd m1 (x + n + (b.size - n) - 4) (b.size - n)
  have hm2 : m2 x = hdr b.size false p := by
    simp only [m2, m1]; rw [upd_ne (by omega), upd_ne (by omega)]; exact hh
  have e6 := hdr_resize n b.size false p (by omega) (by omega) (by omega) (by omega)
  have e7 := hdr_set_alloc n false p (by omega) (by omega) (by omega)
  let m4 := upd (upd m2 x (hdr n false p)) x (hdr n true p)
  have hm4 : (setMem h m4).mem x = hdr n true p := by simp [m4]
  have e8 := getNextBlk_hdr (h := setMem h m4) (by simpa using hv) hm4
    (by omega : n % 4 = 0) (by omega) (by omega) (by omega) (by omega)
  have hm4n : m4 (x + n) = hdr (b.size - n) false true := by
    simp only [m4, m2, m1]
    rw [upd_ne (by omega), upd_ne (by omega), upd_ne (by omega)]; simp
  have e9 := isEnd_hdr (h := setMem h m4) (a := x + n) (by simpa using hvn) hm4n
    (by omega : 8 ≤ b.size - n)
  have e10 := hdr_set_prev (b.size - n) false true (by omega) (by omega) (by omega)
  have e11 := hdr_set_prev n true p (by omega) (by omega) (by omega)
  let m5 := upd m4 (x + n) (hdr (b.size - n) false true)
  have hm5 : m5 x = hdr n true p := by
    simp only [m5]; rw [upd_ne (by omega)]; simp [m4]
  have e12 : wrap64 (x + 4) = x + 4 := wrap64_id _ (by omega) (by omega)
  have hA : m5 = splitMem h.mem x p b.size n := by
    funext y
    simp only [m5, m4, m2, m1, splitMem, upd]
    split_ifs <;> first | rfl | omega
  have hB : x = h.heap_start → upd m5 x (hdr n true true) = splitMem h.mem x p b.size n := by
    intro hxs
    have hpre : pre = [] := Sp.eq_nil_of_total (by omega)
    have hpt : p = true := by rw [← hp, hpre]; rfl
    have hself := upd_self m5 x
    rw [hm5, hpt] at hself
    rw [← hA, hself]
  have st : ∀ (m : Int → Int) (a v : Int), h.valid a →
      store (setMem h m) a v = .ok (setMem h (upd m a v)) :=
    fun m a v hva => store_ok (h := setMem h m) v hva
  have ld : ∀ (m : Int → Int) (a : Int), h.valid a → load (setMem h m) a = .ok (m a) :=
    fun m a hva => load_ok (h := setMem h m) hva
  unfold balloc_split markNextPrevAlloc
  simp only [e0, e1, e2, e3, bind, Except.bind, pure, Except.pure, store_ok _ hvn]
  simp only [show setMem h (upd h.mem (x + n) (hdr (b.size - n) false true)) = setMem h m1 from rfl,
    e4, e5, st _ _ _ hvf]
  simp only [show upd m1 (x + n + (b.size - n) - 4) (b.size - n) = m2 from rfl, ld _ _ hv, hm2,
    e6, st _ _ _ hv, upd_same, e7]
  simp only [show upd (upd m2 x (hdr n false p)) x (hdr n true p) = m4 from rfl, e8, e9,
    if_true, ld _ _ hvn, hm4n, e10, st _ _ _ hvn]
  simp only [show upd m4 (x + n) (hdr (b.size - n) false true) = m5 from rfl, setMem_heap_start,
    ld _ _ hv, hm5, e11, st _ _ _ hv, e12]
  split
  · rename_i hxs; rw [hB hxs]
  · rw [hA]

theorem splitMem_x {m : Int → Int} {x s n : Int} {p : Bool} :
    splitMem m x p s n x = hdr n true p := by simp [splitMem]

theorem splitMem_next {m : Int → Int} {x s n : Int} {p : Bool} (n8 : 8 ≤ n) (ns : n + 8 ≤ s) :
    splitMem m x p s n (x + n) = hdr (s - n) false true := by
  unfold splitMem; rw [upd_ne (by omega), upd_ne (by omega)]; simp

theorem splitMem_foot {m : Int → Int} {x s n : Int} {p : Bool} (n8 : 8 ≤ n) (ns : n + 8 ≤ s) :
    splitMem m x p s n (x + s - 4) = s - n := by
  unfold splitMem; rw [upd_ne (by omega)]; simp

theorem splitMem_ne {m : Int → Int} {x s n y : Int} {p : Bool} (h1 : y ≠ x) (h2 : y ≠ x + n)
    (h3 : y ≠ x + s - 4) : splitMem m x p s n y = m y := by
  unfold splitMem; rw [upd_ne h1, upd_ne h3, upd_ne h2]

/-- Splitting a free block keeps the heap well formed: the block is replaced by
an allocated block of the requested size followed by a free block holding the
rest. -/
theorem split_layout {h : Heap} {pre post : List Blk} {b : Blk}
    (L : Layout h (pre ++ b :: post)) (hb : b.alloc = false) (n : Int) (n8 : 8 ≤ n)
    (nm : n % 8 = 0) (nb : n < b.size) :
    Layout (setMem h (splitMem h.mem (h.heap_start + total pre) (lastAlloc true pre) b.size n))
      (pre ++ ⟨n, true⟩ :: ⟨b.size - n, false⟩ :: post) := by
  obtain ⟨Sp, h8, hm8, hh, hft, Sq, tp0, tq0, htot, tp8, tq8⟩ := L.at
  refine Layout.build (L.toRegion.setMem _) (by simp) ?_ ?_ ?_ ?_
  · exact Sp.frame (fun y h1 h2 => splitMem_ne (by omega) (by omega) (by omega))
  · have e : h.heap_start + total pre + n + (b.size - n) = h.heap_start + total pre + b.size := by
      omega
    refine ⟨n8, nm, splitMem_x, (fun hf => by cases hf), ?_, ?_, ?_, ?_, ?_⟩
    · show 8 ≤ b.size - n
      omega
    · show (b.size - n) % 8 = 0
      omega
    · exact splitMem_next n8 (by omega : n + 8 ≤ b.size)
    · intro _
      show splitMem h.mem _ _ _ _ (h.heap_start + total pre + n + (b.size - n) - 4) = b.size - n
      rw [e]; exact splitMem_foot n8 (by omega)
    · show Seg (splitMem h.mem _ _ _ _) post (h.heap_start + total pre + n + (b.size - n)) false
      rw [e, ← hb]
      exact Sq.frame (fun y h1 h2 => splitMem_ne (by omega) (by omega) (by omega))
  · simp [total]; omega
  · simp only [setMem_mem, setMem_heap_start, setMem_alloc_size]
    rw [splitMem_ne (by omega) (by omega) (by omega)]; exact L.endm

/-! ## The function `balloc` on well-formed heaps -/

theorem Layout.fuel_ok {h : Heap} {bs : List Blk} (L : Layout h bs) : bs.length < h.fuel := by
  have h1 := L.seg.len_le
  have h2 := L.tot
  have h3 := L.len
  unfold Heap.fuel
  omega

/-- On a well-formed heap `balloc` is the search on the block list followed by
the exact-match branch, the null return, or the split. -/
theorem balloc_unfold {h : Heap} {bs : List Blk} (L : Layout h bs) {size : Int}
    (hs : 1 ≤ size) :
    balloc h size =
      match scanL (need size) bs 0 0 h.heap_start with
      | .inr x => balloc_exact h x
      | .inl best => if best = 0 then .ok (0, h) else balloc_split h (need size) best := by
  have R := L.toRegion
  have hT := R.top_bound
  have hs4 := R.start_mod
  have hsz := R.size_int
  have hne := L.nonempty
  have S := L.seg
  have hv : h.valid h.heap_start := R.valid (by omega) (by have := R.size_nn; omega) (by omega)
  obtain ⟨b0, rest, rfl⟩ := List.exists_cons_of_ne_nil hne
  have S0 := S
  obtain ⟨h8, hm8, hh, _, S2⟩ := S0
  have t0 := S2.total_nonneg
  have ht := L.tot
  simp only [total] at ht
  have e1 : bor (h.mem h.heap_start) 2 = h.mem h.heap_start := by
    rw [hh]; exact hdr_set_prev b0.size b0.alloc true (by omega) (by omega) (by omega)
  have hscan := scan_run R (need size) (b0 :: rest) h.fuel h.heap_start true 0 0 S (le_refl _)
    (by omega) (by rw [L.tot]) L.endm L.fuel_ok (fun hne => absurd rfl hne)
  unfold balloc
  rw [if_neg (by omega)]
  simp only [load_ok hv, store_ok _ hv, e1, upd_self, setMem_self, bind, Except.bind, hscan]
  cases hr : scanL (need size) (b0 :: rest) 0 0 h.heap_start with
  | inl best => simp [pure, Except.pure]
  | inr x =>
    simp only [pure, Except.pure]
    cases balloc_exact h x <;> rfl

/-! ## Effect of a deallocation -/

theorem releaseMem_x {m : Int → Int} {x s : Int} {p : Bool} {post : List Blk} (h8 : 8 ≤ s) :
    releaseMem m x p s post x = hdr s false p := by
  unfold releaseMem; rw [upd_ne (by omega), putPrev_ne (by omega)]; simp

theorem releaseMem_foot {m : Int → Int} {x s : Int} {p : Bool} {post : List Blk} :
    releaseMem m x p s post (x + s - 4) = s := by
  unfold releaseMem; simp

theorem releaseMem_ne {m : Int → Int} {x s y : Int} {p : Bool} {post : List Blk}
    (h1 : y ≠ x) (h2 : y ≠ x + s) (h3 : y ≠ x + s - 4) :
    releaseMem m x p s post y = m y := by
  unfold releaseMem; rw [upd_ne h3, putPrev_ne h2, upd_ne h1]

set_option maxHeartbeats 1000000 in
/-- The first part of `bfree` on an allocated block of a well-formed heap. -/
theorem bfree_release_run {h : Heap} {pre post : List Blk} {b : Blk}
    (L : Layout h (pre ++ b :: post)) (hb : b.alloc = true) :
    bfree_release h (h.heap_start + total pre) (h.heap_start + total pre + b.size) =
      .ok (setMem h
        (releaseMem h.mem (h.heap_start + total pre) (lastAlloc true pre) b.size post)) := by
  obtain ⟨Sp, h8, hm8, hh, hft, Sq, tp0, tq0, htot, tp8, tq8⟩ := L.at
  have R := L.toRegion
  have hsz := R.size_int
  have hs4 := R.start_mod
  have hT := R.top_bound
  have hend := L.endm
  rw [hb] at hh Sq
  generalize hx : h.heap_start + total pre = x at *
  generalize hp : lastAlloc true pre = p at *
  have hv : h.valid x := R.valid (by omega) (by omega) (by omega)
  have hvn : h.valid (x + b.size) := R.valid (by omega) (by omega) (by omega)
  have hvf : h.valid (x + b.size - 4) := R.valid (by omega) (by omega) (by omega)
  have st : ∀ (m : Int → Int) (a v : Int), h.valid a →
      store (setMem h m) a v = .ok (setMem h (upd m a v)) :=
    fun m a v hva => store_ok (h := setMem h m) v hva
  have ld : ∀ (m : Int → Int) (a : Int), h.valid a → load (setMem h m) a = .ok (m a) :=
    fun m a hva => load_ok (h := setMem h m) hva
  have e1 := hdr_clear_alloc b.size true p (by omega) (by omega) (by omega)
  let m1 := upd h.mem x (hdr b.size false p)
  unfold bfree_release
  simp only [load_ok hv, hh, e1, store_ok _ hv, bind, Except.bind, pure, Except.pure]
  simp only [show upd h.mem x (hdr b.size false p) = m1 from rfl]
  cases post with
  | nil =>
    simp only [total, Int.add_zero] at htot
    have hm1e : (setMem h m1).mem (x + b.size) = 1 := by
      simp only [setMem_mem, m1]; rw [upd_ne (by omega)]
      have e : x + b.size = h.heap_start + h.alloc_size := by omega
      rw [e]; exact hend
    have hm1x : (setMem h m1).mem x = hdr b.size false p := by simp [m1]
    have e2 := isEnd_end (h := setMem h m1) (by simpa using hvn) hm1e
    have e3 := getFoot_hdr (h := setMem h m1) (by simpa using hv) hm1x
      (by omega : b.size % 4 = 0) (by omega) (by omega) (by omega) (by omega)
    have e4 := getBlkSize_hdr (h := setMem h m1) (by simpa using hv) hm1x
      (by omega : b.size % 4 = 0) (by omega) (by omega)
    simp only [e2, e3, e4, st _ _ _ hvf]
    simp [releaseMem, putPrev, m1]
  | cons c cs =>
    obtain ⟨c8, cm8, ch, _, S3⟩ := Sq
    have t3 := S3.total_nonneg
    simp only [total] at htot
    have hm1n : (setMem h m1).mem (x + b.size) = hdr c.size c.alloc true := by
      simp only [setMem_mem, m1]; rw [upd_ne (by omega)]; exact ch
    have e2 := isEnd_hdr (h := setMem h m1) (by simpa using hvn) hm1n c8
    have e5 := hdr_clear_prev c.size c.alloc true (by omega) (by omega) (by omega)
    let m2 := upd m1 (x + b.size) (hdr c.size c.alloc false)
    have hm2x : (setMem h m2).mem x = hdr b.size false p := by
      simp only [setMem_mem, m2, m1]; rw [upd_ne (by omega)]; simp
    have e3 := getFoot_hdr (h := setMem h m2) (by simpa using hv) hm2x
      (by omega : b.size % 4 = 0) (by omega) (by omega) (by omega) (by omega)
    have e4 := getBlkSize_hdr (h := setMem h m2) (by simpa using hv) hm2x
      (by omega : b.size % 4 = 0) (by omega) (by omega)
    simp only [e2, if_true, ld _ _ hvn, st _ _ _ hvn]
    simp only [setMem_mem] at hm1n
    simp only [hm1n, e5, show upd m1 (x + b.size) (hdr c.size c.alloc false) = m2 from rfl,
      e3, e4, st _ _ _ hvf]
    simp [releaseMem, putPrev, m2, m1]

/-- After the first part of `bfree` the heap is well formed with the block
marked free. -/
theorem release_layout {h : Heap} {pre post : List Blk} {b : Blk}
    (L : Layout h (pre ++ b :: post)) (hb : b.alloc = true) :
    Layout (setMem h
        (releaseMem h.mem (h.heap_start + total pre) (lastAlloc true pre) b.size post))
      (pre ++ ⟨b.size, false⟩ :: post) := by
  obtain ⟨Sp, h8, hm8, hh, hft, Sq, tp0, tq0, htot, tp8, tq8⟩ := L.at
  refine Layout.build (L.toRegion.setMem _) (by simp) ?_ ?_ ?_ ?_
  · exact Sp.frame (fun y h1 h2 => releaseMem_ne (by omega) (by omega) (by omega))
  · refine ⟨h8, hm8, releaseMem_x h8, (fun _ => releaseMem_foot), ?_⟩
    have S1 : Seg (upd h.mem (h.heap_start + total pre) (hdr b.size false (lastAlloc true pre)))
        post (h.heap_start + total pre + b.size) b.alloc :=
      Sq.frame (fun y h1 h2 => upd_ne (by omega))
    exact (S1.putPrev false).frame (fun y h1 h2 => upd_ne (by omega))
  · simp [total]; omega
  · simp only [setMem_mem, setMem_heap_start, setMem_alloc_size]
    cases post with
    | nil =>
      simp only [total, Int.add_zero] at htot
      simp only [releaseMem, putPrev]
      rw [upd_ne (by omega), upd_ne (by omega)]; exact L.endm
    | cons c cs =>
      obtain ⟨c8, _, _, _, S3⟩ := Sq
      have := S3.total_nonneg
      simp only [total] at htot
      rw [releaseMem_ne (by omega) (by omega) (by omega)]; exact L.endm

/-! ## Coalescing -/

theorem mergeMem_x {m : Int → Int} {x s1 s2 : Int} {p : Bool} (h1 : 8 ≤ s1) (h2 : 8 ≤ s2) :
    mergeMem m x p s1 s2 x = hdr (s1 + s2) false p := by
  unfold mergeMem; rw [upd_ne (by omega)]; simp

theorem mergeMem_foot {m : Int → Int} {x s1 s2 : Int} {p : Bool} :
    mergeMem m x p s1 s2 (x + s1 + s2 - 4) = s1 + s2 := by
  unfold mergeMem; simp

theorem mergeMem_ne {m : Int → Int} {x s1 s2 y : Int} {p : Bool}
    (h1 : y ≠ x) (h2 : y ≠ x + s1 + s2 - 4) : mergeMem m x p s1 s2 y = m y := by
  unfold mergeMem; rw [upd_ne h2, upd_ne h1]

/-- The facts a layout gives about two consecutive blocks. -/
theorem Layout.at2 {h : Heap} {pre post : List Blk} {b c : Blk}
    (L : Layout h (pre ++ b :: c :: post)) :
    8 ≤ c.size ∧ c.size % 8 = 0 ∧
      h.mem (h.heap_start + total pre + b.size) = hdr c.size c.alloc b.alloc ∧
      (c.alloc = false → h.mem (h.heap_start + total pre + b.size + c.size - 4) = c.size) ∧
      Seg h.mem post (h.heap_start + total pre + b.size + c.size) c.alloc ∧
      0 ≤ total post ∧ total pre + b.size + c.size + total post = h.alloc_size ∧
      total post % 8 = 0 := by
  obtain ⟨_, _, _, _, _, Sq, _, _, htot, _, _⟩ := L.at
  obtain ⟨c8, cm8, ch, cft, S3⟩ := Sq
  simp only [total] at htot
  exact ⟨c8, cm8, ch, cft, S3, S3.total_nonneg, by omega, S3.total_mod⟩

/-- Merging two adjacent free blocks keeps the heap well formed. -/
theorem merge_layout {h : Heap} {pre post : List Blk} {b c : Blk}
    (L : Layout h (pre ++ b :: c :: post)) (hc : c.alloc = false) :
    Layout (setMem h
        (mergeMem h.mem (h.heap_start + total pre) (lastAlloc true pre) b.size c.size))
      (pre ++ ⟨b.size + c.size, false⟩ :: post) := by
  obtain ⟨Sp, h8, hm8, hh, hft, _, tp0, _, _, tp8, _⟩ := L.at
  obtain ⟨c8, cm8, ch, cft, S3, tq0, htot, tq8⟩ := L.at2
  refine Layout.build (L.toRegion.setMem _) (by simp) ?_ ?_ ?_ ?_
  · exact Sp.frame (fun y h1 h2 => mergeMem_ne (by omega) (by omega))
  · refine ⟨?_, ?_, mergeMem_x h8 c8, (fun _ => ?_), ?_⟩
    · show 8 ≤ b.size + c.size
      omega
    · show (b.size + c.size) % 8 = 0
      omega
    · show mergeMem h.mem _ _ _ _ (h.heap_start + total pre + (b.size + c.size) - 4) = _
      have e : h.heap_start + total pre + (b.size + c.size) - 4 =
          h.heap_start + total pre + b.size + c.size - 4 := by omega
      rw [e]; exact mergeMem_foot
    · show Seg (mergeMem h.mem _ _ _ _) post (h.heap_start + total pre + (b.size + c.size)) false
      have e : h.heap_start + total pre + (b.size + c.size) =
          h.heap_start + total pre + b.size + c.size := by omega
      rw [e, ← hc]
      exact S3.frame (fun y h1 h2 => mergeMem_ne (by omega) (by omega))
  · simp [total]; omega
  · simp only [setMem_mem, setMem_heap_start, setMem_alloc_size]
    rw [mergeMem_ne (by omega) (by omega)]; exact L.endm

theorem hdr_add (s1 s2 : Int) (p : Bool) :
    hdr s1 false p + hdr s2 false false = hdr (s1 + s2) false p := by
  cases p <;> simp [hdr] <;> omega

/-- The second part of `bfree` when the next block is allocated or the end
mark. -/
theorem join_next_keep {h : Heap} {pre post : List Blk} {b : Blk}
    (L : Layout h (pre ++ b :: post)) (hp : headAlloc post = true) :
    bfree_join_next h (h.heap_start + total pre) (h.heap_start + total pre + b.size) = .ok h := by
  obtain ⟨Sp, h8, hm8, hh, hft, Sq, tp0, tq0, htot, tp8, tq8⟩ := L.at
  have R := L.toRegion
  have hsz := R.size_int
  have hs4 := R.start_mod
  have hT := R.top_bound
  have hvn : h.valid (h.heap_start + total pre + b.size) :=
    R.valid (by omega) (by omega) (by omega)
  unfold bfree_join_next
  cases post with
  | nil =>
    simp only [total, Int.add_zero] at htot
    have hend := L.endm
    rw [show h.heap_start + h.alloc_size = h.heap_start + total pre + b.size by omega] at hend
    simp [isEnd_end hvn hend, bind, Except.bind, pure, Except.pure]
  | cons c cs =>
    obtain ⟨c8, cm8, ch, _, S3⟩ := Sq
    simp only [headAlloc] at hp
    simp [isEnd_hdr hvn ch c8, isAlloc_hdr hvn ch (by omega : c.size % 4 = 0), hp, bind,
      Except.bind, pure, Except.pure]

set_option maxHeartbeats 1000000 in
/-- The second part of `bfree` when the next block is free. -/
theorem join_next_merge {h : Heap} {pre post : List Blk} {b c : Blk}
    (L : Layout h (pre ++ b :: c :: post)) (hb : b.alloc = false) (hc : c.alloc = false) :
    bfree_join_next h (h.heap_start + total pre) (h.heap_start + total pre + b.size) =
      .ok (setMem h
        (mergeMem h.mem (h.heap_start + total pre) (lastAlloc true pre) b.size c.size)) := by
  obtain ⟨Sp, h8, hm8, hh, hft, _, tp0, _, _, tp8, _⟩ := L.at
  obtain ⟨c8, cm8, ch, cft, S3, tq0, htot, tq8⟩ := L.at2
  have R := L.toRegion
  have hsz := R.size_int
  have hs4 := R.start_mod
  have hT := R.top_bound
  rw [hb] at hh ch
  rw [hc] at ch
  generalize hx : h.heap_start + total pre = x at *
  generalize hpp : lastAlloc true pre = p at *
  have hv : h.valid x := R.valid (by omega) (by omega) (by omega)
  have hvn : h.valid (x + b.size) := R.valid (by omega) (by omega) (by omega)
  have hvf : h.valid (x + (b.size + c.size) - 4) := R.valid (by omega) (by omega) (by omega)
  have e1 : wrap32 (hdr b.size false p + hdr c.size false false) =
      hdr (b.size + c.size) false p := by
    rw [hdr_add, wrap32_id] <;> cases p <;> simp [hdr] <;> omega
  let m1 := upd h.mem x (hdr (b.size + c.size) false p)
  have hm1 : (setMem h m1).mem x = hdr (b.size + c.size) false p := by simp [m1]
  have e2 := getFoot_hdr (h := setMem h m1) (by simpa using hv) hm1
    (by omega : (b.size + c.size) % 4 = 0) (by omega) (by omega) (by omega) (by omega)
  have e3 := getBlkSize_hdr (h := setMem h m1) (by simpa using hv) hm1
    (by omega : (b.size + c.size) % 4 = 0) (by omega) (by omega)
  unfold bfree_join_next
  simp only [isEnd_hdr hvn ch c8, isAlloc_hdr hvn ch (by omega : c.size % 4 = 0), bind,
    Except.bind, pure, Except.pure, if_true, load_ok hv, load_ok hvn, hh, ch, e1,
    store_ok _ hv, Bool.false_eq_true, if_false]
  simp only [show upd h.mem x (hdr (b.size + c.size) false p) = m1 from rfl, e2, e3,
    store_ok (h := setMem h m1) _ (by simpa using hvf)]
  have e : x + (b.size + c.size) - 4 = x + b.size + c.size - 4 := by omega
  simp [mergeMem, m1, e]

/-- The third part of `bfree` when the previous block is allocated. -/
theorem join_prev_keep {h : Heap} {pre post : List Blk} {b : Blk}
    (L : Layout h (pre ++ b :: post)) (hp : lastAlloc true pre = true) :
    bfree_join_prev h (h.heap_start + total pre) = .ok h := by
  obtain ⟨Sp, h8, hm8, hh, hft, Sq, tp0, tq0, htot, tp8, tq8⟩ := L.at
  have R := L.toRegion
  have hs4 := R.start_mod
  have hv : h.valid (h.heap_start + total pre) := R.valid (by omega) (by omega) (by omega)
  rw [hp] at hh
  unfold bfree_join_prev
  simp [isPrevAlloc_hdr hv hh (by omega : b.size % 4 = 0), bind, Except.bind, pure, Except.pure]

set_option maxHeartbeats 1000000 in
/-- The third part of `bfree` when the previous block is free. -/
theorem join_prev_merge {h : Heap} {pre post : List Blk} {b c : Blk}
    (L : Layout h (pre ++ b :: c :: post)) (hb : b.alloc = false) (hc : c.alloc = false) :
    bfree_join_prev h (h.heap_start + total pre + b.size) =
      .ok (setMem h
        (mergeMem h.mem (h.heap_start + total pre) (lastAlloc true pre) b.size c.size)) := by
  obtain ⟨Sp, h8, hm8, hh, hft, _, tp0, _, _, tp8, _⟩ := L.at
  obtain ⟨c8, cm8, ch, cft, S3, tq0, htot, tq8⟩ := L.at2
  have R := L.toRegion
  have hsz := R.size_int
  have hs4 := R.start_mod
  have hT := R.top_bound
  have hfoot := hft hb
  rw [hb] at hh ch
  rw [hc] at ch
  generalize hx : h.heap_start + total pre = x at *
  generalize hpp : lastAlloc true pre = p at *
  have hv : h.valid x := R.valid (by omega) (by omega) (by omega)
  have hvn : h.valid (x + b.size) := R.valid (by omega) (by omega) (by omega)
  have hvb : h.valid (x + b.size - 4) := R.valid (by omega) (by omega) (by omega)
  have hvf : h.valid (x + (b.size + c.size) - 4) := R.valid (by omega) (by omega) (by omega)
  have e0 : wrap64 (x + b.size - 4) = x + b.size - 4 := wrap64_id _ (by omega) (by omega)
  have e0b : wrap64 (x + b.size - b.size) = x := by
    rw [wrap64_id _ (by omega) (by omega)]; omega
  have e1 : wrap32 (hdr c.size false false + hdr b.size false p) =
      hdr (b.size + c.size) false p := by
    rw [Int.add_comm, hdr_add, wrap32_id] <;> cases p <;> simp [hdr] <;> omega
  let m1 := upd h.mem x (hdr (b.size + c.size) false p)
  have hm1 : (setMem h m1).mem x = hdr (b.size + c.size) false p := by simp [m1]
  have e2 := getFoot_hdr (h := setMem h m1) (by simpa using hv) hm1
    (by omega : (b.size + c.size) % 4 = 0) (by omega) (by omega) (by omega) (by omega)
  have e3 := getBlkSize_hdr (h := setMem h m1) (by simpa using hv) hm1
    (by omega : (b.size + c.size) % 4 = 0) (by omega) (by omega)
  unfold bfree_join_prev
  simp only [isPrevAlloc_hdr hvn ch (by omega : c.size % 4 = 0), bind, Except.bind, pure,
    Except.pure, Bool.false_eq_true, if_false, if_true, e0, load_ok hvb, hfoot, e0b,
    load_ok hvn, ch, load_ok hv, hh, e1, store_ok _ hv]
  simp only [show upd h.mem x (hdr (b.size + c.size) false p) = m1 from rfl, e2, e3,
    store_ok (h := setMem h m1) _ (by simpa using hvf)]
  have e : x + (b.size + c.size) - 4 = x + b.size + c.size - 4 := by omega
  simp [mergeMem, m1, e]

/-! ## Steps of the allocator -/

theorem Step.trans {h h2 h3 : Heap} {bs bs2 bs3 : List Blk} {lo hi lo2 hi2 : Int}
    (s1 : Step h bs h2 bs2 lo hi) (s2 : Step h2 bs2 h3 bs3 lo2 hi2) :
    Step h bs h3 bs3 (min lo lo2) (max hi hi2) where
  same := by rw [s2.same, s1.same]; rfl
  layout := s2.layout
  quiet := fun q => s2.quiet (s1.quiet q)
  frame := fun y hy => by
    rw [s2.frame y (by omega), s1.frame y (by omega)]

theorem Step.mono {h h2 : Heap} {bs bs2 : List Blk} {lo hi lo2 hi2 : Int}
    (s : Step h bs h2 bs2 lo hi) (hl : lo2 ≤ lo) (hh : hi ≤ hi2) :
    Step h bs h2 bs2 lo2 hi2 where
  same := s.same
  layout := s.layout
  quiet := s.quiet
  frame := fun y hy => s.frame y (by omega)

theorem Step.refl {h : Heap} {bs : List Blk} (L : Layout h bs) (lo hi : Int) :
    Step h bs h bs lo hi where
  same := rfl
  layout := L
  quiet := id
  frame := fun _ _ => rfl

theorem Quiet_cons {m : Int → Int} {b : Blk} {bs : List Blk} {a : Int} :
    Quiet m (b :: bs) a ↔
      (∀ k : Int, 0 < k → k < b.size → k % 8 = 0 → m (a + k) % 2 = 0) ∧
        Quiet m bs (a + b.size) := Iff.rfl

/-- Allocating a free block whole is a step. -/
theorem exact_step {h : Heap} {pre post : List Blk} {b : Blk}
    (L : Layout h (pre ++ b :: post)) (hb : b.alloc = false) :
    Step h (pre ++ b :: post)
      (setMem h (exactMem h.mem (h.heap_start + total pre) (lastAlloc true pre) b.size post))
      (pre ++ ⟨b.size, true⟩ :: post)
      (h.heap_start + total pre) (h.heap_start + total pre + b.size) where
  same := rfl
  layout := exact_layout L hb
  quiet := by
    obtain ⟨Sp, h8, hm8, hh, hft, Sq, tp0, tq0, htot, tp8, tq8⟩ := L.at
    intro q
    rw [Quiet_append, Quiet_cons] at q ⊢
    obtain ⟨q1, q2, q3⟩ := q
    refine ⟨q1.frame_quiet Sp.size_nonneg (fun y h1 h2 => exactMem_ne (by omega) (by omega)), ?_,
      q3.frame_quiet Sq.size_nonneg (fun y h1 h2 => exactMem_ne (by omega) (by omega))⟩
    intro k k0 k1 k8
    show exactMem h.mem _ _ _ _ (h.heap_start + total pre + k) % 2 = 0
    have k1' : k < b.size := k1
    rw [exactMem_ne (by omega) (by omega)]
    exact q2 k k0 k1 k8
  frame := by
    intro y hy
    have h8 := (L.at).2.1
    exact exactMem_ne (by omega) (by omega)

/-- Splitting a free block is a step. -/
theorem split_step {h : Heap} {pre post : List Blk} {b : Blk}
    (L : Layout h (pre ++ b :: post)) (hb : b.alloc = false) (n : Int) (n8 : 8 ≤ n)
    (nm : n % 8 = 0) (nb : n < b.size) :
    Step h (pre ++ b :: post)
      (setMem h (splitMem h.mem (h.heap_start + total pre) (lastAlloc true pre) b.size n))
      (pre ++ ⟨n, true⟩ :: ⟨b.size - n, false⟩ :: post)
      (h.heap_start + total pre) (h.heap_start + total pre + b.size) where
  same := rfl
  layout := split_layout L hb n n8 nm nb
  quiet := by
    obtain ⟨Sp, h8, hm8, hh, hft, Sq, tp0, tq0, htot, tp8, tq8⟩ := L.at
    intro q
    rw [Quiet_append, Quiet_cons] at q
    rw [Quiet_append, Quiet_cons, Quiet_cons]
    obtain ⟨q1, q2, q3⟩ := q
    have e : h.heap_start + total pre + n + (b.size - n) = h.heap_start + total pre + b.size := by
      omega
    refine ⟨q1.frame_quiet Sp.size_nonneg
      (fun y h1 h2 => splitMem_ne (by omega) (by omega) (by omega)), ?_, ?_, ?_⟩
    · intro k k0 k1 k8
      have k1' : k < n := k1
      show splitMem h.mem _ _ _ _ (h.heap_start + total pre + k) % 2 = 0
      rw [splitMem_ne (by omega) (by omega) (by omega)]
      exact q2 k k0 (by omega) k8
    · intro k k0 k1 k8
      have k1' : k < b.size - n := k1
      show splitMem h.mem _ _ _ _ (h.heap_start + total pre + n + k) % 2 = 0
      rw [splitMem_ne (by omega) (by omega) (by omega)]
      have := q2 (n + k) (by omega) (by omega) (by omega)
      rw [show h.heap_start + total pre + n + k = h.heap_start + total pre + (n + k) by omega]
      exact this
    · show Quiet (splitMem h.mem _ _ _ _) post (h.heap_start + total pre + n + (b.size - n))
      rw [e]
      exact q3.frame_quiet Sq.size_nonneg
        (fun y h1 h2 => splitMem_ne (by omega) (by omega) (by omega))
  frame := by
    intro y hy
    have h8 := (L.at).2.1
    exact splitMem_ne (by omega) (by omega) (by omega)

/-- Marking an allocated block free is a step. -/
theorem release_step {h : Heap} {pre post : List Blk} {b : Blk}
    (L : Layout h (pre ++ b :: post)) (hb : b.alloc = true) :
    Step h (pre ++ b :: post)
      (setMem h (releaseMem h.mem (h.heap_start + total pre) (lastAlloc true pre) b.size post))
      (pre ++ ⟨b.size, false⟩ :: post)
      (h.heap_start + total pre) (h.heap_start + total pre + b.size) where
  same := rfl
  layout := release_layout L hb
  quiet := by
    obtain ⟨Sp, h8, hm8, hh, hft, Sq, tp0, tq0, htot, tp8, tq8⟩ := L.at
    intro q
    rw [Quiet_append, Quiet_cons] at q ⊢
    obtain ⟨q1, q2, q3⟩ := q
    refine ⟨q1.frame_quiet Sp.size_nonneg
      (fun y h1 h2 => releaseMem_ne (by omega) (by omega) (by omega)), ?_,
      q3.frame_quiet Sq.size_nonneg (fun y h1 h2 => releaseMem_ne (by omega) (by omega) (by omega))⟩
    intro k k0 k1 k8
    show releaseMem h.mem _ _ _ _ (h.heap_start + total pre + k) % 2 = 0
    have k1' : k < b.size := k1
    rw [releaseMem_ne (by omega) (by omega) (by omega)]
    exact q2 k k0 k1 k8
  frame := by
    intro y hy
    have h8 := (L.at).2.1
    exact releaseMem_ne (by omega) (by omega) (by omega)

/-- Merging two adjacent free blocks is a step. -/
theorem merge_step {h : Heap} {pre post : List Blk} {b c : Blk}
    (L : Layout h (pre ++ b :: c :: post)) (hb : b.alloc = false) (hc : c.alloc = false) :
    Step h (pre ++ b :: c :: post)
      (setMem h (mergeMem h.mem (h.heap_start + total pre) (lastAlloc true pre) b.size c.size))
      (pre ++ ⟨b.size + c.size, false⟩ :: post)
      (h.heap_start + total pre) (h.heap_start + total pre + b.size + c.size) where
  same := rfl
  layout := merge_layout L hc
  quiet := by
    obtain ⟨Sp, h8, hm8, hh, hft, _, tp0, _, _, tp8, _⟩ := L.at
    obtain ⟨c8, cm8, ch, cft, S3, tq0, htot, tq8⟩ := L.at2
    intro q
    rw [Quiet_append, Quiet_cons, Quiet_cons] at q
    rw [Quiet_append, Quiet_cons]
    obtain ⟨q1, q2, q3, q4⟩ := q
    refine ⟨q1.frame_quiet Sp.size_nonneg (fun y h1 h2 => mergeMem_ne (by omega) (by omega)), ?_, ?_⟩
    · intro k k0 k1 k8
      have k1' : k < b.size + c.size := k1
      show mergeMem h.mem _ _ _ _ (h.heap_start + total pre + k) % 2 = 0
      rw [mergeMem_ne (by omega) (by omega)]
      rcases lt_trichotomy k b.size with hk | hk | hk
      · exact q2 k k0 hk k8
      · rw [hk, ch, hc, hdr_odd _ _ _ (by omega)]; rfl
      · have := q3 (k - b.size) (by omega) (by omega) (by omega)
        rw [show h.heap_start + total pre + b.size + (k - b.size) =
          h.heap_start + total pre + k by omega] at this
        exact this
    · show Quiet (mergeMem h.mem _ _ _ _) post (h.heap_start + total pre + (b.size + c.size))
      rw [show h.heap_start + total pre + (b.size + c.size) =
        h.heap_start + total pre + b.size + c.size by omega]
      exact q4.frame_quiet S3.size_nonneg (fun y h1 h2 => mergeMem_ne (by omega) (by omega))
  frame := by
    intro y hy
    have h8 := (L.at).2.1
    have c8 := (L.at2).1
    exact mergeMem_ne (by omega) (by omega)

/-! ## The function `bfree` on well-formed heaps -/

/-- On the payload pointer of an allocated block the validation of `bfree`
passes and the three parts of its body run in turn. -/
theorem bfree_unfold {h : Heap} {pre post : List Blk} {b : Blk}
    (L : Layout h (pre ++ b :: post)) (hb : b.alloc = true) :
    bfree h (h.heap_start + total pre + 4) =
      (bfree_release h (h.heap_start + total pre) (h.heap_start + total pre + b.size) >>= fun h1 =>
        bfree_join_next h1 (h.heap_start + total pre) (h.heap_start + total pre + b.size) >>=
          fun h2 => bfree_join_prev h2 (h.heap_start + total pre) >>= fun h3 => pure (0, h3)) := by
  obtain ⟨Sp, h8, hm8, hh, hft, Sq, tp0, tq0, htot, tp8, tq8⟩ := L.at
  have R := L.toRegion
  have hsz := R.size_int
  have hs4 := R.start_mod
  have hT := R.top_bound
  rw [hb] at hh
  have hv : h.valid (h.heap_start + total pre) := R.valid (by omega) (by omega) (by omega)
  have e1 : wrap64 (h.heap_start + total pre + 4 - 4) = h.heap_start + total pre := by
    rw [wrap64_id _ (by omega) (by omega)]; omega
  have e2 : wrap64 (h.heap_start + h.alloc_size) = h.heap_start + h.alloc_size :=
    wrap64_id _ (by omega) (by omega)
  have e3 := isAlloc_hdr hv hh (by omega : b.size % 4 = 0)
  have e4 := getNextBlk_hdr hv hh (by omega : b.size % 4 = 0) (by omega) (by omega) (by omega)
    (by omega)
  unfold bfree
  rw [if_neg (by omega), if_neg (by omega)]
  simp only [e1, e2]
  rw [if_neg (by omega)]
  simp only [e3, e4, bind, Except.bind, pure, Except.pure, if_true, one_ne_zero, if_false]

theorem Blk.eta_free {X : Blk} (hX : X.alloc = false) : (⟨X.size, false⟩ : Blk) = X := by
  cases X; simp at hX; simp [hX]

/-- The second part of `bfree` merges the block with a free successor. -/
theorem join_next_step {h : Heap} {pre lc post : List Blk} {X : Blk}
    (L : Layout h (pre ++ X :: (lc ++ post))) (hX : X.alloc = false)
    (hlc : (lc = [] ∧ headAlloc post = true) ∨ ∃ C, lc = [C] ∧ C.alloc = false) :
    ∃ h2, bfree_join_next h (h.heap_start + total pre) (h.heap_start + total pre + X.size) =
        .ok h2 ∧
      Step h (pre ++ X :: (lc ++ post)) h2 (pre ++ ⟨X.size + total lc, false⟩ :: post)
        (h.heap_start + total pre) (h.heap_start + total pre + X.size + total lc) := by
  rcases hlc with ⟨rfl, hp⟩ | ⟨C, rfl, hC⟩
  · refine ⟨h, join_next_keep L hp, ?_⟩
    simp only [List.nil_append, total, Int.add_zero]
    rw [Blk.eta_free hX]
    exact Step.refl L _ _
  · refine ⟨_, join_next_merge L hX hC, ?_⟩
    have := merge_step L hX hC
    simpa [total] using this

/-- The third part of `bfree` merges the block into a free predecessor. -/
theorem join_prev_step {h : Heap} {pre la post : List Blk} {X : Blk}
    (L : Layout h ((pre ++ la) ++ X :: post)) (hX : X.alloc = false)
    (hla : (la = [] ∧ lastAlloc true pre = true) ∨ ∃ A, la = [A] ∧ A.alloc = false) :
    ∃ h2, bfree_join_prev h (h.heap_start + total (pre ++ la)) = .ok h2 ∧
      Step h ((pre ++ la) ++ X :: post) h2 (pre ++ ⟨total la + X.size, false⟩ :: post)
        (h.heap_start + total pre) (h.heap_start + total pre + total la + X.size) := by
  rcases hla with ⟨rfl, hp⟩ | ⟨A, rfl, hA⟩
  · simp only [List.append_nil] at L ⊢
    refine ⟨h, join_prev_keep L hp, ?_⟩
    simp only [total, Int.zero_add, Int.add_zero]
    rw [Blk.eta_free hX]
    exact Step.refl L _ _
  · have L2 : Layout h (pre ++ A :: X :: post) := by simpa using L
    have e : h.heap_start + total (pre ++ [A]) = h.heap_start + total pre + A.size := by
      rw [total_append]; simp [total]; omega
    rw [e]
    refine ⟨_, join_prev_merge L2 hA hX, ?_⟩
    have := merge_step L2 hA hX
    simpa [total] using this

/-- On the payload pointer of an allocated block of a well-formed heap `bfree`
returns 0, and the block together with its free neighbours becomes one free
block. -/
theorem bfree_run {h : Heap} {pre la lc post : List Blk} {b : Blk}
    (L : Layout h ((pre ++ la) ++ b :: (lc ++ post))) (hb : b.alloc = true)
    (hla : (la = [] ∧ lastAlloc true pre = true) ∨ ∃ A, la = [A] ∧ A.alloc = false)
    (hlc : (lc = [] ∧ headAlloc post = true) ∨ ∃ C, lc = [C] ∧ C.alloc = false) :
    ∃ h2, bfree h (h.heap_start + total (pre ++ la) + 4) = .ok (0, h2) ∧
      Step h ((pre ++ la) ++ b :: (lc ++ post)) h2
        (pre ++ ⟨total la + b.size + total lc, false⟩ :: post)
        (h.heap_start + total pre)
        (h.heap_start + total pre + total la + b.size + total lc) := by
  have s1 := release_step L hb
  have r1 := bfree_release_run L hb
  obtain ⟨h2, r2, s2⟩ := join_next_step (X := ⟨b.size, false⟩) s1.layout rfl hlc
  obtain ⟨h3, r3, s3⟩ := join_prev_step (X := ⟨b.size + total lc, false⟩) s2.layout rfl hla
  have e2 : h2.heap_start = h.heap_start := by rw [s2.same]; rfl
  simp only [setMem_heap_start] at r2
  rw [e2] at r3
  refine ⟨h3, ?_, ?_⟩
  · rw [bfree_unfold L hb]
    simp only [r1, r2, r3, bind, Except.bind, pure, Except.pure]
  · have s := (s1.trans s2).trans s3
    have tl : 0 ≤ total la := by
      rcases hla with ⟨rfl, _⟩ | ⟨A, rfl, _⟩
      · simp [total]
      · have L2 : Layout h (pre ++ A :: b :: (lc ++ post)) := by simpa using L
        have := (L2.at).2.1
        simp [total]; omega
    have tc : 0 ≤ total lc := by
      rcases hlc with ⟨rfl, _⟩ | ⟨C, rfl, _⟩
      · simp [total]
      · have L2 : Layout h ((pre ++ la) ++ b :: C :: post) := by simpa using L
        have := (L2.at2).1
        simp [total]; omega
    have h8 := (L.at).2.1
    rw [total_append] at s
    simp only [setMem_heap_start, e2] at s
    have e3 : total la + (b.size + total lc) = total la + b.size + total lc := by omega
    rw [e3] at s
    exact s.mono (by simp; omega) (by simp; omega)

/-! ## The traversal of `disp_heap` -/

theorem walk_from_seg {h : Heap} (R : Region h) :
    ∀ (bs : List Blk) (fuel : Nat) (a : Int) (p : Bool),
      Seg h.mem bs a p → h.heap_start ≤ a → a % 4 = 0 →
      a + total bs = h.heap_start + h.alloc_size →
      h.mem (h.heap_start + h.alloc_size) = 1 → bs.length < fuel →
      walk_from fuel h a = .ok (blocksAt bs a p) := by
  intro bs
  induction bs with
  | nil =>
    intro fuel a p _ ha a4 he hend hfuel
    cases fuel with
    | zero => simp at hfuel
    | succ f =>
      simp only [total, Int.add_zero] at he
      have hv : h.valid a := R.valid (by omega) (by omega) a4
      rw [← he] at hend
      simp [walk_from, load_ok hv, hend, blocksAt, bind, Except.bind, pure, Except.pure]
  | cons b rest ih =>
    intro fuel a p S ha a4 he hend hfuel
    cases fuel with
    | zero => simp at hfuel
    | succ f =>
      obtain ⟨h8, hm8, hh, _, S2⟩ := S
      have t0 := S2.total_nonneg
      simp only [total] at he
      have hsz := R.size_int
      have hT := R.top_bound
      have hv : h.valid a := R.valid (by omega) (by omega) a4
      have hlen : rest.length < f := by simpa using hfuel
      have IH := ih f (a + b.size) b.alloc S2 (by omega) (by omega) (by omega) hend hlen
      have e1 := hdr_alloc_bit b.size b.alloc p (by omega)
      have e2 : (if b.alloc then wrap32 (hdr b.size b.alloc p - 1) else hdr b.size b.alloc p) =
          hdr b.size false p := by
        cases hal : b.alloc <;> cases p <;> simp [hdr, wrap32] <;> omega
      have e3 := hdr_prev_bit b.size false p (by omega)
      have e4 : (if p then wrap32 (hdr b.size false p - 2) else hdr b.size false p) = b.size := by
        cases p <;> simp [hdr, wrap32] <;> omega
      have e5 : wrap64 (a + b.size) = a + b.size := wrap64_id _ (by omega) (by omega)
      have d1 : decide (band (hdr b.size b.alloc p) 1 ≠ 0) = b.alloc := by
        rw [e1]; cases b.alloc <;> simp
      have d2 : decide (band (hdr b.size false p) 2 ≠ 0) = p := by
        rw [e3]; cases p <;> simp
      rw [walk_from]
      simp only [load_ok hv, hh, bind, Except.bind, pure, Except.pure,
        if_neg (hdr_ne_one b.size b.alloc p h8), d1, e2, d2, e4, e5, IH, blocksAt]

/-- On a well-formed heap the traversal of `disp_heap` reports exactly the
blocks of the layout. -/
theorem walk_layout {h : Heap} {bs : List Blk} (L : Layout h bs) :
    walk h = .ok (blocksAt bs h.heap_start true) := by
  have hs4 := L.toRegion.start_mod
  exact walk_from_seg L.toRegion bs h.fuel h.heap_start true L.seg (le_refl _) (by omega)
    (by rw [L.tot]) L.endm L.fuel_ok

/-! ## The requested size -/

theorem cmod_neg8 (x : Int) (h : x < 0) : cmod x 8 = -((-x) % 8) := by
  unfold cmod
  cases x with
  | ofNat n => simp at h; omega
  | negSucc k =>
    show -((((k + 1) % 8 : Nat)) : Int) = _
    have : -(Int.negSucc k) = ((k + 1 : Nat) : Int) := by simp [Int.negSucc_eq]
    rw [this]
    simp

/-- The size `balloc` computes for a positive `int` request is a multiple of 8
that is either at least 8, or, when the computation overflows, at most
`-2147483632`. -/
theorem need_cases (size : Int) (h1 : 1 ≤ size) (h2 : size ≤ 2147483647) :
    need size % 8 = 0 ∧ -2147483648 ≤ need size ∧ need size < 2147483648 ∧
      ((size ≤ 2147483636 ∧ 8 ≤ need size) ∨
        (2147483636 < size ∧ need size ≤ -2147483632)) := by
  unfold need
  simp only []
  by_cases hw : size + 4 < 2147483648
  · rw [wrap32_id (size + 4) (by omega) hw, cmod_nonneg _ _ (by omega) (by omega)]
    split
    · unfold wrap32; omega
    · omega
  · have e : wrap32 (size + 4) = size + 4 - 4294967296 := by unfold wrap32; omega
    rw [e, cmod_neg8 _ (by omega)]
    split
    · unfold wrap32; omega
    · omega

/-! ## Overflow of the requested size -/

/-- With a negative size the split writes the header of the remainder below
the mapped region. -/
theorem balloc_split_fault {h : Heap} {pre post : List Blk} {b : Blk}
    (L : Layout h (pre ++ b :: post)) (n : Int) (n1 : n ≤ -2147483632)
    (n0 : -2147483648 ≤ n) (nm : n % 8 = 0) :
    balloc_split h n (h.heap_start + total pre) = .error .segv := by
  obtain ⟨Sp, h8, hm8, hh, hft, Sq, tp0, tq0, htot, tp8, tq8⟩ := L.at
  have R := L.toRegion
  have hsz := R.size_int
  have hs4 := R.start_mod
  have hT := R.top_bound
  have hv : h.valid (h.heap_start + total pre) := R.valid (by omega) (by omega) (by omega)
  have e0 := getBlkSize_hdr hv hh (by omega : b.size % 4 = 0) (by omega) (by omega)
  have hbad : ¬ h.valid (wrap64 (h.heap_start + total pre + 4 * (wrap64 n / 4))) := by
    obtain ⟨_, hb8, hs, hl, htop, _, _⟩ := R
    unfold Heap.valid wrap64
    omega
  unfold balloc_split
  simp only [e0, bind, Except.bind, store, if_neg hbad]

/-! ## Adjacent free blocks -/

theorem NoAdjFree_cons {b : Blk} {bs : List Blk} :
    NoAdjFree (b :: bs) ↔ (b.alloc = true ∨ headAlloc bs = true) ∧ NoAdjFree bs := by
  cases bs with
  | nil => simp [NoAdjFree, headAlloc]
  | cons c cs => simp [NoAdjFree, headAlloc]

theorem NoAdjFree_mid {xs ys : List Blk} {y : Blk} :
    NoAdjFree (xs ++ y :: ys) ↔
      NoAdjFree xs ∧ (lastAlloc true xs = true ∨ y.alloc = true) ∧
        (y.alloc = true ∨ headAlloc ys = true) ∧ NoAdjFree ys := by
  induction xs with
  | nil => simp [NoAdjFree_cons, NoAdjFree, lastAlloc]
  | cons x xs ih =>
    rw [List.cons_append, NoAdjFree_cons, NoAdjFree_cons, ih]
    cases xs with
    | nil => simp [headAlloc, lastAlloc, NoAdjFree]
    | cons x2 xs2 =>
      simp only [List.cons_append, headAlloc, lastAlloc]
      have : ∀ q : Bool, lastAlloc q (x2 :: xs2) = lastAlloc true (x2 :: xs2) := fun q => rfl
      tauto

theorem lastAlloc_false {xs : List Blk} (h : lastAlloc true xs = false) :
    ∃ ys A, xs = ys ++ [A] ∧ A.alloc = false := by
  induction xs using List.reverseRecOn with
  | nil => simp [lastAlloc] at h
  | append_singleton ys A _ =>
    refine ⟨ys, A, rfl, ?_⟩
    rw [lastAlloc_append] at h
    simpa [lastAlloc] using h

theorem lastAlloc_snoc (p : Bool) (ys : List Blk) (A : Blk) :
    lastAlloc p (ys ++ [A]) = A.alloc := by
  rw [lastAlloc_append]; rfl

/-- The first element with a property splits the list. -/
theorem first_split {P : Blk → Prop} :
    ∀ bs : List Blk, (∃ c ∈ bs, P c) →
      ∃ pre b post, bs = pre ++ b :: post ∧ P b ∧ ∀ c ∈ pre, ¬ P c := by
  intro bs
  induction bs with
  | nil => rintro ⟨c, hc, _⟩; cases hc
  | cons x xs ih =>
    rintro ⟨c, hc, hP⟩
    by_cases hx : P x
    · exact ⟨[], x, xs, rfl, hx, fun c hc => by cases hc⟩
    · rcases List.mem_cons.mp hc with rfl | hc
      · exact absurd hP hx
      · obtain ⟨pre, b, post, rfl, hb, hpre⟩ := ih ⟨c, hc, hP⟩
        refine ⟨x :: pre, b, post, rfl, hb, ?_⟩
        intro d hd
        rcases List.mem_cons.mp hd with rfl | hd
        · exact hx
        · exact hpre d hd

/-! ## Outcomes of `balloc` -/

/-- A non-positive request returns the null pointer at once. -/
theorem balloc_nonpos (h : Heap) (size : Int) (hs : size ≤ 0) : balloc h size = .ok (0, h) := by
  simp [balloc, hs]

/-- The first free block of exactly the needed size is allocated whole. -/
theorem balloc_exact_outcome {h : Heap} {pre post : List Blk} {b : Blk} {size : Int}
    (L : Layout h (pre ++ b :: post)) (hs : 1 ≤ size) (hb : b.alloc = false)
    (hn : b.size = need size) (hpre : ∀ c ∈ pre, c.alloc = false → c.size ≠ need size) :
    balloc h size =
      .ok (h.heap_start + total pre + 4,
        setMem h (exactMem h.mem (h.heap_start + total pre) (lastAlloc true pre) b.size post)) := by
  rw [balloc_unfold L hs, scanL_exact (need size) pre b post hb hn hpre]
  exact balloc_exact_run L hb

/-- Without an exact match and without a larger free block the null pointer is
returned and the heap is unchanged. -/
theorem balloc_none_outcome {h : Heap} {bs : List Blk} {size : Int}
    (L : Layout h bs) (hs : 1 ≤ size)
    (hno : ∀ c ∈ bs, c.alloc = false → c.size < need size) :
    balloc h size = .ok (0, h) := by
  have hT := L.toRegion.top_bound
  rw [balloc_unfold L hs]
  rcases scanL_best (need size) bs 0 0 h.heap_start (by omega) L.seg.size_nonneg
      (fun c hc hf => by have := hno c hc hf; omega) with
    ⟨hr, _⟩ | ⟨pre, b, post, hbs, hb, hlt, _, _, _, _⟩
  · rw [hr]; simp
  · have := hno b (by rw [hbs]; simp) hb
    omega

/-- Without an exact match the search ends at the first block of minimum size
among the larger free blocks. -/
theorem balloc_pick {h : Heap} {bs : List Blk} {size : Int}
    (L : Layout h bs) (hs : 1 ≤ size)
    (hne : ∀ c ∈ bs, c.alloc = false → c.size ≠ need size)
    (hex : ∃ c ∈ bs, c.alloc = false ∧ need size < c.size) :
    ∃ pre b post, bs = pre ++ b :: post ∧ b.alloc = false ∧ need size < b.size ∧
      (∀ c ∈ pre, c.alloc = false → need size < c.size → b.size < c.size) ∧
      (∀ c ∈ post, c.alloc = false → need size < c.size → b.size ≤ c.size) ∧
      balloc h size = balloc_split h (need size) (h.heap_start + total pre) := by
  have hT := L.toRegion.top_bound
  rcases scanL_best (need size) bs 0 0 h.heap_start (by omega) L.seg.size_nonneg hne with
    ⟨_, hall⟩ | ⟨pre, b, post, hbs, hb, hlt, _, hr, hp1, hp2⟩
  · obtain ⟨c, hc, hcf, hcl⟩ := hex
    exact absurd rfl (hall c hc hcf hcl).1
  · refine ⟨pre, b, post, hbs, hb, hlt, hp1, hp2, ?_⟩
    have L2 := L
    rw [hbs] at L2
    have tp0 := (L2.at).2.2.2.2.2.2.1
    rw [balloc_unfold L hs, hr]
    simp only []
    rw [if_neg (by omega)]

/-- Without an exact match the best-fit block is split. -/
theorem balloc_fit_outcome {h : Heap} {bs : List Blk} {size : Int}
    (L : Layout h bs) (hs : 1 ≤ size) (h8 : 8 ≤ need size) (hm : need size % 8 = 0)
    (hne : ∀ c ∈ bs, c.alloc = false → c.size ≠ need size)
    (hex : ∃ c ∈ bs, c.alloc = false ∧ need size < c.size) :
    ∃ pre b post, bs = pre ++ b :: post ∧ b.alloc = false ∧ need size < b.size ∧
      (∀ c ∈ pre, c.alloc = false → need size < c.size → b.size < c.size) ∧
      (∀ c ∈ post, c.alloc = false → need size < c.size → b.size ≤ c.size) ∧
      balloc h size =
        .ok (h.heap_start + total pre + 4,
          setMem h (splitMem h.mem (h.heap_start + total pre) (lastAlloc true pre) b.size
            (need size))) := by
  obtain ⟨pre, b, post, hbs, hb, hlt, hp1, hp2, hr⟩ := balloc_pick L hs hne hex
  refine ⟨pre, b, post, hbs, hb, hlt, hp1, hp2, ?_⟩
  rw [hr]
  exact balloc_split_run (hbs ▸ L) hb (need size) h8 hm hlt

/-- When the computation of the needed size overflows and some block is free,
`balloc` writes outside the mapped region. -/
theorem balloc_overflow_outcome {h : Heap} {bs : List Blk} {size : Int}
    (L : Layout h bs) (h1 : 2147483636 < size) (h2 : size ≤ 2147483647)
    (hex : ∃ c ∈ bs, c.alloc = false) : balloc h size = .error .segv := by
  obtain ⟨hm, hlo, _, hc⟩ := need_cases size (by omega) h2
  have hneg : need size ≤ -2147483632 := by
    rcases hc with ⟨h3, _⟩ | ⟨_, h3⟩
    · omega
    · exact h3
  have hsz := L.seg.size_nonneg
  obtain ⟨c0, hc0, hf0⟩ := hex
  have hc0s : need size < c0.size := by have := hsz c0 hc0; omega
  obtain ⟨pre, b, post, hbs, hb, hlt, hp1, hp2, hr⟩ := balloc_pick L (by omega)
    (fun c hc _ => by have := hsz c hc; omega) ⟨c0, hc0, hf0, hc0s⟩
  rw [hr]
  exact balloc_split_fault (hbs ▸ L) (need size) hneg hlo hm

/-- Every call of `balloc` that returns is a step of the allocator that keeps
adjacent free blocks apart, or returns the null pointer without changing the
heap. -/
theorem balloc_step {h h2 : Heap} {bs : List Blk} {size r : Int}
    (L : Layout h bs) (hlo : -2147483648 ≤ size) (hhi : size ≤ 2147483647)
    (hrun : balloc h size = .ok (r, h2)) :
    (r = 0 ∧ h2 = h) ∨
      (r ≠ 0 ∧ ∃ bs2 lo hi, Step h bs h2 bs2 lo hi ∧ (NoAdjFree bs → NoAdjFree bs2)) := by
  have hT := L.toRegion.top_bound
  by_cases hs : size ≤ 0
  · rw [balloc_nonpos h size hs] at hrun
    cases hrun; left; exact ⟨rfl, rfl⟩
  have hs1 : 1 ≤ size := by omega
  obtain ⟨hm, _, _, hc⟩ := need_cases size hs1 hhi
  by_cases hexact : ∃ c ∈ bs, c.alloc = false ∧ c.size = need size
  · obtain ⟨pre, b, post, hbs, ⟨hb, hn⟩, hpre⟩ := first_split bs hexact
    subst hbs
    rw [balloc_exact_outcome L hs1 hb hn (fun c hc hf he => hpre c hc ⟨hf, he⟩)] at hrun
    cases hrun
    right
    have tp0 := (L.at).2.2.2.2.2.2.1
    refine ⟨by omega, _, _, _, exact_step L hb, ?_⟩
    intro hna
    rw [NoAdjFree_mid] at hna ⊢
    exact ⟨hna.1, Or.inr rfl, Or.inl rfl, hna.2.2.2⟩
  · have hne : ∀ c ∈ bs, c.alloc = false → c.size ≠ need size :=
      fun c hc hf he => hexact ⟨c, hc, hf, he⟩
    by_cases hex : ∃ c ∈ bs, c.alloc = false ∧ need size < c.size
    · rcases hc with ⟨_, h8⟩ | ⟨hbig, _⟩
      · obtain ⟨pre, b, post, hbs, hb, hlt, _, _, hr⟩ := balloc_fit_outcome L hs1 h8 hm hne hex
        subst hbs
        rw [hr] at hrun
        cases hrun
        right
        have tp0 := (L.at).2.2.2.2.2.2.1
        refine ⟨by omega, _, _, _, split_step L hb (need size) h8 hm hlt, ?_⟩
        intro hna
        rw [NoAdjFree_mid] at hna
        have e : pre ++ ⟨need size, true⟩ :: ⟨b.size - need size, false⟩ :: post =
            (pre ++ [⟨need size, true⟩]) ++ ⟨b.size - need size, false⟩ :: post := by simp
        rw [e, NoAdjFree_mid, NoAdjFree_mid]
        refine ⟨⟨hna.1, Or.inr rfl, Or.inl rfl, trivial⟩, Or.inl ?_, ?_, hna.2.2.2⟩
        · rw [lastAlloc_snoc]
        · rcases hna.2.2.1 with h3 | h3
          · rw [hb] at h3; cases h3
          · exact Or.inr h3
      · obtain ⟨c, hc, hf, _⟩ := hex
        rw [balloc_overflow_outcome L hbig hhi ⟨c, hc, hf⟩] at hrun
        cases hrun
    · have hno : ∀ c ∈ bs, c.alloc = false → c.size < need size := by
        intro c hc hf
        by_contra hlt
        have := hne c hc hf
        exact hex ⟨c, hc, hf, by omega⟩
      rw [balloc_none_outcome L hs1 hno] at hrun
      cases hrun; left; exact ⟨rfl, rfl⟩

/-- For a request whose size computation does not overflow, `balloc` on a
well-formed heap returns: the null pointer and the unchanged heap if every free
block is smaller than the needed size, a non-null pointer otherwise. -/
theorem balloc_returns_in_range {h : Heap} {bs : List Blk} {size : Int}
    (L : Layout h bs) (h1 : 1 ≤ size) (h2 : size ≤ 2147483636) :
    ((∀ c ∈ bs, c.alloc = false → c.size < need size) → balloc h size = .ok (0, h)) ∧
      ((∃ c ∈ bs, c.alloc = false ∧ need size ≤ c.size) →
        ∃ r h2, balloc h size = .ok (r, h2) ∧ r ≠ 0) := by
  have hT := L.toRegion.top_bound
  obtain ⟨hm, _, _, hc⟩ := need_cases size h1 (by omega)
  have h8 : 8 ≤ need size := by
    rcases hc with ⟨_, h3⟩ | ⟨h3, _⟩
    · exact h3
    · omega
  refine ⟨balloc_none_outcome L h1, ?_⟩
  rintro ⟨c, hc, hf, hle⟩
  by_cases hexact : ∃ c ∈ bs, c.alloc = false ∧ c.size = need size
  · obtain ⟨pre, b, post, hbs, ⟨hb, hn⟩, hpre⟩ := first_split bs hexact
    subst hbs
    have tp0 := (L.at).2.2.2.2.2.2.1
    exact ⟨_, _, balloc_exact_outcome L h1 hb hn (fun c hc hf he => hpre c hc ⟨hf, he⟩),
      by omega⟩
  · have hne : ∀ c ∈ bs, c.alloc = false → c.size ≠ need size :=
      fun c hc hf he => hexact ⟨c, hc, hf, he⟩
    have hlt : need size < c.size := by
      have := hne c hc hf
      omega
    obtain ⟨pre, b, post, hbs, _, _, _, _, hr⟩ :=
      balloc_fit_outcome L h1 h8 hm hne ⟨c, hc, hf, hlt⟩
    subst hbs
    have tp0 := (L.at).2.2.2.2.2.2.1
    exact ⟨_, _, hr, by omega⟩

/-! ## Outcomes of `bfree` -/

theorem bfree_null (h : Heap) : bfree h 0 = .ok (-1, h) := by simp [bfree]

theorem bfree_misaligned (h : Heap) (ptr : Int) (hp : ptr % 8 ≠ 0) :
    bfree h ptr = .ok (-1, h) := by
  unfold bfree
  by_cases h0 : ptr = 0
  · rw [if_pos h0]
  · rw [if_neg h0, if_pos hp]

theorem bfree_out_of_range (h : Heap) (ptr : Int)
    (hr : wrap64 (ptr - 4) < h.heap_start ∨
      wrap64 (ptr - 4) ≥ wrap64 (h.heap_start + h.alloc_size)) :
    bfree h ptr = .ok (-1, h) := by
  unfold bfree
  by_cases h0 : ptr = 0
  · rw [if_pos h0]
  · rw [if_neg h0]
    by_cases h8 : ptr % 8 ≠ 0
    · rw [if_pos h8]
    · rw [if_neg h8]
      simp only []
      rw [if_pos hr]

theorem bfree_not_allocated (h : Heap) (ptr : Int) (hv : h.valid (wrap64 (ptr - 4)))
    (ha : band (h.mem (wrap64 (ptr - 4))) 1 = 0) : bfree h ptr = .ok (-1, h) := by
  unfold bfree
  by_cases h0 : ptr = 0
  · rw [if_pos h0]
  · rw [if_neg h0]
    by_cases h8 : ptr % 8 ≠ 0
    · rw [if_pos h8]
    · rw [if_neg h8]
      simp only []
      by_cases hr : wrap64 (ptr - 4) < h.heap_start ∨
          wrap64 (ptr - 4) ≥ wrap64 (h.heap_start + h.alloc_size)
      · rw [if_pos hr]
      · rw [if_neg hr]
        simp [isAlloc, load_ok hv, ha, bind, Except.bind, pure, Except.pure]

/-- An aligned address inside a segment is the header of one of its blocks, or
holds a word with bit 0 clear. -/
theorem locate {m : Int → Int} :
    ∀ (bs : List Blk) (a : Int) (p : Bool), Seg m bs a p → Quiet m bs a →
      ∀ y, a ≤ y → y < a + total bs → (y - a) % 8 = 0 →
        (∃ pre b post, bs = pre ++ b :: post ∧ y = a + total pre) ∨ m y % 2 = 0 := by
  intro bs
  induction bs with
  | nil => intro a p _ _ y h1 h2 _; simp [total] at h2; omega
  | cons b rest ih =>
    intro a p S Q y h1 h2 h8
    obtain ⟨b8, bm8, _, _, S2⟩ := S
    obtain ⟨q1, Q2⟩ := Q
    simp only [total] at h2
    by_cases hy : y = a
    · left; exact ⟨[], b, rest, rfl, by simp [total, hy]⟩
    · by_cases hlt : y < a + b.size
      · right
        have := q1 (y - a) (by omega) (by omega) h8
        rw [show a + (y - a) = y by omega] at this
        exact this
      · rcases ih (a + b.size) b.alloc S2 Q2 y (by omega) (by omega) (by omega) with
          ⟨pre, c, post, hbs, hyy⟩ | hev
        · left
          refine ⟨b :: pre, c, post, by rw [hbs]; rfl, ?_⟩
          simp [total]; omega
        · right; exact hev

/-- On the payload pointer of any allocated block `bfree` returns 0 and is a
step of the allocator; afterwards no two adjacent blocks are free if that held
before. -/
theorem bfree_live {h : Heap} {pre0 post0 : List Blk} {b : Blk}
    (L : Layout h (pre0 ++ b :: post0)) (hb : b.alloc = true) :
    ∃ h2 bs2 lo hi, bfree h (h.heap_start + total pre0 + 4) = .ok (0, h2) ∧
      Step h (pre0 ++ b :: post0) h2 bs2 lo hi ∧
      (NoAdjFree (pre0 ++ b :: post0) → NoAdjFree bs2) := by
  -- the free predecessor, if any
  have hla : ∃ pre la, pre0 = pre ++ la ∧
      ((la = [] ∧ lastAlloc true pre = true) ∨ ∃ A, la = [A] ∧ A.alloc = false) := by
    cases hl : lastAlloc true pre0 with
    | true => exact ⟨pre0, [], by simp, Or.inl ⟨rfl, hl⟩⟩
    | false =>
      obtain ⟨ys, A, hys, hA⟩ := lastAlloc_false hl
      exact ⟨ys, [A], hys, Or.inr ⟨A, rfl, hA⟩⟩
  -- the free successor, if any
  have hlc : ∃ lc post, post0 = lc ++ post ∧
      ((lc = [] ∧ headAlloc post = true) ∨ ∃ C, lc = [C] ∧ C.alloc = false) := by
    cases post0 with
    | nil => exact ⟨[], [], rfl, Or.inl ⟨rfl, rfl⟩⟩
    | cons c cs =>
      cases hc : c.alloc with
      | true => exact ⟨[], c :: cs, rfl, Or.inl ⟨rfl, hc⟩⟩
      | false => exact ⟨[c], cs, rfl, Or.inr ⟨c, rfl, hc⟩⟩
  obtain ⟨pre, la, rfl, hla⟩ := hla
  obtain ⟨lc, post, rfl, hlc⟩ := hlc
  obtain ⟨h2, hr, st⟩ := bfree_run L hb hla hlc
  refine ⟨h2, _, _, _, hr, st, ?_⟩
  intro hna
  rw [NoAdjFree_mid] at hna ⊢
  obtain ⟨n1, _, _, n4⟩ := hna
  refine ⟨?_, ?_, ?_, ?_⟩
  · rcases hla with ⟨rfl, _⟩ | ⟨A, rfl, _⟩
    · simpa using n1
    · have : NoAdjFree (pre ++ A :: []) := n1
      rw [NoAdjFree_mid] at this; exact this.1
  · rcases hla with ⟨rfl, hp⟩ | ⟨A, rfl, hA⟩
    · exact Or.inl hp
    · have : NoAdjFree (pre ++ A :: []) := n1
      rw [NoAdjFree_mid] at this
      rcases this.2.1 with h3 | h3
      · exact Or.inl h3
      · rw [hA] at h3; cases h3
  · rcases hlc with ⟨rfl, hp⟩ | ⟨C, rfl, hC⟩
    · exact Or.inr hp
    · have : NoAdjFree ([] ++ C :: post) := n4
      rw [NoAdjFree_mid] at this
      rcases this.2.2.1 with h3 | h3
      · rw [hC] at h3; cases h3
      · exact Or.inr h3
  · rcases hlc with ⟨rfl, _⟩ | ⟨C, rfl, _⟩
    · simpa using n4
    · have : NoAdjFree ([] ++ C :: post) := n4
      rw [NoAdjFree_mid] at this; exact this.2.2.2

/-- On a well-formed heap without bit 0 set inside a block, `bfree` returns -1
on exactly the documented pointers and is otherwise a step that returns 0. -/
theorem bfree_total {h : Heap} {bs : List Blk} (L : Layout h bs)
    (Q : Quiet h.mem bs h.heap_start) (ptr : Int)
    (hp0 : 0 ≤ ptr) (hp1 : ptr < 18446744073709551616) :
    (Rejected h ptr ∧ bfree h ptr = .ok (-1, h)) ∨
      (¬ Rejected h ptr ∧ ∃ h2 bs2 lo hi, bfree h ptr = .ok (0, h2) ∧
        Step h bs h2 bs2 lo hi ∧ (NoAdjFree bs → NoAdjFree bs2)) := by
  have R := L.toRegion
  have hT := R.top_bound
  have hs4 := R.start_mod
  have hsz := R.size_int
  by_cases h0 : ptr = 0
  · left; exact ⟨Or.inl h0, by rw [h0]; exact bfree_null h⟩
  by_cases h8 : ptr % 8 ≠ 0
  · left; exact ⟨Or.inr (Or.inl h8), bfree_misaligned h ptr h8⟩
  have e1 : wrap64 (ptr - 4) = ptr - 4 := wrap64_id _ (by omega) (by omega)
  have e2 : wrap64 (h.heap_start + h.alloc_size) = h.heap_start + h.alloc_size :=
    wrap64_id _ (by have := R.size_nn; omega) (by omega)
  by_cases hr : ptr - 4 < h.heap_start ∨ h.heap_start + h.alloc_size ≤ ptr - 4
  · left
    refine ⟨?_, bfree_out_of_range h ptr (by rw [e1, e2]; exact hr)⟩
    rcases hr with hr | hr
    · exact Or.inr (Or.inr (Or.inl hr))
    · exact Or.inr (Or.inr (Or.inr (Or.inl hr)))
  have hv : h.valid (ptr - 4) := R.valid (by omega) (by omega) (by omega)
  by_cases ha : band (h.mem (ptr - 4)) 1 = 0
  · left
    exact ⟨Or.inr (Or.inr (Or.inr (Or.inr ha))),
      bfree_not_allocated h ptr (by rw [e1]; exact hv) (by rw [e1]; exact ha)⟩
  right
  refine ⟨fun hrej => ?_, ?_⟩
  · rcases hrej with h1 | h1 | h1 | h1 | h1
    · exact h0 h1
    · exact h8 h1
    · exact hr (Or.inl h1)
    · exact hr (Or.inr h1)
    · exact ha h1
  rw [band_one] at ha
  rcases locate bs h.heap_start true L.seg Q (ptr - 4) (by omega)
      (by rw [L.tot]; omega) (by omega) with ⟨pre, b, post, hbs, hy⟩ | hev
  · subst hbs
    have hh := (L.at).2.2.2.1
    rw [← hy] at hh
    have hm8 := (L.at).2.2.1
    have hal : b.alloc = true := by
      cases hb : b.alloc with
      | true => rfl
      | false =>
        rw [hh, hdr_odd _ _ _ (by omega), hb] at ha
        simp at ha
    obtain ⟨h2, bs2, lo, hi, hrun, st, hna⟩ := bfree_live L hal
    rw [show h.heap_start + total pre + 4 = ptr by omega] at hrun
    exact ⟨h2, bs2, lo, hi, hrun, st, hna⟩
  · exact absurd hev ha

/-! ## Initialization -/

/-- Under the operating-system contract a successful `mmap` means the padded
size did not overflow: it is the least multiple of the page size that is at
least `sizeOfRegion`, a multiple of 8 and at least 16. -/
theorem region_size_spec {os : OS} {n p : Int} (C : OSContract os n) (n1 : 1 ≤ n)
    (n2 : n ≤ 2147483647) (hp : os.mmap_ptr = some p) :
    16 ≤ region_size os.pagesize n ∧ region_size os.pagesize n % 8 = 0 ∧
      region_size os.pagesize n < 2147483648 ∧ 0 < p ∧ p % 8 = 0 ∧
      p + region_size os.pagesize n ≤ 9223372036854775808 ∧
      region_size os.pagesize n % os.pagesize = 0 ∧ n ≤ region_size os.pagesize n ∧
      region_size os.pagesize n < n + os.pagesize := by
  obtain ⟨ps16, ps8, psi, hm⟩ := C
  obtain ⟨p0, pal, ptop⟩ := hm p hp
  generalize hps : os.pagesize = ps at *
  have r0 : 0 ≤ n % ps := Int.emod_nonneg _ (by omega)
  have r1 : n % ps < ps := Int.emod_lt_of_pos _ (by omega)
  have d0 : 0 ≤ (ps - n % ps) % ps := Int.emod_nonneg _ (by omega)
  have d1 : (ps - n % ps) % ps < ps := Int.emod_lt_of_pos _ (by omega)
  have hdiv : ps ∣ n + (ps - n % ps) % ps := by
    apply Int.dvd_of_emod_eq_zero
    rw [Int.add_emod, Int.emod_emod, ← Int.add_emod]
    have e : n + (ps - n % ps) = ps * (n / ps + 1) := by
      have := Int.emod_add_ediv n ps
      linarith
    rw [e, Int.mul_emod_right]
  have d2 : (ps - n % ps) % ps ≤ ps - n % ps := by
    by_cases hz : n % ps = 0
    · rw [hz]; simp; omega
    · rw [Int.emod_eq_of_lt (by omega) (by omega)]
  have e8 : (8 : Int) ∣ ps := Int.dvd_of_emod_eq_zero ps8
  have hrs : region_size ps n = wrap32 (n + (ps - n % ps) % ps) := by
    unfold region_size
    simp only []
    rw [cmod_nonneg n ps (by omega) (by omega), wrap32_id (ps - n % ps) (by omega) (by omega),
      cmod_nonneg _ ps (by omega) (by omega)]
  have hsmall : n + (ps - n % ps) % ps < 2147483648 := by
    by_contra hbig
    have : wrap32 (n + (ps - n % ps) % ps) = n + (ps - n % ps) % ps - 4294967296 := by
      unfold wrap32; omega
    rw [hrs, this] at ptop
    unfold wrap64 at ptop
    omega
  rw [wrap32_id _ (by omega) hsmall] at hrs
  rw [hrs] at ptop ⊢
  rw [wrap64_id _ (by omega) (by omega)] at ptop
  have hge : ps ≤ n + (ps - n % ps) % ps := Int.le_of_dvd (by omega) hdiv
  refine ⟨by omega, Int.emod_eq_zero_of_dvd (Dvd.dvd.trans e8 hdiv), hsmall, p0,
    Int.emod_eq_zero_of_dvd (Dvd.dvd.trans e8 (Int.dvd_of_emod_eq_zero pal)), ptop,
    Int.emod_eq_zero_of_dvd hdiv, by omega, by omega⟩

/-- The heap a successful `init_heap` leaves behind. -/
theorem init_heap_result {pre h : Heap} {os : OS} {n : Int} (C : OSContract os n)
    (n2 : n ≤ 2147483647) (hrun : init_heap pre os n = .ok (0, h)) :
    ∃ p, os.mmap_ptr = some p ∧ 1 ≤ n ∧ pre.allocated_once = 0 ∧
      h = { heap_start := p + 4, alloc_size := region_size os.pagesize n - 8,
            allocated_once := 1, map_base := p, map_len := region_size os.pagesize n,
            mem := upd (upd (upd (upd (fun _ => 0) (p + 4 + (region_size os.pagesize n - 8)) 1)
              (p + 4) (region_size os.pagesize n - 8)) (p + 4)
              (region_size os.pagesize n - 8 + 2))
              (p + 4 + (region_size os.pagesize n - 8) - 4) (region_size os.pagesize n - 8) } := by
  unfold init_heap at hrun
  by_cases h1 : pre.allocated_once ≠ 0
  · rw [if_pos h1] at hrun; cases hrun
  rw [if_neg h1] at hrun
  by_cases h2 : n ≤ 0
  · rw [if_pos h2] at hrun; cases hrun
  rw [if_neg h2] at hrun
  simp only [] at hrun
  by_cases h3 : os.open_ok = false
  · rw [if_pos h3] at hrun; cases hrun
  rw [if_neg h3] at hrun
  cases hp : os.mmap_ptr with
  | none => rw [hp] at hrun; cases hrun
  | some p =>
    rw [hp] at hrun
    obtain ⟨r16, r8, ri, p0, p8, ptop, _, _, _⟩ := region_size_spec C (by omega) n2 hp
    generalize region_size os.pagesize n = RS at *
    have e1 : wrap64 RS = RS := wrap64_id _ (by omega) (by omega)
    have e2 : wrap32 (RS - 8) = RS - 8 := wrap32_id _ (by omega) (by omega)
    have e3 : wrap64 (p + 4) = p + 4 := wrap64_id _ (by omega) (by omega)
    have e4 : wrap64 (p + 4 + (RS - 8)) = p + 4 + (RS - 8) := wrap64_id _ (by omega) (by omega)
    have e5 : wrap64 (p + 4 + (RS - 8) - 4) = p + 4 + (RS - 8) - 4 :=
      wrap64_id _ (by omega) (by omega)
    have e6 : wrap32 (RS - 8 + 2) = RS - 8 + 2 := wrap32_id _ (by omega) (by omega)
    have v1 : (p ≤ p + 4 + (RS - 8) ∧ p + 4 + (RS - 8) + 4 ≤ p + RS ∧
        (p + 4 + (RS - 8)) % 4 = 0) := by omega
    have v2 : (p ≤ p + 4 ∧ p + 4 + 4 ≤ p + RS ∧ (p + 4) % 4 = 0) := by omega
    have v3 : (p ≤ p + 4 + (RS - 8) - 4 ∧ p + 4 + (RS - 8) - 4 + 4 ≤ p + RS ∧
        (p + 4 + (RS - 8) - 4) % 4 = 0) := by omega
    simp only [e1, e2, e3, e4, e5, store, load, Heap.valid, v1, v2, v3, and_self, if_true,
      bind, Except.bind, pure, Except.pure, upd_same, e6] at hrun
    refine ⟨p, rfl, by omega, by omega, ?_⟩
    cases hrun
    rfl

/-- A successful `init_heap` establishes the invariant with a single free
block. -/
theorem Initial.inv {h : Heap} (hi : Initial h) : Inv h [⟨h.alloc_size, false⟩] := by
  obtain ⟨pre, os, n, n2, C, hrun⟩ := hi
  obtain ⟨p, hp, n1, _, rfl⟩ := init_heap_result C n2 hrun
  obtain ⟨r16, r8, ri, p0, p8, ptop, _, _, _⟩ := region_size_spec C n1 n2 hp
  generalize region_size os.pagesize n = RS at *
  refine ⟨⟨⟨p0, p8, rfl, by simp, ptop, ri, by simp; omega⟩, by simp, ?_, by simp [total], ?_⟩,
    trivial, ?_⟩
  · refine ⟨by simp; omega, by simp; omega, ?_, ?_, trivial⟩
    · simp only []
      rw [upd_ne (by omega)]
      simp [hdr]
    · intro _
      simp
  · simp only []
    rw [upd_ne (by omega), upd_ne (by omega), upd_ne (by omega)]
    simp
  · refine ⟨?_, trivial⟩
    intro k k0 k1 k8
    simp only [] at k1 ⊢
    rw [upd_ne (by omega), upd_ne (by omega), upd_ne (by omega), upd_ne (by omega)]
    rfl

/-! ## The invariant in reachable states -/

theorem Step.inv_step {h h2 : Heap} {bs bs2 : List Blk} {lo hi : Int} (s : Step h bs h2 bs2 lo hi)
    (I : Inv h bs) (hn : NoAdjFree bs2) : Inv h2 bs2 :=
  ⟨s.layout, hn, s.quiet I.quiet⟩

theorem Step.globals {h h2 : Heap} {bs bs2 : List Blk} {lo hi : Int}
    (s : Step h bs h2 bs2 lo hi) :
    h2.heap_start = h.heap_start ∧ h2.alloc_size = h.alloc_size := by
  rw [s.same]; exact ⟨rfl, rfl⟩

/-- Every state reached from a successful `init_heap` satisfies the invariant,
with `heap_start` and `alloc_size` as set at initialization. -/
theorem Reach.inv_reach {h0 h : Heap} (hi : Initial h0) (hr : Reach h0 h) :
    ∃ bs, Inv h bs ∧ h.heap_start = h0.heap_start ∧ h.alloc_size = h0.alloc_size := by
  induction hr with
  | init => exact ⟨_, hi.inv, rfl, rfl⟩
  | alloc_step size r _ hlo hhi hrun ih =>
    obtain ⟨bs, I, e1, e2⟩ := ih
    rcases balloc_step I.layout hlo hhi hrun with ⟨_, rfl⟩ | ⟨_, bs2, lo, hi2, st, hna⟩
    · exact ⟨bs, I, e1, e2⟩
    · exact ⟨bs2, st.inv_step I (hna I.noadj), by rw [st.globals.1, e1], by rw [st.globals.2, e2]⟩
  | free_step ptr r _ hp0 hp1 hrun ih =>
    obtain ⟨bs, I, e1, e2⟩ := ih
    rcases bfree_total I.layout I.quiet ptr hp0 hp1 with
      ⟨_, hrej⟩ | ⟨_, h3, bs2, lo, hi2, hok, st, hna⟩
    · rw [hrej] at hrun; cases hrun
      exact ⟨bs, I, e1, e2⟩
    · rw [hok] at hrun; cases hrun
      exact ⟨bs2, st.inv_step I (hna I.noadj), by rw [st.globals.1, e1],
        by rw [st.globals.2, e2]⟩

/-! ## Blocks reported by the traversal -/

theorem blocksAt_append (xs ys : List Blk) (a : Int) (p : Bool) :
    blocksAt (xs ++ ys) a p =
      blocksAt xs a p ++ blocksAt ys (a + total xs) (lastAlloc p xs) := by
  induction xs generalizing a p with
  | nil => simp [blocksAt, total, lastAlloc]
  | cons b bs ih =>
    have e : a + total (b :: bs) = a + b.size + total bs := by simp [total]; omega
    rw [e]
    show _ :: blocksAt (bs ++ ys) (a + b.size) b.alloc = _ :: (_ ++ _)
    rw [ih]
    rfl

/-- A reported block comes from a block of the layout at that position. -/
theorem mem_blocksAt {bs : List Blk} {a : Int} {p : Bool} {B : Block}
    (hB : B ∈ blocksAt bs a p) :
    ∃ pre c post, bs = pre ++ c :: post ∧
      B = ⟨a + total pre, c.size, c.alloc, lastAlloc p pre⟩ := by
  induction bs generalizing a p with
  | nil => simp [blocksAt] at hB
  | cons b bs ih =>
    simp only [blocksAt, List.mem_cons] at hB
    rcases hB with rfl | hB
    · exact ⟨[], b, bs, rfl, by simp [total, lastAlloc]⟩
    · obtain ⟨pre, c, post, rfl, rfl⟩ := ih hB
      refine ⟨b :: pre, c, post, rfl, ?_⟩
      simp [total, lastAlloc, Int.add_assoc]

/-- A block of the layout is reported at its position. -/
theorem blocksAt_mem (pre : List Blk) (c : Blk) (post : List Blk) (a : Int) (p : Bool) :
    (⟨a + total pre, c.size, c.alloc, lastAlloc p pre⟩ : Block) ∈
      blocksAt (pre ++ c :: post) a p := by
  rw [blocksAt_append]
  simp [blocksAt]

theorem total_pre_le {m : Int → Int} (xs ys : List Blk) {a : Int} {p : Bool}
    (S : Seg m (xs ++ ys) a p) : 0 ≤ total xs ∧ 0 ≤ total ys := by
  rw [Seg_append] at S
  exact ⟨S.1.total_nonneg, S.2.total_nonneg⟩

/-- Two positions of a layout: the earlier one has the lower address. -/
theorem split_compare {m : Int → Int} {a : Int} {p : Bool}
    {pre post pre2 post2 : List Blk} {b c : Blk}
    (S : Seg m (pre ++ b :: post) a p) (he : pre ++ b :: post = pre2 ++ c :: post2) :
    (pre = pre2 ∧ b = c ∧ post = post2) ∨ (c ∈ pre ∧ total pre2 < total pre) ∨
      (c ∈ post ∧ total pre < total pre2) := by
  rcases List.append_eq_append_iff.mp he with ⟨as, h1, h2⟩ | ⟨cs, h1, h2⟩
  · -- pre2 = pre ++ as
    cases as with
    | nil =>
      simp at h1 h2
      left; exact ⟨h1.symm, h2.1, h2.2⟩
    | cons x xs =>
      simp at h2
      right; right
      obtain ⟨rfl, rfl⟩ := h2
      have S2 := S
      rw [Seg_append] at S2
      have hb8 := S2.2.1
      have := (total_pre_le xs (c :: post2) S2.2.2.2.2.2).1
      refine ⟨by simp, ?_⟩
      rw [h1, total_append]; simp [total]; omega
  · -- pre = pre2 ++ cs
    cases cs with
    | nil =>
      simp at h1 h2
      left; exact ⟨h1, h2.1.symm, h2.2.symm⟩
    | cons x xs =>
      simp at h2
      right; left
      obtain ⟨rfl, rfl⟩ := h2
      have S2 := S
      rw [h1, List.append_assoc, Seg_append] at S2
      have hc8 := S2.2.1
      have S3 := S2.2.2.2.2.2
      have := (total_pre_le xs (b :: post) S3).1
      refine ⟨by rw [h1]; simp, ?_⟩
      rw [h1, total_append]; simp [total]; omega

/-! ## Example states are well formed -/

theorem heapInit_run : init_heap preInit demoOS 4096 = .ok (0, heapInit) := rfl

theorem heapInit_initial : Initial heapInit :=
  ⟨preInit, demoOS, 4096, by decide,
    ⟨by decide, by decide, by decide, fun p hp => by cases hp; decide⟩, heapInit_run⟩

/-- The example state `heapUsed` is reached from `heapInit`. -/
theorem heapUsed_reach : Reach heapInit heapUsed := by
  have r1 : Reach heapInit
      (match balloc heapInit 16 with
        | .error _ => heapInit
        | .ok (_, h1) => h1) :=
    Reach.alloc_step 16 139637976727560 Reach.init (by decide) (by decide) rfl
  have r2 : Reach heapInit
      (match balloc heapInit 16 with
        | .error _ => heapInit
        | .ok (_, h1) =>
          match balloc h1 100 with
          | .error _ => heapInit
          | .ok (_, h2) => h2) :=
    Reach.alloc_step 100 139637976727584 r1 (by decide) (by decide) rfl
  exact Reach.free_step 139637976727560 0 r2 (by decide) (by decide) rfl

theorem heapFit_layout : Layout heapFit blksFit := by
  refine ⟨⟨by decide, by decide, by decide, by decide, by decide, by decide, by decide⟩,
    by decide, ?_, by decide, by decide⟩
  simp [blksFit, Seg, heapFit, hdr]

theorem heapABC_layout : Layout heapABC blksABC := by
  refine ⟨⟨by decide, by decide, by decide, by decide, by decide, by decide, by decide⟩,
    by decide, ?_, by decide, by decide⟩
  simp [blksABC, Seg, heapABC, hdr]

theorem heapPayload_layout : Layout heapPayload [⟨24, true⟩, ⟨4064, false⟩] := by
  refine ⟨⟨by decide, by decide, by decide, by decide, by decide, by decide, by decide⟩,
    by decide, ?_, by decide, by decide⟩
  simp [Seg, heapPayload, hdr]

/-! ## From reported blocks to the layout -/

/-- A block of the layout is among the reported blocks. -/
theorem report_of_mem {bs : List Blk} {c : Blk} (hc : c ∈ bs) (a : Int) (p : Bool) :
    ∃ B ∈ blocksAt bs a p, B.size = c.size ∧ B.alloc = c.alloc := by
  obtain ⟨pre, post, rfl⟩ := List.append_of_mem hc
  exact ⟨_, blocksAt_mem pre c post a p, rfl, rfl⟩

/-- A reported block is a block of the layout. -/
theorem mem_of_report {bs : List Blk} {a : Int} {p : Bool} {B : Block}
    (hB : B ∈ blocksAt bs a p) : ∃ c ∈ bs, B.size = c.size ∧ B.alloc = c.alloc := by
  obtain ⟨pre, c, post, rfl, rfl⟩ := mem_blocksAt hB
  exact ⟨c, by simp, rfl, rfl⟩

theorem walk_inj {h : Heap} {bs : List Blk} {blocks : List Block} (L : Layout h bs)
    (hw : walk h = .ok blocks) : blocks = blocksAt bs h.heap_start true := by
  rw [walk_layout L] at hw
  cases hw; rfl

theorem Layout.size_lt {h : Heap} {bs : List Blk} (L : Layout h bs) {c : Blk} (hc : c ∈ bs) :
    8 ≤ c.size ∧ c.size + 8 < 2147483648 := by
  obtain ⟨pre, post, rfl⟩ := List.append_of_mem hc
  obtain ⟨_, h8, _, _, _, _, tp0, tq0, htot, _, _⟩ := L.at
  have := L.toRegion.size_int
  omega

theorem blocksAt_tiles {m : Int → Int} (bs : List Blk) (a : Int) (p : Bool) (S : Seg m bs a p) :
    Tiles (blocksAt bs a p) a (a + total bs) := by
  induction bs generalizing a p with
  | nil => simp [blocksAt, Tiles, total]
  | cons b bs ih =>
    obtain ⟨h8, hm8, _, _, S2⟩ := S
    have := ih _ _ S2
    rw [show a + total (b :: bs) = a + b.size + total bs by simp [total]; omega]
    exact ⟨rfl, h8, hm8, this⟩

theorem blocksAt_sizes (bs : List Blk) (a : Int) (p : Bool) :
    ((blocksAt bs a p).map Block.size).sum = total bs := by
  induction bs generalizing a p with
  | nil => simp [blocksAt, total]
  | cons b bs ih => simp [blocksAt, total, ih]

/-- A call of `bfree` that returns -1 returns the heap it was given. -/
theorem bfree_fail_same {h h2 : Heap} {ptr : Int} (hrun : bfree h ptr = .ok (-1, h2)) :
    h2 = h := by
  unfold bfree at hrun
  by_cases h0 : ptr = 0
  · rw [if_pos h0] at hrun; cases hrun; rfl
  rw [if_neg h0] at hrun
  by_cases h8 : ptr % 8 ≠ 0
  · rw [if_pos h8] at hrun; cases hrun; rfl
  rw [if_neg h8] at hrun
  simp only [] at hrun
  by_cases hr : wrap64 (ptr - 4) < h.heap_start ∨
      wrap64 (ptr - 4) ≥ wrap64 (h.heap_start + h.alloc_size)
  · rw [if_pos hr] at hrun; cases hrun; rfl
  rw [if_neg hr] at hrun
  simp only [bind, Except.bind, pure, Except.pure] at hrun
  cases ha : isAlloc h (wrap64 (ptr - 4)) with
  | error e => rw [ha] at hrun; cases hrun
  | ok a =>
    rw [ha] at hrun
    simp only [] at hrun
    by_cases ha0 : a = 0
    · rw [if_pos ha0] at hrun; cases hrun; rfl
    · rw [if_neg ha0] at hrun
      cases hn : getNextBlk h (wrap64 (ptr - 4)) with
      | error e => rw [hn] at hrun; cases hrun
      | ok n =>
        rw [hn] at hrun
        simp only [] at hrun
        cases h1 : bfree_release h (wrap64 (ptr - 4)) n with
        | error e => rw [h1] at hrun; cases hrun
        | ok s1 =>
          rw [h1] at hrun
          simp only [] at hrun
          cases h2e : bfree_join_next s1 (wrap64 (ptr - 4)) n with
          | error e => rw [h2e] at hrun; cases hrun
          | ok s2 =>
            rw [h2e] at hrun
            simp only [] at hrun
            cases h3 : bfree_join_prev s2 (wrap64 (ptr - 4)) with
            | error e => rw [h3] at hrun; cases hrun
            | ok s3 =>
              rw [h3] at hrun
              simp only [] at hrun
              cases hrun

/-! ## Claims -/

/-- C1. Best-fit selection: on a well-formed heap, for a request of `size ≥ 1`
bytes with `n = size + 4` rounded up to a multiple of 8, if no free block on the
walk has size exactly `n` and some free block is larger than `n`, then `balloc`
returns the payload pointer of a free block `B` of the walk that has minimum
size among the free blocks larger than `n` and the lowest address among those
of that size, and `B` becomes an allocated block of size `n`. -/
theorem balloc_best_fit (h : Heap) (size : Int) (blocks : List Block)
    (W : WellFormed h) (hw : walk h = .ok blocks) (h1 : 1 ≤ size) (h2 : size ≤ 2147483647)
    (hne : ∀ C ∈ blocks, C.alloc = false → C.size ≠ roundup8 (size + 4))
    (hex : ∃ C ∈ blocks, C.alloc = false ∧ roundup8 (size + 4) < C.size) :
    ∃ B ∈ blocks, ∃ h2, B.alloc = false ∧ roundup8 (size + 4) < B.size ∧
      (∀ C ∈ blocks, C.alloc = false → roundup8 (size + 4) < C.size →
        B.size ≤ C.size ∧ (C.size = B.size → B.addr ≤ C.addr)) ∧
      balloc h size = .ok (B.addr + 4, h2) ∧
      h2.mem B.addr = hdr (roundup8 (size + 4)) true B.palloc := by
  obtain ⟨bs, L⟩ := W
  have hblocks := walk_inj L hw
  subst hblocks
  have hr := roundup8_spec (size + 4)
  -- the request does not overflow, since some block is larger
  have hsmall : size ≤ 2147483636 := by
    obtain ⟨C, hC, _, hlt⟩ := hex
    obtain ⟨c, hc, e1, _⟩ := mem_of_report hC
    have := (L.size_lt hc).2
    omega
  have hn := need_eq size h1 hsmall
  have hne2 : ∀ c ∈ bs, c.alloc = false → c.size ≠ need size := by
    intro c hc hf he
    obtain ⟨B, hB, e1, e2⟩ := report_of_mem hc h.heap_start true
    exact hne B hB (by rw [e2, hf]) (by rw [e1, he, hn])
  have hex2 : ∃ c ∈ bs, c.alloc = false ∧ need size < c.size := by
    obtain ⟨C, hC, hf, hlt⟩ := hex
    obtain ⟨c, hc, e1, e2⟩ := mem_of_report hC
    exact ⟨c, hc, by rw [← e2, hf], by rw [hn, ← e1]; exact hlt⟩
  obtain ⟨pre, b, post, hbs, hb, hlt, hp1, hp2, hrun⟩ :=
    balloc_fit_outcome L h1 (by omega) (by omega) hne2 hex2
  subst hbs
  rw [hn] at hlt hp1 hp2 hrun
  refine ⟨⟨h.heap_start + total pre, b.size, b.alloc, lastAlloc true pre⟩,
    blocksAt_mem pre b post _ _, _, hb, hlt, ?_, hrun, splitMem_x⟩
  intro C hC hCf hCl
  obtain ⟨pre2, c, post2, he, rfl⟩ := mem_blocksAt hC
  rcases split_compare L.seg he with ⟨e1, e2, _⟩ | ⟨hc, ht⟩ | ⟨hc, ht⟩
  · subst e1; subst e2
    exact ⟨le_refl _, fun _ => le_refl _⟩
  · have := hp1 c hc hCf hCl
    exact ⟨by show b.size ≤ c.size; omega, fun he2 => by
      have he3 : c.size = b.size := he2
      omega⟩
  · have := hp2 c hc hCf hCl
    exact ⟨this, fun _ => by show h.heap_start + total pre ≤ h.heap_start + total pre2; omega⟩

theorem balloc_best_fit_witness :
    ∃ B ∈ [(⟨139637976727556, 64, false, true⟩ : Block), ⟨139637976727620, 16, true, false⟩,
        ⟨139637976727636, 40, false, true⟩, ⟨139637976727676, 8, true, false⟩],
      ∃ h2, B.alloc = false ∧ roundup8 (28 + 4) < B.size ∧
        (∀ C ∈ [(⟨139637976727556, 64, false, true⟩ : Block),
            ⟨139637976727620, 16, true, false⟩, ⟨139637976727636, 40, false, true⟩,
            ⟨139637976727676, 8, true, false⟩],
          C.alloc = false → roundup8 (28 + 4) < C.size →
            B.size ≤ C.size ∧ (C.size = B.size → B.addr ≤ C.addr)) ∧
        balloc heapFit 28 = .ok (B.addr + 4, h2) ∧
        h2.mem B.addr = hdr (roundup8 (28 + 4)) true B.palloc :=
  balloc_best_fit heapFit 28 _ ⟨blksFit, heapFit_layout⟩ rfl (by decide) (by decide)
    (by decide) (by decide)

/-- C2. Exact-match short-circuit: on a well-formed heap whose block list is
`pre ++ b :: post`, where `b` is the first free block whose size is exactly
`size + 4` rounded up to a multiple of 8 (larger free blocks may precede it),
`balloc` returns the payload pointer of `b`, header address plus 4; afterwards
the block list is the same except that `b` is allocated: its size is unchanged,
its header word grew by the allocated bit only, and no block was added. -/
theorem balloc_exact_match (h : Heap) (size : Int) (pre post : List Blk) (b : Blk)
    (L : Layout h (pre ++ b :: post)) (h1 : 1 ≤ size) (h2 : size ≤ 2147483647)
    (hb : b.alloc = false) (hn : b.size = roundup8 (size + 4))
    (hpre : ∀ c ∈ pre, c.alloc = false → c.size ≠ roundup8 (size + 4)) :
    ∃ h2, balloc h size = .ok (h.heap_start + total pre + 4, h2) ∧
      walk h = .ok (blocksAt (pre ++ b :: post) h.heap_start true) ∧
      walk h2 = .ok (blocksAt (pre ++ ⟨b.size, true⟩ :: post) h.heap_start true) ∧
      h2.mem (h.heap_start + total pre) = h.mem (h.heap_start + total pre) + 1 := by
  have hr := roundup8_spec (size + 4)
  have hsmall : size ≤ 2147483636 := by
    have := (L.size_lt (c := b) (by simp)).2
    omega
  have hne := need_eq size h1 hsmall
  have h8 := (L.at).2.1
  have hh := (L.at).2.2.2.1
  rw [← hne] at hn hpre
  refine ⟨_, balloc_exact_outcome L h1 hb hn hpre, walk_layout L, ?_, ?_⟩
  · exact walk_layout (exact_step L hb).layout
  · rw [hh, hb]
    show exactMem h.mem _ _ _ _ _ = _
    rw [exactMem_at h8]
    cases lastAlloc true pre <;> simp [hdr] <;> omega

theorem balloc_exact_match_witness :
    ∃ h2, balloc heapFit 36 = .ok (heapFit.heap_start + total [⟨64, false⟩, ⟨16, true⟩] + 4, h2) ∧
      walk heapFit = .ok (blocksAt ([⟨64, false⟩, ⟨16, true⟩] ++ ⟨40, false⟩ :: [⟨8, true⟩])
        heapFit.heap_start true) ∧
      walk h2 = .ok (blocksAt ([⟨64, false⟩, ⟨16, true⟩] ++ ⟨40, true⟩ :: [⟨8, true⟩])
        heapFit.heap_start true) ∧
      h2.mem (heapFit.heap_start + total [⟨64, false⟩, ⟨16, true⟩]) =
        heapFit.mem (heapFit.heap_start + total [⟨64, false⟩, ⟨16, true⟩]) + 1 :=
  balloc_exact_match heapFit 36 [⟨64, false⟩, ⟨16, true⟩] [⟨8, true⟩] ⟨40, false⟩
    heapFit_layout (by decide) (by decide) rfl (by decide) (by decide)

/-- C3 (failing input). On the heap left by `init_heap (4096)`, whose only block
is free and 4088 bytes long, `balloc (2147483647)` computes the block size
`-2147483632` by overflow, takes the free block as best fit and writes the
header of the remainder below the mapped region: the call does not return. -/
theorem balloc_int_max_fault :
    Initial heapInit ∧ walk heapInit = .ok [⟨139637976727556, 4088, false, true⟩] ∧
      need 2147483647 = -2147483632 ∧ balloc heapInit 2147483647 = .error .segv :=
  ⟨heapInit_initial, rfl, by decide, rfl⟩

/-- Failing calls that return leave the heap unchanged: `balloc` with a size
that is not positive returns the null pointer and the heap it was given; in a
state reached from `init_heap` a request for which no free block is as large
as the block size `balloc` computes in `int` arithmetic returns the null
pointer and the unchanged heap, and so does every call that returns the null
pointer; and whenever `bfree` returns -1 it returns the heap it was given.
Nothing is said here of a request whose rounded size overflows. -/
theorem failure_leaves_heap_unchanged :
    (∀ (h : Heap) (size : Int), size ≤ 0 → balloc h size = .ok (0, h)) ∧
    (∀ (h0 h : Heap) (size : Int) (blocks : List Block), Initial h0 → Reach h0 h →
      1 ≤ size → size ≤ 2147483647 → walk h = .ok blocks →
      (∀ B ∈ blocks, B.alloc = false → B.size < need size) → balloc h size = .ok (0, h)) ∧
    (∀ (h0 h h2 : Heap) (size : Int), Initial h0 → Reach h0 h →
      -2147483648 ≤ size → size ≤ 2147483647 → balloc h size = .ok (0, h2) → h2 = h) ∧
    (∀ (h h2 : Heap) (ptr : Int), bfree h ptr = .ok (-1, h2) → h2 = h) := by
  refine ⟨balloc_nonpos, ?_, ?_, fun h h2 ptr => bfree_fail_same⟩
  · intro h0 h size blocks hi hr h1 _ hw hno
    obtain ⟨bs, I, _, _⟩ := hr.inv_reach hi
    have hb := walk_inj I.layout hw
    subst hb
    apply balloc_none_outcome I.layout h1
    intro c hc hf
    obtain ⟨B, hB, e1, e2⟩ := report_of_mem hc h.heap_start true
    have := hno B hB (by rw [e2, hf])
    omega
  · intro h0 h h2 size hi hr hlo hhi hrun
    obtain ⟨bs, I, _, _⟩ := hr.inv_reach hi
    rcases balloc_step I.layout hlo hhi hrun with ⟨_, e⟩ | ⟨hne, _⟩
    · exact e
    · exact absurd rfl hne

theorem failure_leaves_heap_unchanged_witness :
    balloc heapInit (-5) = .ok (0, heapInit) ∧ balloc heapInit 5000 = .ok (0, heapInit) ∧
      (∀ h2, bfree heapInit 139637976727560 = .ok (-1, h2) → h2 = heapInit) :=
  ⟨failure_leaves_heap_unchanged.1 heapInit (-5) (by decide),
    failure_leaves_heap_unchanged.2.1 heapInit heapInit 5000
      [⟨139637976727556, 4088, false, true⟩] heapInit_initial Reach.init (by decide)
      (by decide) rfl (by decide),
    fun h2 => failure_leaves_heap_unchanged.2.2.2 heapInit h2 139637976727560⟩

/-- C5 (counterexample). After `init_heap (4096)` and `balloc (16)` the caller
stores `INT_MAX` in the second word of the payload.  The pointer 8 bytes into
the payload is not null, is a multiple of 8, its header address is in range
and the word there has bit 0 set; `bfree` takes that word for a header and
reads the next header outside the mapped region instead of returning 0. -/
theorem bfree_payload_word_fault :
    WellFormed heapPayload ∧ ¬ Rejected heapPayload 139637976727568 ∧
      bfree heapPayload 139637976727568 = .error .segv :=
  ⟨⟨_, heapPayload_layout⟩, by decide, rfl⟩

/-- C6. Coalescing: on a well-formed heap whose block list is
`pre ++ la ++ b :: lc ++ post`, where `b` is allocated, `la` is the free block
right before `b` (empty if that block is allocated or `b` is first) and `lc`
the free block right after `b` (empty if that block is allocated or the end
mark follows), `bfree` of the payload pointer of `b` returns 0 and the walk
becomes `pre`, one free block, `post`: the free block starts at the lowest
merged header, its size is the sum of the merged sizes, its header keeps the
p-bit of the first merged block, its footer holds the summed size, and the
header after it, unless it is the end mark, has p-bit 0. -/
theorem bfree_coalesces (h : Heap) (pre la lc post : List Blk) (b : Blk)
    (L : Layout h ((pre ++ la) ++ b :: (lc ++ post))) (hb : b.alloc = true)
    (hla : (la = [] ∧ lastAlloc true pre = true) ∨ ∃ A, la = [A] ∧ A.alloc = false)
    (hlc : (lc = [] ∧ headAlloc post = true) ∨ ∃ C, lc = [C] ∧ C.alloc = false) :
    ∃ h2, bfree h (h.heap_start + total (pre ++ la) + 4) = .ok (0, h2) ∧
      walk h = .ok (blocksAt ((pre ++ la) ++ b :: (lc ++ post)) h.heap_start true) ∧
      walk h2 = .ok (blocksAt (pre ++ ⟨total la + b.size + total lc, false⟩ :: post)
        h.heap_start true) ∧
      h2.mem (h.heap_start + total pre) =
        hdr (total la + b.size + total lc) false (lastAlloc true pre) ∧
      h2.mem (h.heap_start + total pre + (total la + b.size + total lc) - 4) =
        total la + b.size + total lc ∧
      (∀ c cs, post = c :: cs →
        h2.mem (h.heap_start + total pre + (total la + b.size + total lc)) =
          hdr c.size c.alloc false) := by
  obtain ⟨h2, hrun, st⟩ := bfree_run L hb hla hlc
  have e := st.globals.1
  have L2 := st.layout
  have w2 := walk_layout L2
  rw [e] at w2
  obtain ⟨_, _, _, hh, hft, _, _, _, _, _, _⟩ := L2.at
  rw [e] at hh hft
  refine ⟨h2, hrun, walk_layout L, w2, hh, hft rfl, ?_⟩
  intro c cs hpost
  subst hpost
  have := (L2.at2).2.2.1
  rw [e] at this
  exact this

theorem bfree_coalesces_witness :
    ∃ h2, bfree heapABC (heapABC.heap_start + total ([] ++ [⟨32, false⟩]) + 4) = .ok (0, h2) ∧
      walk heapABC = .ok (blocksAt (([] ++ [⟨32, false⟩]) ++ ⟨24, true⟩ ::
        ([⟨48, false⟩] ++ [⟨24, true⟩])) heapABC.heap_start true) ∧
      walk h2 = .ok (blocksAt ([] ++ ⟨total [⟨32, false⟩] + 24 + total [⟨48, false⟩], false⟩ ::
        [⟨24, true⟩]) heapABC.heap_start true) ∧
      h2.mem (heapABC.heap_start + total []) =
        hdr (total [⟨32, false⟩] + 24 + total [⟨48, false⟩]) false (lastAlloc true []) ∧
      h2.mem (heapABC.heap_start + total [] +
          (total [⟨32, false⟩] + 24 + total [⟨48, false⟩]) - 4) =
        total [⟨32, false⟩] + 24 + total [⟨48, false⟩] ∧
      (∀ c cs, [(⟨24, true⟩ : Blk)] = c :: cs →
        h2.mem (heapABC.heap_start + total [] +
            (total [⟨32, false⟩] + 24 + total [⟨48, false⟩])) =
          hdr c.size c.alloc false) :=
  bfree_coalesces heapABC [] [⟨32, false⟩] [⟨48, false⟩] [⟨24, true⟩] ⟨24, true⟩
    heapABC_layout rfl (Or.inr ⟨_, rfl, rfl⟩) (Or.inr ⟨_, rfl, rfl⟩)

/-- Tiling, in a process in which nothing but the region of `init_heap` is
mapped, so that a call of `balloc` whose rounded size overflows faults and
reaches no state: in every state reached from a successful `init_heap` by
calls of `balloc` and of `bfree` that return, the walk from `heap_start`
visits blocks that lie back to back, each of a size that is a multiple of 8
and at least 8, and reaches the end mark exactly at `heap_start + alloc_size`;
`heap_start` and `alloc_size` are those set at initialization, and the block
sizes sum to `alloc_size`. -/
theorem blocks_tile_heap (h0 h : Heap) (hi : Initial h0) (hr : Reach h0 h) :
    ∃ blocks, walk h = .ok blocks ∧
      Tiles blocks h.heap_start (h.heap_start + h.alloc_size) ∧
      h.mem (h.heap_start + h.alloc_size) = 1 ∧
      (blocks.map Block.size).sum = h0.alloc_size ∧
      h.heap_start = h0.heap_start ∧ h.alloc_size = h0.alloc_size := by
  obtain ⟨bs, I, e1, e2⟩ := hr.inv_reach hi
  have L := I.layout
  have t := blocksAt_tiles bs h.heap_start true L.seg
  rw [L.tot] at t
  exact ⟨_, walk_layout L, t, L.endm, by rw [blocksAt_sizes, L.tot, e2], e1, e2⟩

theorem blocks_tile_heap_witness :
    ∃ blocks, walk heapUsed = .ok blocks ∧
      Tiles blocks heapUsed.heap_start (heapUsed.heap_start + heapUsed.alloc_size) ∧
      heapUsed.mem (heapUsed.heap_start + heapUsed.alloc_size) = 1 ∧
      (blocks.map Block.size).sum = heapInit.alloc_size ∧
      heapUsed.heap_start = heapInit.heap_start ∧ heapUsed.alloc_size = heapInit.alloc_size :=
  blocks_tile_heap heapInit heapUsed heapInit_initial heapUsed_reach

/-- C10. Split postcondition: on a well-formed heap, when no free block has
exactly the needed size `n` (`size + 4` rounded up to a multiple of 8) and some
free block is larger, `balloc` allocates from a free block of size `S > n` at
some address `x`: afterwards the header at `x` holds size `n` with the
allocated bit set and the p-bit it had before, the header at `x + n` holds
`S - n` with the allocated bit clear and the p-bit set, and the last four
bytes of the old block, at `x + S - 4`, hold `S - n`; the walk shows the two
blocks in place of the old one.  `S = n + 8` is included. -/
theorem balloc_split_post (h : Heap) (bs : List Blk) (size : Int)
    (L : Layout h bs) (h1 : 1 ≤ size) (h2 : size ≤ 2147483647)
    (hne : ∀ c ∈ bs, c.alloc = false → c.size ≠ roundup8 (size + 4))
    (hex : ∃ c ∈ bs, c.alloc = false ∧ roundup8 (size + 4) < c.size) :
    ∃ pre b post h2, bs = pre ++ b :: post ∧ b.alloc = false ∧
      roundup8 (size + 4) < b.size ∧
      balloc h size = .ok (h.heap_start + total pre + 4, h2) ∧
      h.mem (h.heap_start + total pre) = hdr b.size false (lastAlloc true pre) ∧
      h2.mem (h.heap_start + total pre) =
        hdr (roundup8 (size + 4)) true (lastAlloc true pre) ∧
      h2.mem (h.heap_start + total pre + roundup8 (size + 4)) =
        hdr (b.size - roundup8 (size + 4)) false true ∧
      h2.mem (h.heap_start + total pre + b.size - 4) = b.size - roundup8 (size + 4) ∧
      walk h2 = .ok (blocksAt (pre ++ ⟨roundup8 (size + 4), true⟩ ::
        ⟨b.size - roundup8 (size + 4), false⟩ :: post) h.heap_start true) := by
  have hr := roundup8_spec (size + 4)
  have hsmall : size ≤ 2147483636 := by
    obtain ⟨c, hc, _, hlt⟩ := hex
    have := (L.size_lt hc).2
    omega
  have hn := need_eq size h1 hsmall
  rw [← hn] at hne hex ⊢
  have n8 : 8 ≤ need size := by omega
  have nm : need size % 8 = 0 := by omega
  obtain ⟨pre, b, post, hbs, hb, hlt, _, _, hrun⟩ := balloc_fit_outcome L h1 n8 nm hne hex
  subst hbs
  have hh := (L.at).2.2.2.1
  have hm8 := (L.at).2.2.1
  rw [hb] at hh
  refine ⟨pre, b, post, _, rfl, hb, hlt, hrun, hh, splitMem_x,
    splitMem_next n8 (by omega), splitMem_foot n8 (by omega), ?_⟩
  exact walk_layout (split_step L hb (need size) n8 nm hlt).layout

theorem balloc_split_post_witness :
    ∃ pre b post h2, blksFit = pre ++ b :: post ∧ b.alloc = false ∧
      roundup8 (28 + 4) < b.size ∧
      balloc heapFit 28 = .ok (heapFit.heap_start + total pre + 4, h2) ∧
      heapFit.mem (heapFit.heap_start + total pre) = hdr b.size false (lastAlloc true pre) ∧
      h2.mem (heapFit.heap_start + total pre) =
        hdr (roundup8 (28 + 4)) true (lastAlloc true pre) ∧
      h2.mem (heapFit.heap_start + total pre + roundup8 (28 + 4)) =
        hdr (b.size - roundup8 (28 + 4)) false true ∧
      h2.mem (heapFit.heap_start + total pre + b.size - 4) = b.size - roundup8 (28 + 4) ∧
      walk h2 = .ok (blocksAt (pre ++ ⟨roundup8 (28 + 4), true⟩ ::
        ⟨b.size - roundup8 (28 + 4), false⟩ :: post) heapFit.heap_start true) :=
  balloc_split_post heapFit blksFit 28 heapFit_layout (by decide) (by decide) (by decide)
    (by decide)

/-! ## Positions in a block list -/

/-- Two ways of singling out a block of the same list: the same position, or
one before the other. -/
theorem split_cases {pre post pre2 post2 : List Blk} {b c : Blk}
    (he : pre ++ b :: post = pre2 ++ c :: post2) :
    (pre = pre2 ∧ b = c ∧ post = post2) ∨
      (∃ xs, pre = pre2 ++ c :: xs ∧ post2 = xs ++ b :: post) ∨
      (∃ xs, pre2 = pre ++ b :: xs ∧ post = xs ++ c :: post2) := by
  rcases List.append_eq_append_iff.mp he with ⟨as, h1, h2⟩ | ⟨cs, h1, h2⟩
  · cases as with
    | nil =>
      simp at h1 h2
      left; exact ⟨h1.symm, h2.1, h2.2⟩
    | cons x xs =>
      simp at h2
      right; right
      obtain ⟨rfl, rfl⟩ := h2
      exact ⟨xs, h1, rfl⟩
  · cases cs with
    | nil =>
      simp at h1 h2
      left; exact ⟨h1, h2.1.symm, h2.2.symm⟩
    | cons x xs =>
      simp at h2
      right; left
      obtain ⟨rfl, rfl⟩ := h2
      exact ⟨xs, h1, rfl⟩

/-- Every reported block other than the one at a given position lies wholly
before or wholly after it. -/
theorem blocksAt_apart {m : Int → Int} {pre post : List Blk} {b : Blk} {a : Int} {p : Bool}
    (S : Seg m (pre ++ b :: post) a p) {C : Block}
    (hC : C ∈ blocksAt (pre ++ b :: post) a p) :
    C = ⟨a + total pre, b.size, b.alloc, lastAlloc p pre⟩ ∨
      C.addr + C.size ≤ a + total pre ∨ a + total pre + b.size ≤ C.addr := by
  obtain ⟨pre2, c, post2, he, rfl⟩ := mem_blocksAt hC
  rcases split_cases he with ⟨e1, e2, _⟩ | ⟨xs, e1, _⟩ | ⟨xs, e1, e3⟩
  · left; subst e1; subst e2; rfl
  · right; left
    have S2 := S
    rw [e1, List.append_assoc, Seg_append] at S2
    have S3 := S2.2
    have hx := (total_pre_le xs (b :: post) S3.2.2.2.2).1
    show a + total pre2 + c.size ≤ a + total pre
    rw [e1, total_append]
    simp only [total]
    omega
  · right; right
    have S2 := S
    rw [e3, Seg_append] at S2
    have hx := (total_pre_le xs (c :: post2) S2.2.2.2.2.2).1
    show a + total pre + b.size ≤ a + total pre2
    rw [e1, total_append]
    simp only [total]
    omega

/-! ## Successful allocations -/

/-- A call of `balloc` that returns a non-null pointer did not overflow, and
took a free block whole or split it. -/
theorem balloc_success {h h2 : Heap} {bs : List Blk} {size r : Int}
    (L : Layout h bs) (h1 : 1 ≤ size) (hhi : size ≤ 2147483647)
    (hrun : balloc h size = .ok (r, h2)) (hr : r ≠ 0) :
    size ≤ 2147483636 ∧ 8 ≤ need size ∧ need size % 8 = 0 ∧
      ∃ pre b post, bs = pre ++ b :: post ∧ b.alloc = false ∧
        r = h.heap_start + total pre + 4 ∧
        ((b.size = need size ∧
            h2 = setMem h (exactMem h.mem (h.heap_start + total pre) (lastAlloc true pre)
              b.size post)) ∨
          (need size < b.size ∧
            h2 = setMem h (splitMem h.mem (h.heap_start + total pre) (lastAlloc true pre)
              b.size (need size)))) := by
  obtain ⟨hm, _, _, hc⟩ := need_cases size h1 hhi
  by_cases hexact : ∃ c ∈ bs, c.alloc = false ∧ c.size = need size
  · obtain ⟨pre, b, post, hbs, ⟨hb, hn⟩, hpre⟩ := first_split bs hexact
    subst hbs
    have h8 := (L.at).2.1
    rw [balloc_exact_outcome L h1 hb hn (fun c hc hf he => hpre c hc ⟨hf, he⟩)] at hrun
    cases hrun
    refine ⟨by omega, by omega, hm, pre, b, post, rfl, hb, rfl, Or.inl ⟨hn, rfl⟩⟩
  · have hne : ∀ c ∈ bs, c.alloc = false → c.size ≠ need size :=
      fun c hc hf he => hexact ⟨c, hc, hf, he⟩
    by_cases hex : ∃ c ∈ bs, c.alloc = false ∧ need size < c.size
    · rcases hc with ⟨hs, h8⟩ | ⟨hbig, _⟩
      · obtain ⟨pre, b, post, hbs, hb, hlt, _, _, hrn⟩ := balloc_fit_outcome L h1 h8 hm hne hex
        subst hbs
        rw [hrn] at hrun
        cases hrun
        exact ⟨hs, h8, hm, pre, b, post, rfl, hb, rfl, Or.inr ⟨hlt, rfl⟩⟩
      · obtain ⟨c, hc, hf, _⟩ := hex
        rw [balloc_overflow_outcome L hbig hhi ⟨c, hc, hf⟩] at hrun
        cases hrun
    · have hno : ∀ c ∈ bs, c.alloc = false → c.size < need size := by
        intro c hc hf
        by_contra hlt
        have := hne c hc hf
        exact hex ⟨c, hc, hf, by omega⟩
      rw [balloc_none_outcome L h1 hno] at hrun
      cases hrun
      exact absurd rfl hr

/-! ## Live pointers -/

/-- The payload pointer of an allocated block passes the validation of
`bfree`. -/
theorem not_rejected_of_live {h : Heap} {bs : List Blk} (L : Layout h bs) {ptr : Int}
    (hl : LiveAt bs h.heap_start ptr) : ¬ Rejected h ptr := by
  obtain ⟨pre, b, post, rfl, hb, rfl⟩ := hl
  obtain ⟨_, h8, hm8, hh, _, _, tp0, tq0, htot, tp8, _⟩ := L.at
  have R := L.toRegion
  have hs4 := R.start_mod
  have hT := R.top_bound
  rw [hb] at hh
  intro hrej
  rcases hrej with h1 | h1 | h1 | h1 | h1
  · omega
  · omega
  · omega
  · omega
  · rw [show h.heap_start + total pre + 4 - 4 = h.heap_start + total pre by omega, hh,
      hdr_alloc_bit _ _ _ (by omega)] at h1
    simp at h1

/-- A call of `balloc` that returns a non-null pointer replaces a free block
that is large enough by an allocated block of the needed size, followed by
the rest of the free block if there is any. -/
theorem balloc_success_step {h h2 : Heap} {bs : List Blk} {size r : Int}
    (L : Layout h bs) (h1 : 1 ≤ size) (hhi : size ≤ 2147483647)
    (hrun : balloc h size = .ok (r, h2)) (hr : r ≠ 0) :
    size ≤ 2147483636 ∧ 8 ≤ need size ∧ need size % 8 = 0 ∧
      ∃ pre b post mid, bs = pre ++ b :: post ∧ b.alloc = false ∧
        r = h.heap_start + total pre + 4 ∧ need size ≤ b.size ∧
        ((mid = [] ∧ b.size = need size) ∨
          (mid = [⟨b.size - need size, false⟩] ∧ need size < b.size)) ∧
        Step h bs h2 (pre ++ ⟨need size, true⟩ :: (mid ++ post))
          (h.heap_start + total pre) (h.heap_start + total pre + b.size) := by
  obtain ⟨s1, n8, nm, pre, b, post, rfl, hb, rfl, hc⟩ := balloc_success L h1 hhi hrun hr
  refine ⟨s1, n8, nm, pre, b, post, ?_⟩
  rcases hc with ⟨he, rfl⟩ | ⟨hlt, rfl⟩
  · refine ⟨[], rfl, hb, rfl, by omega, Or.inl ⟨rfl, he⟩, ?_⟩
    have st := exact_step L hb
    rw [he] at st ⊢
    exact st
  · exact ⟨[⟨b.size - need size, false⟩], rfl, hb, rfl, by omega, Or.inr ⟨rfl, hlt⟩,
      split_step L hb (need size) n8 nm hlt⟩

/-- The allocated block, on a well-formed heap of which nothing but the
region is mapped, so that a call whose rounded size overflows does not
return: when `balloc (size)` with `size ≥ 1`
returns a non-null pointer `p`, the block with header at `p - 4` is reported
by the traversal as allocated with size `need`, the least multiple of 8 that
is at least `size + 4`; its header reads as allocated with that size; the
payload of `need - 4` bytes from `p` holds at least `size` bytes, ends at or
before the end mark, and every other reported block lies wholly before or
wholly after the block. -/
theorem balloc_payload (h h2 : Heap) (size p : Int) (W : WellFormed h) (h1 : 1 ≤ size)
    (hhi : size ≤ 2147483647) (hrun : balloc h size = .ok (p, h2)) (hp : p ≠ 0) :
    roundup8 (size + 4) % 8 = 0 ∧ size + 4 ≤ roundup8 (size + 4) ∧
      (∀ m : Int, m % 8 = 0 → size + 4 ≤ m → roundup8 (size + 4) ≤ m) ∧
      isAlloc h2 (p - 4) = .ok 1 ∧ getBlkSize h2 (p - 4) = .ok (roundup8 (size + 4)) ∧
      ∃ blocks, walk h2 = .ok blocks ∧
        Tiles blocks h2.heap_start (h2.heap_start + h2.alloc_size) ∧
        ∃ B ∈ blocks, B.addr = p - 4 ∧ B.alloc = true ∧ B.size = roundup8 (size + 4) ∧
          size ≤ B.size - 4 ∧ h2.heap_start ≤ B.addr ∧
          p + (B.size - 4) ≤ h2.heap_start + h2.alloc_size ∧
          ∀ C ∈ blocks, C ≠ B → C.addr + C.size ≤ B.addr ∨ B.addr + B.size ≤ C.addr := by
  obtain ⟨bs, L⟩ := W
  obtain ⟨s1, n8, nm, pre, b, post, mid, rfl, hb, rfl, hle, hmid, st⟩ :=
    balloc_success_step L h1 hhi hrun hp
  have hne := need_eq size h1 s1
  obtain ⟨r1, r2, r3⟩ := roundup8_spec (size + 4)
  rw [← hne]
  have L2 := st.layout
  obtain ⟨g1, g2⟩ := st.globals
  obtain ⟨Sp, _, _, hh, _, Sq, tp0, tq0, htot, tp8, tq8⟩ := L2.at
  have R2 := L2.toRegion
  have hs4 := R2.start_mod
  have hsz := R2.size_int
  rw [g1] at hh
  have e4 : h.heap_start + total pre + 4 - 4 = h.heap_start + total pre := by omega
  have hv : h2.valid (h.heap_start + total pre) :=
    R2.valid (by rw [g1]; omega) (by rw [g1]; simp only [] at htot; omega) (by omega)
  simp only [] at htot hh
  refine ⟨nm, by omega, ?_, ?_, ?_, blocksAt _ h2.heap_start true, walk_layout L2, ?_, ?_⟩
  · intro m hm hsm
    rw [hne]; omega
  · rw [e4]; exact isAlloc_hdr hv hh (by omega)
  · rw [e4]; exact getBlkSize_hdr hv hh (by omega) (by omega) (by omega)
  · have := blocksAt_tiles _ h2.heap_start true L2.seg
    rw [L2.tot] at this
    exact this
  · refine ⟨⟨h2.heap_start + total pre, need size, true, lastAlloc true pre⟩,
      blocksAt_mem pre ⟨need size, true⟩ (mid ++ post) h2.heap_start true, ?_, rfl, rfl, ?_, ?_,
      ?_, ?_⟩
    · show h2.heap_start + total pre = h.heap_start + total pre + 4 - 4
      rw [g1]; omega
    · show size ≤ need size - 4
      omega
    · show h2.heap_start ≤ h2.heap_start + total pre
      omega
    · show h.heap_start + total pre + 4 + (need size - 4) ≤ h2.heap_start + h2.alloc_size
      rw [g1]; omega
    · intro C hC hCB
      rcases blocksAt_apart L2.seg hC with e | e | e
      · exact absurd e hCB
      · exact Or.inl e
      · exact Or.inr e

/-- The allocated block at an instance: `balloc (20)` on the 128-byte example heap
returns the payload pointer of a block of 24 bytes cut from the free block of
40 bytes. -/
theorem balloc_payload_witness :
    ∃ h2, balloc heapFit 20 = .ok (139637976727640, h2) ∧
      roundup8 (20 + 4) % 8 = 0 ∧ 20 + 4 ≤ roundup8 (20 + 4) ∧
      (∀ m : Int, m % 8 = 0 → 20 + 4 ≤ m → roundup8 (20 + 4) ≤ m) ∧
      isAlloc h2 (139637976727640 - 4) = .ok 1 ∧
      getBlkSize h2 (139637976727640 - 4) = .ok (roundup8 (20 + 4)) ∧
      ∃ blocks, walk h2 = .ok blocks ∧
        Tiles blocks h2.heap_start (h2.heap_start + h2.alloc_size) ∧
        ∃ B ∈ blocks, B.addr = 139637976727640 - 4 ∧ B.alloc = true ∧
          B.size = roundup8 (20 + 4) ∧
          20 ≤ B.size - 4 ∧ h2.heap_start ≤ B.addr ∧
          139637976727640 + (B.size - 4) ≤ h2.heap_start + h2.alloc_size ∧
          ∀ C ∈ blocks, C ≠ B → C.addr + C.size ≤ B.addr ∨ B.addr + B.size ≤ C.addr :=
  ⟨_, rfl, balloc_payload heapFit _ 20 139637976727640
    ⟨blksFit, heapFit_layout⟩ (by decide) (by decide) rfl (by decide)⟩

/-! ## What a successful allocation changes -/

/-- Setting the p-bit of the block after `a` changes at most bit 1 of its
header. -/
theorem putPrev_bits {h : Heap} {pre post : List Blk} {b : Blk} {m : Int → Int}
    (L : Layout h (pre ++ b :: post))
    (hm : m (h.heap_start + total pre + b.size) = h.mem (h.heap_start + total pre + b.size)) :
    band (putPrev true m post (h.heap_start + total pre + b.size)
        (h.heap_start + total pre + b.size)) (bnot 2) =
      band (h.mem (h.heap_start + total pre + b.size)) (bnot 2) := by
  cases post with
  | nil => show band (m _) _ = _; rw [hm]
  | cons c cs =>
    obtain ⟨c8, cm8, ch, _, _, _, _, _⟩ := L.at2
    have hc := (L.size_lt (c := c) (by simp)).2
    show band (upd m _ (hdr c.size c.alloc true) _) _ = _
    rw [upd_same, ch, hdr_clear_prev _ _ _ (by omega) (by omega) (by omega),
      hdr_clear_prev _ _ _ (by omega) (by omega) (by omega)]

/-- Claim C15: on a well-formed heap a call `balloc (size)` that returns a
non-null pointer `p` leaves the globals alone and takes a free block `B` of
the traversal with header at `p - 4` and size at least `n`, the rounded size.
The header of `B` becomes that of an allocated block of size `n` with the
same p-bit.  When `B` has size `n`, every word other than this header and the
word right after `B` is unchanged, and that word, the next header or the end
mark, changes in bit 1 at most.  When `B` is larger, the words at `p - 4 + n`
and in the last 4 bytes of `B` become header and footer of the free
remainder, and every other word is unchanged.  The header of every other
block is unchanged, except for bit 1 of the header right after `B` when `B`
has size `n`. -/
theorem balloc_frame (h h2 : Heap) (size p : Int) (W : WellFormed h) (h1 : 1 ≤ size)
    (hhi : size ≤ 2147483647) (hrun : balloc h size = .ok (p, h2)) (hp : p ≠ 0) :
    h2 = setMem h h2.mem ∧
      ∃ blocks, walk h = .ok blocks ∧
        ∃ B ∈ blocks, B.addr = p - 4 ∧ B.alloc = false ∧ roundup8 (size + 4) ≤ B.size ∧
          h.mem B.addr = hdr B.size false B.palloc ∧
          h2.mem B.addr = hdr (roundup8 (size + 4)) true B.palloc ∧
          (B.size = roundup8 (size + 4) →
            (∀ y, y ≠ B.addr → y ≠ B.addr + B.size → h2.mem y = h.mem y) ∧
              band (h2.mem (B.addr + B.size)) (bnot 2) =
                band (h.mem (B.addr + B.size)) (bnot 2)) ∧
          (roundup8 (size + 4) < B.size →
            (∀ y, y ≠ B.addr → y ≠ B.addr + roundup8 (size + 4) → y ≠ B.addr + B.size - 4 →
                h2.mem y = h.mem y) ∧
              h2.mem (B.addr + roundup8 (size + 4)) =
                hdr (B.size - roundup8 (size + 4)) false true ∧
              h2.mem (B.addr + B.size - 4) = B.size - roundup8 (size + 4)) ∧
          ∀ C ∈ blocks, C ≠ B →
            (C.addr ≠ B.addr + B.size ∨ roundup8 (size + 4) < B.size) →
            h2.mem C.addr = h.mem C.addr := by
  obtain ⟨bs, L⟩ := W
  obtain ⟨s1, n8, nm, pre, b, post, rfl, hb, rfl, hc⟩ := balloc_success L h1 hhi hrun hp
  rw [← need_eq size h1 s1]
  obtain ⟨Sp, b8, bm8, hh, hft, Sq, tp0, tq0, htot, tp8, tq8⟩ := L.at
  rw [hb] at hh
  have hapart : ∀ C ∈ blocksAt (pre ++ b :: post) h.heap_start true,
      C ≠ ⟨h.heap_start + total pre, b.size, false, lastAlloc true pre⟩ →
      C.addr + 8 ≤ h.heap_start + total pre ∨ h.heap_start + total pre + b.size ≤ C.addr := by
    intro C hC hCB
    obtain ⟨xs, c, ys, e, rfl⟩ := mem_blocksAt hC
    have hc8 : 8 ≤ c.size := by
      have := L.size_lt (c := c) (by rw [e]; simp)
      exact this.1
    rcases blocksAt_apart L.seg (by rw [e]; exact blocksAt_mem xs c ys _ _) with e1 | e1 | e1
    · rw [hb] at e1; exact absurd e1 hCB
    · left; simp only [] at e1 ⊢; omega
    · right; exact e1
  refine ⟨?_, blocksAt _ h.heap_start true, walk_layout L,
    ⟨h.heap_start + total pre, b.size, false, lastAlloc true pre⟩, ?_, ?_, rfl, ?_, hh, ?_⟩
  · rcases hc with ⟨_, rfl⟩ | ⟨_, rfl⟩ <;> rfl
  · have := blocksAt_mem pre b post h.heap_start true
    rw [hb] at this
    exact this
  · show h.heap_start + total pre = h.heap_start + total pre + 4 - 4
    omega
  · show need size ≤ b.size
    rcases hc with ⟨he, _⟩ | ⟨hlt, _⟩ <;> omega
  simp only []
  rcases hc with ⟨he, rfl⟩ | ⟨hlt, rfl⟩
  · refine ⟨?_, ?_, ?_, ?_⟩
    · show exactMem _ _ _ _ _ _ = _
      rw [exactMem_at b8, he]
    · intro _
      refine ⟨fun y hy1 hy2 => exactMem_ne hy1 hy2, ?_⟩
      show band (putPrev true _ post _ _) _ = _
      exact putPrev_bits L (upd_ne (by omega))
    · intro hlt; omega
    · intro C hC hCB hor
      show exactMem _ _ _ _ _ _ = _
      have := hapart C hC hCB
      refine exactMem_ne (by omega) ?_
      rcases hor with hne | hlt
      · exact hne
      · omega
  · have hns : need size + 8 ≤ b.size := by omega
    refine ⟨?_, ?_, ?_, ?_⟩
    · exact splitMem_x
    · intro he; omega
    · intro _
      exact ⟨fun y hy1 hy2 hy3 => splitMem_ne hy1 hy2 hy3, splitMem_next n8 hns,
        splitMem_foot n8 hns⟩
    · intro C hC hCB _
      have := hapart C hC hCB
      exact splitMem_ne (by omega) (by omega) (by omega)

/-- Claim C15 at an instance: `balloc (20)` on the 128-byte example heap. -/
theorem balloc_frame_witness :
    ∃ h2, balloc heapFit 20 = .ok (139637976727640, h2) ∧
      h2 = setMem heapFit h2.mem ∧
      ∃ blocks, walk heapFit = .ok blocks ∧
        ∃ B ∈ blocks, B.addr = 139637976727640 - 4 ∧ B.alloc = false ∧
          roundup8 (20 + 4) ≤ B.size ∧
          heapFit.mem B.addr = hdr B.size false B.palloc ∧
          h2.mem B.addr = hdr (roundup8 (20 + 4)) true B.palloc ∧
          (B.size = roundup8 (20 + 4) →
            (∀ y, y ≠ B.addr → y ≠ B.addr + B.size → h2.mem y = heapFit.mem y) ∧
              band (h2.mem (B.addr + B.size)) (bnot 2) =
                band (heapFit.mem (B.addr + B.size)) (bnot 2)) ∧
          (roundup8 (20 + 4) < B.size →
            (∀ y, y ≠ B.addr → y ≠ B.addr + roundup8 (20 + 4) → y ≠ B.addr + B.size - 4 →
                h2.mem y = heapFit.mem y) ∧
              h2.mem (B.addr + roundup8 (20 + 4)) =
                hdr (B.size - roundup8 (20 + 4)) false true ∧
              h2.mem (B.addr + B.size - 4) = B.size - roundup8 (20 + 4)) ∧
          ∀ C ∈ blocks, C ≠ B →
            (C.addr ≠ B.addr + B.size ∨ roundup8 (20 + 4) < B.size) →
            h2.mem C.addr = heapFit.mem C.addr :=
  ⟨_, rfl, balloc_frame heapFit _ 20 139637976727640 ⟨blksFit, heapFit_layout⟩
    (by decide) (by decide) rfl (by decide)⟩

/-! ## Freeing a live block -/

/-- The payload pointers of the allocated blocks of a block list are the
payload pointers of the allocated blocks the traversal reports. -/
theorem liveAt_iff (bs : List Blk) (a q : Int) (p : Bool) :
    LiveAt bs a q ↔ ∃ B ∈ blocksAt bs a p, B.alloc = true ∧ q = B.addr + 4 := by
  constructor
  · rintro ⟨pre, b, post, rfl, hb, rfl⟩
    exact ⟨_, blocksAt_mem pre b post a p, hb, rfl⟩
  · rintro ⟨B, hB, hal, rfl⟩
    obtain ⟨pre, c, post, rfl, rfl⟩ := mem_blocksAt hB
    exact ⟨pre, c, post, rfl, hal, rfl⟩

/-- A multiple of `P` in `[n, n + P)` is `n` rounded up to a multiple of
`P`. -/
theorem roundupTo_eq {P n r : Int} (hP : 0 < P) (hr : r % P = 0) (h1 : n ≤ r)
    (h2 : r < n + P) : roundupTo P n = r := by
  obtain ⟨k, rfl⟩ := Int.dvd_of_emod_eq_zero hr
  unfold roundupTo
  have e : n + P - 1 = (n + P - 1 - P * k) + P * k := by omega
  rw [e, Int.add_mul_ediv_left _ _ (by omega),
    Int.ediv_eq_zero_of_lt (by omega) (by omega), Int.zero_add, Int.mul_comm]

/-- The first call of `init_heap` with a positive size succeeds when the
operating system opens `/dev/zero` and maps the region. -/
theorem init_heap_run {pre : Heap} {os : OS} {n p : Int} (hpre : pre.allocated_once = 0)
    (n1 : 1 ≤ n) (n2 : n ≤ 2147483647) (C : OSContract os n) (ho : os.open_ok = true)
    (hp : os.mmap_ptr = some p) :
    init_heap pre os n = .ok (0,
      { heap_start := p + 4, alloc_size := region_size os.pagesize n - 8,
        allocated_once := 1, map_base := p, map_len := region_size os.pagesize n,
        mem := upd (upd (upd (upd (fun _ => 0) (p + 4 + (region_size os.pagesize n - 8)) 1)
          (p + 4) (region_size os.pagesize n - 8)) (p + 4)
          (region_size os.pagesize n - 8 + 2))
          (p + 4 + (region_size os.pagesize n - 8) - 4) (region_size os.pagesize n - 8) }) := by
  unfold init_heap
  rw [if_neg (by rw [hpre]; simp), if_neg (by omega)]
  simp only []
  rw [if_neg (by rw [ho]; simp), hp]
  obtain ⟨r16, r8, ri, p0, p8, ptop, _, _, _⟩ := region_size_spec C n1 n2 hp
  generalize region_size os.pagesize n = RS at *
  have e1 : wrap64 RS = RS := wrap64_id _ (by omega) (by omega)
  have e2 : wrap32 (RS - 8) = RS - 8 := wrap32_id _ (by omega) (by omega)
  have e3 : wrap64 (p + 4) = p + 4 := wrap64_id _ (by omega) (by omega)
  have e4 : wrap64 (p + 4 + (RS - 8)) = p + 4 + (RS - 8) := wrap64_id _ (by omega) (by omega)
  have e5 : wrap64 (p + 4 + (RS - 8) - 4) = p + 4 + (RS - 8) - 4 :=
    wrap64_id _ (by omega) (by omega)
  have e6 : wrap32 (RS - 8 + 2) = RS - 8 + 2 := wrap32_id _ (by omega) (by omega)
  have v1 : (p ≤ p + 4 + (RS - 8) ∧ p + 4 + (RS - 8) + 4 ≤ p + RS ∧
      (p + 4 + (RS - 8)) % 4 = 0) := by omega
  have v2 : (p ≤ p + 4 ∧ p + 4 + 4 ≤ p + RS ∧ (p + 4) % 4 = 0) := by omega
  have v3 : (p ≤ p + 4 + (RS - 8) - 4 ∧ p + 4 + (RS - 8) - 4 + 4 ≤ p + RS ∧
      (p + 4 + (RS - 8) - 4) % 4 = 0) := by omega
  simp only [e1, e2, e3, e4, e5, store, load, Heap.valid, v1, v2, v3, and_self, if_true,
    bind, Except.bind, pure, Except.pure, upd_same, e6]

/-- Calls of `balloc` and `bfree` leave the flag of `init_heap` set. -/
theorem Reach.once {h0 h : Heap} (hi : Initial h0) (hr : Reach h0 h) :
    h.allocated_once = 1 := by
  induction hr with
  | init =>
    obtain ⟨pre, os, n, n2, C, hrun⟩ := hi
    obtain ⟨p, _, _, _, rfl⟩ := init_heap_result C n2 hrun
    rfl
  | alloc_step size r hrp hlo hhi hrun ih =>
    obtain ⟨bs, I, _, _⟩ := hrp.inv_reach hi
    rcases balloc_step I.layout hlo hhi hrun with ⟨_, rfl⟩ | ⟨_, bs2, lo, hi2, st, _⟩
    · exact ih
    · rw [st.same]; exact ih
  | free_step ptr r hrp hp0 hp1 hrun ih =>
    obtain ⟨bs, I, _, _⟩ := hrp.inv_reach hi
    rcases bfree_total I.layout I.quiet ptr hp0 hp1 with
      ⟨_, hrej⟩ | ⟨_, h3, bs2, lo, hi2, hok, st, _⟩
    · rw [hrej] at hrun
      have e := (Prod.mk.inj (Except.ok.inj hrun)).2
      rw [← e]; exact ih
    · rw [hok] at hrun
      have e := (Prod.mk.inj (Except.ok.inj hrun)).2
      rw [← e, st.same]; exact ih

/-- Claim C16: on the first call, with a positive `sizeOfRegion` and an
operating system that opens `/dev/zero` and maps the region at `p`,
`init_heap` returns 0 and sets `alloc_size` to `sizeOfRegion` rounded up to a
multiple of the page size, less 8.  The word at `heap_start = p + 4` is
`alloc_size + 2`, read as a free block of size `alloc_size` with the p-bit
set; the last word of the block holds `alloc_size`; the word at
`heap_start + alloc_size` is the end mark 1; and the traversal reports this
one block. -/
theorem init_heap_post (pre : Heap) (os : OS) (n p : Int) (hpre : pre.allocated_once = 0)
    (n1 : 0 < n) (n2 : n ≤ 2147483647) (C : OSContract os n) (ho : os.open_ok = true)
    (hp : os.mmap_ptr = some p) :
    ∃ h, init_heap pre os n = .ok (0, h) ∧
      h.alloc_size = roundupTo os.pagesize n - 8 ∧
      roundupTo os.pagesize n % os.pagesize = 0 ∧ n ≤ roundupTo os.pagesize n ∧
      roundupTo os.pagesize n < n + os.pagesize ∧
      h.heap_start = p + 4 ∧ h.mem h.heap_start = h.alloc_size + 2 ∧
      isAlloc h h.heap_start = .ok 0 ∧ isPrevAlloc h h.heap_start = .ok 2 ∧
      getBlkSize h h.heap_start = .ok h.alloc_size ∧
      h.mem (h.heap_start + h.alloc_size - 4) = h.alloc_size ∧
      h.mem (h.heap_start + h.alloc_size) = 1 ∧
      walk h = .ok [⟨h.heap_start, h.alloc_size, false, true⟩] := by
  obtain ⟨h, hrun, ehs, eas⟩ : ∃ h, init_heap pre os n = .ok (0, h) ∧ h.heap_start = p + 4 ∧
      h.alloc_size = region_size os.pagesize n - 8 :=
    ⟨_, init_heap_run hpre (by omega) n2 C ho hp, rfl, rfl⟩
  obtain ⟨r16, r8, ri, p0, p8, ptop, rP, rlo, rhi⟩ := region_size_spec C (by omega) n2 hp
  have hru : roundupTo os.pagesize n = region_size os.pagesize n :=
    roundupTo_eq (by have := C.1; omega) rP rlo rhi
  have I := Initial.inv ⟨pre, os, n, n2, C, hrun⟩
  have L := I.layout
  have hw := walk_layout L
  have L0 : Layout h ([] ++ ⟨h.alloc_size, false⟩ :: []) := L
  obtain ⟨_, b8, bm8, hh, hft, _, _, _, _, _, _⟩ := L0.at
  have hv := L.toRegion.valid (a := h.heap_start) (by omega) (by omega) (by omega)
  have e0 : h.heap_start + total [] = h.heap_start := by simp [total]
  rw [e0] at hh hft
  have b8x : 8 ≤ h.alloc_size := b8
  have bm8x : h.alloc_size % 8 = 0 := bm8
  have hh2 : h.mem h.heap_start = hdr h.alloc_size false true := hh
  refine ⟨h, hrun, ?_, ?_, ?_, ?_, ehs, ?_, ?_, ?_, ?_, ?_, L.endm, hw⟩
  · rw [hru, eas]
  · rw [hru]; exact rP
  · rw [hru]; exact rlo
  · rw [hru]; exact rhi
  · rw [hh2]; simp [hdr]
  · exact isAlloc_hdr hv hh2 (by omega)
  · exact isPrevAlloc_hdr hv hh2 (by omega)
  · exact getBlkSize_hdr hv hh2 (by omega) (by omega) (by omega)
  · exact hft rfl

/-- Claim C16 at an instance: `init_heap (100)` with 4096-byte pages. -/
theorem init_heap_post_witness :
    ∃ h, init_heap preInit demoOS 100 = .ok (0, h) ∧
      h.alloc_size = roundupTo demoOS.pagesize 100 - 8 ∧
      roundupTo demoOS.pagesize 100 % demoOS.pagesize = 0 ∧
      100 ≤ roundupTo demoOS.pagesize 100 ∧
      roundupTo demoOS.pagesize 100 < 100 + demoOS.pagesize ∧
      h.heap_start = 139637976727552 + 4 ∧ h.mem h.heap_start = h.alloc_size + 2 ∧
      isAlloc h h.heap_start = .ok 0 ∧ isPrevAlloc h h.heap_start = .ok 2 ∧
      getBlkSize h h.heap_start = .ok h.alloc_size ∧
      h.mem (h.heap_start + h.alloc_size - 4) = h.alloc_size ∧
      h.mem (h.heap_start + h.alloc_size) = 1 ∧
      walk h = .ok [⟨h.heap_start, h.alloc_size, false, true⟩] :=
  init_heap_post preInit demoOS 100 139637976727552 rfl (by decide) (by decide)
    ⟨by decide, by decide, by decide, fun p hp => by cases hp; decide⟩ rfl rfl

/-- Claim C17: `init_heap` returns -1 and leaves the whole state as it was
when `sizeOfRegion` is not positive, and when the state was reached from a
successful call of `init_heap`. -/
theorem init_heap_failure (h : Heap) (os : OS) (n : Int)
    (hc : n ≤ 0 ∨ ∃ h0, Initial h0 ∧ Reach h0 h) : init_heap h os n = .ok (-1, h) := by
  unfold init_heap
  rcases hc with hn | ⟨h0, hi, hr⟩
  · by_cases h1 : h.allocated_once ≠ 0
    · rw [if_pos h1]
    · rw [if_neg h1, if_pos hn]
  · rw [if_pos (by rw [hr.once hi]; decide)]

/-- Claim C17 at instances: a size of 0 on the first call, and a second call
in the example state `heapUsed`. -/
theorem init_heap_failure_witness :
    init_heap preInit demoOS 0 = .ok (-1, preInit) ∧
      init_heap heapUsed demoOS 4096 = .ok (-1, heapUsed) :=
  ⟨init_heap_failure preInit demoOS 0 (Or.inl (by decide)),
    init_heap_failure heapUsed demoOS 4096 (Or.inr ⟨heapInit, heapInit_initial, heapUsed_reach⟩)⟩

/-! ## The first allocation -/

/-- Claim C18 as stated fails: with 4096-byte pages `init_heap (64)` and
`init_heap (72)` both set up a heap of 4088 bytes, on which `balloc (1000)`
returns a pointer that is not `NULL`. -/
theorem small_init_balloc_found :
    init_heap preInit demoOS 64 = .ok (0, heapInit) ∧
      init_heap preInit demoOS 72 = .ok (0, heapInit) ∧
      ∃ h2, balloc heapInit 1000 = .ok (139637976727560, h2) ∧ (139637976727560 : Int) ≠ 0 :=
  ⟨rfl, rfl, _, rfl, by decide⟩

/-- Claim C18 amended: after the first call `init_heap (c)` succeeded, the
first allocation `balloc (n)` returns, and it returns `NULL` exactly when
the rounded size of the request exceeds `c` rounded up to a multiple of the
page size, less 8. -/
theorem first_balloc_null_iff (pre : Heap) (os : OS) (c p n : Int)
    (hpre : pre.allocated_once = 0) (c1 : 0 < c) (c2 : c ≤ 2147483647) (C : OSContract os c)
    (ho : os.open_ok = true) (hp : os.mmap_ptr = some p) (n1 : 1 ≤ n) (n2 : n ≤ 2147483636) :
    ∃ h r h2, init_heap pre os c = .ok (0, h) ∧ balloc h n = .ok (r, h2) ∧
      (r = 0 ↔ roundupTo os.pagesize c - 8 < roundup8 (n + 4)) := by
  have hrun := init_heap_run hpre (by omega) c2 C ho hp
  obtain ⟨r16, r8, ri, p0, p8, ptop, rP, rlo, rhi⟩ := region_size_spec C (by omega) c2 hp
  have hru : roundupTo os.pagesize c = region_size os.pagesize c :=
    roundupTo_eq (by have := C.1; omega) rP rlo rhi
  have I := Initial.inv ⟨pre, os, c, c2, C, hrun⟩
  obtain ⟨hnone, hsome⟩ := balloc_returns_in_range I.layout n1 n2
  rw [hru, ← need_eq n n1 n2]
  by_cases hfit : region_size os.pagesize c - 8 < need n
  · refine ⟨_, 0, _, hrun, hnone ?_, by simp [hfit]⟩
    intro c hc _
    rw [List.mem_singleton] at hc
    rw [hc]; exact hfit
  · obtain ⟨r, h2, hb, hr⟩ := hsome ⟨_, List.mem_singleton.mpr rfl, rfl, by
      show need n ≤ region_size os.pagesize c - 8
      omega⟩
    exact ⟨_, r, h2, hrun, hb, by simp [hr, hfit]⟩

/-- Claim C18 amended, at an instance: `init_heap (64)` with 4096-byte pages
followed by `balloc (1000)`. -/
theorem first_balloc_null_iff_witness :
    ∃ h r h2, init_heap preInit demoOS 64 = .ok (0, h) ∧ balloc h 1000 = .ok (r, h2) ∧
      (r = 0 ↔ roundupTo demoOS.pagesize 64 - 8 < roundup8 (1000 + 4)) :=
  first_balloc_null_iff preInit demoOS 64 139637976727552 1000 rfl (by decide) (by decide)
    ⟨by decide, by decide, by decide, fun p hp => by cases hp; decide⟩ rfl rfl
    (by decide) (by decide)

/-! ## The value `isPrevAlloc` returns -/

/-- Claim C20 fails on the code: for the headers 26 and 27 of a 24-byte
block whose predecessor is allocated, `isPrevAlloc` returns 2, where its
documentation and the claim say 1; `isAlloc` returns 1 for the header 27. -/
theorem isPrevAlloc_returns_two :
    heapHdr.mem 139637976727564 = 26 ∧ isPrevAlloc heapHdr 139637976727564 = .ok 2 ∧
      heapPayload.mem 139637976727556 = 27 ∧ isPrevAlloc heapPayload 139637976727556 = .ok 2 ∧
      isAlloc heapPayload 139637976727556 = .ok 1 :=
  ⟨rfl, rfl, rfl, rfl, rfl⟩

/-! ## Requests whose rounded size overflows -/

/-- The traversal reports first the block at `heap_start`, with the size its
header holds. -/
theorem walk_head {h : Heap} {v : Int} {blocks : List Block}
    (hw : walk h = .ok blocks) (hl : load h h.heap_start = .ok v) (hv : v ≠ 1) :
    ∃ B rest, blocks = B :: rest ∧ B.addr = h.heap_start ∧
      B.size =
        (if band (if band v 1 ≠ 0 then wrap32 (v - 1) else v) 2 ≠ 0
          then wrap32 ((if band v 1 ≠ 0 then wrap32 (v - 1) else v) - 2)
          else (if band v 1 ≠ 0 then wrap32 (v - 1) else v)) := by
  unfold walk Heap.fuel at hw
  rw [walk_from, hl] at hw
  simp only [bind, Except.bind, pure, Except.pure, if_neg hv] at hw
  cases hrec : walk_from (h.map_len / 4).toNat h _ with
  | error e => rw [hrec] at hw; cases hw
  | ok rest =>
    rw [hrec] at hw
    have e := Except.ok.inj hw
    refine ⟨_, rest, e.symm, rfl, ?_⟩
    simp only [decide_eq_true_eq]

/-- Claim C4 fails on the code: after `init_heap (4096)` the one block, free
and 4088 bytes long, cannot hold 2147483647 bytes, yet `balloc (2147483647)`
does not return `NULL` with the heap unchanged.  Its size computation
overflows to -2147483632, the free block is taken, and the call faults on a
store below the region; where the memory below the region is mapped, it
returns a pointer and has overwritten the header of the block. -/
theorem balloc_no_fit_not_null :
    Initial heapInit ∧ walk heapInit = .ok [⟨139637976727556, 4088, false, true⟩] ∧
      (4088 : Int) < roundup8 (2147483647 + 4) ∧
      balloc heapInit 2147483647 = .error .segv ∧
      heapWide.mem = heapInit.mem ∧
      ∃ h2, balloc heapWide 2147483647 = .ok (139637976727560, h2) ∧
        heapWide.mem 139637976727556 = 4090 ∧ h2.mem 139637976727556 = -2147483629 :=
  ⟨heapInit_initial, rfl, by decide, rfl, rfl, _, rfl, rfl, rfl⟩

/-- Claim C9 fails on the code: in a process in which the memory below the
region is mapped, `balloc (2147483647)` after `init_heap (4096)` returns and
leaves the header -2147483629 at `heap_start`; the traversal then starts with
a block of size -2147483632 and does not tile the heap. -/
theorem overflow_breaks_tiling :
    heapWide.heap_start = heapInit.heap_start ∧ heapWide.alloc_size = heapInit.alloc_size ∧
      heapWide.mem = heapInit.mem ∧
      ∃ h2, balloc heapWide 2147483647 = .ok (139637976727560, h2) ∧
        h2.heap_start = 139637976727556 ∧ h2.alloc_size = 4088 ∧
        h2.mem 139637976727556 = -2147483629 ∧
        getBlkSize h2 139637976727556 = .ok (-2147483632) ∧
        ¬ ∃ blocks, walk h2 = .ok blocks ∧
          Tiles blocks h2.heap_start (h2.heap_start + h2.alloc_size) := by
  refine ⟨rfl, rfl, rfl, _, rfl, rfl, rfl, rfl, rfl, ?_⟩
  rintro ⟨blocks, hw, ht⟩
  obtain ⟨B, rest, rfl, _, hs⟩ := walk_head (v := -2147483629) hw (by rfl) (by decide)
  have h8 : 8 ≤ B.size := ht.2.1
  rw [hs] at h8
  revert h8
  decide

/-- Claim C11 fails on the code: on the heap of one free block of 4088
bytes, in a process in which the memory below the region is mapped,
`balloc (2147483647)` returns a pointer that is not `NULL`; the header before
it is marked allocated with size -2147483632, not the 2147483656 bytes the
request needs, and a payload of that many bytes would end far beyond the end
mark. -/
theorem overflow_block_size :
    walk heapWide = .ok [⟨139637976727556, 4088, false, true⟩] ∧
      heapWide.mem (heapWide.heap_start + heapWide.alloc_size) = 1 ∧
      roundup8 (2147483647 + 4) = 2147483656 ∧
      ∃ h2, balloc heapWide 2147483647 = .ok (139637976727560, h2) ∧
        isAlloc h2 (139637976727560 - 4) = .ok 1 ∧
        getBlkSize h2 (139637976727560 - 4) = .ok (-2147483632) ∧
        h2.heap_start + h2.alloc_size < 139637976727560 + (roundup8 (2147483647 + 4) - 4) :=
  ⟨rfl, rfl, by decide, _, rfl, rfl, rfl, by decide⟩

/-! ## The status `bfree` returns -/

/-- On a well-formed heap `bfree` returns -1, and the heap as it was, for a
pointer that is null, not a multiple of 8, out of range, or whose header has
the allocated bit clear. -/
theorem bfree_rejected {h : Heap} {bs : List Blk} (L : Layout h bs) (ptr : Int)
    (hp0 : 0 ≤ ptr) (hp1 : ptr < 18446744073709551616) (hrej : Rejected h ptr) :
    bfree h ptr = .ok (-1, h) := by
  have R := L.toRegion
  have hT := R.top_bound
  have hs4 := R.start_mod
  by_cases h0 : ptr = 0
  · rw [h0]; exact bfree_null h
  by_cases h8 : ptr % 8 ≠ 0
  · exact bfree_misaligned h ptr h8
  have e1 : wrap64 (ptr - 4) = ptr - 4 := wrap64_id _ (by omega) (by omega)
  have e2 : wrap64 (h.heap_start + h.alloc_size) = h.heap_start + h.alloc_size :=
    wrap64_id _ (by have := R.size_nn; omega) (by omega)
  by_cases hr : ptr - 4 < h.heap_start ∨ h.heap_start + h.alloc_size ≤ ptr - 4
  · exact bfree_out_of_range h ptr (by rw [e1, e2]; exact hr)
  have hv : h.valid (ptr - 4) := R.valid (by omega) (by omega) (by omega)
  rcases hrej with h1 | h1 | h1 | h1 | h1
  · exact absurd h1 h0
  · exact absurd h1 h8
  · exact absurd (Or.inl h1) hr
  · exact absurd (Or.inr h1) hr
  · exact bfree_not_allocated h ptr (by rw [e1]; exact hv) (by rw [e1]; exact h1)

/-- Claim C5 amended: on a well-formed heap, `bfree (ptr)` returns -1 if
`ptr` is null, or not a multiple of 8, or `ptr - 4` is outside
`[heap_start, heap_start + alloc_size)`, or the header at `ptr - 4` has its
allocated bit clear; and it returns 0 if `ptr` is the payload address of a
block that the traversal reports as allocated, which is none of the four
cases. -/
theorem bfree_status (h : Heap) (ptr : Int) (W : WellFormed h) (hp0 : 0 ≤ ptr)
    (hp1 : ptr < 18446744073709551616) :
    (Rejected h ptr → bfree h ptr = .ok (-1, h)) ∧
      (Live h ptr → ¬ Rejected h ptr ∧ ∃ h2, bfree h ptr = .ok (0, h2)) := by
  obtain ⟨bs, L⟩ := W
  refine ⟨bfree_rejected L ptr hp0 hp1, ?_⟩
  rintro ⟨blocks, hw, hB⟩
  rw [walk_layout L] at hw
  rw [← Except.ok.inj hw, ← liveAt_iff] at hB
  refine ⟨not_rejected_of_live L hB, ?_⟩
  obtain ⟨pre, b, post, rfl, hb, rfl⟩ := hB
  obtain ⟨h2, _, _, _, hrun, _, _⟩ := bfree_live L hb
  exact ⟨h2, hrun⟩

/-- Claim C5 amended, at instances: on the heap of the counterexample, whose
payload holds a word with bit 0 set, the pointer to the free block is
rejected and the pointer to the allocated block is freed. -/
theorem bfree_status_witness :
    (Rejected heapPayload 139637976727584 ∧
        bfree heapPayload 139637976727584 = .ok (-1, heapPayload)) ∧
      Live heapPayload 139637976727560 ∧ ¬ Rejected heapPayload 139637976727560 ∧
        ∃ h2, bfree heapPayload 139637976727560 = .ok (0, h2) :=
  ⟨⟨by decide,
      (bfree_status heapPayload 139637976727584 ⟨_, heapPayload_layout⟩ (by decide)
        (by decide)).1 (by decide)⟩,
    ⟨_, rfl, ⟨139637976727556, 24, true, true⟩, by decide, rfl, rfl⟩,
    (bfree_status heapPayload 139637976727560 ⟨_, heapPayload_layout⟩ (by decide)
      (by decide)).2 ⟨_, rfl, ⟨139637976727556, 24, true, true⟩, by decide, rfl, rfl⟩⟩

end FlexAlloc
